import Mathlib

/-!
# Verification of the paragraph read-filtering / workflow-scheduling core

This file gives a shallow embedding, in Lean 4, of the core components of the
paragraph repository slice under verification:

* the bad-alignment read filter (`BadAlign`, from `BadAlign.hh`),
* the per-unit output path construction (`Workflow::makeOutputFile`),
* the bam-path augmentation of a unit's result (`Workflow::processGraph`),
* the `KlibAligner` strand-selection policy (header `KlibAligner.hh`; its
  implementation is not part of the sources, so it is modelled from the spec),
* a small-step interleaving model of the concurrent scheduler
  (`Workflow::processGraphs` and `Workflow::run`, from `Workflow.cpp`).

Machine integers (`size_t`) are modelled as `Nat` with explicit reduction
modulo `2 ^ 64` where overflow can matter; the C++ `double` threshold of the
bad-alignment filter is modelled as `ℚ`, with C `round` (round half away from
zero, applied here only to non-negative products) modelled by Mathlib's
`round` on `ℚ` (round half up, which agrees on non-negative arguments).
-/

set_option maxHeartbeats 1000000

namespace Paragraph

/-! ## Machine-integer helpers -/

/-- The modulus of `size_t` arithmetic (64-bit), `2 ^ 64` as a literal. -/
def W64 : Nat := 18446744073709551616

/-- `size_t` subtraction `a - b`, with wraparound. -/
def sub64 (a b : Nat) : Nat := (a % W64 + (W64 - b % W64)) % W64

/-! ## Graph, alignment and the bad-alignment filter (`BadAlign.hh`)

`decodeGraphAlignment` and the `GraphAlignment` type come from the external
graphtools library; the filter only reads, for each alignment segment of the
decoded mapping, its clipped-query length (`numClipped`), plus the mapping's
total query length (`queryLength`).  We therefore embed a decoded mapping as
the list of segment clip counts together with the query length, and give
`filterRead` the decoded mapping directly (in the C++ it decodes from
`r.graph_pos()`, `r.graph_cigar()` and the graph). -/

/-- The external sequence graph, abstracted: the filter only ever passes the
graph handle to the (external) decoder, so its contents are irrelevant here.
A C++ `Graph const*` is modelled as `Option Graph` (`none` = `nullptr`). -/
structure Graph where
  nodeCount : Nat
deriving DecidableEq

/-- One segment of a decoded graph alignment; the filter reads its
`numClipped` (a `size_t`). -/
structure AlignSegment where
  numClipped : Nat
deriving DecidableEq

/-- A decoded graph alignment (`graphtools::GraphAlignment`), restricted to
the two observations `BadAlign::filterRead` makes of it. -/
structure GraphAlignment where
  segments : List AlignSegment
  queryLength : Nat
deriving DecidableEq

/-- `query_clipped`: the loop `for (auto const& aln : mapping)
query_clipped += aln.numClipped();`, in `size_t` arithmetic. -/
def GraphAlignment.queryClipped (m : GraphAlignment) : Nat :=
  m.segments.foldl (fun acc s => (acc + s.numClipped % W64) % W64) 0

/-- The mathematical (unwrapped) sum of clipped-query lengths. -/
def GraphAlignment.clippedSum (m : GraphAlignment) : Nat :=
  (m.segments.map (fun s => s.numClipped)).sum

/-- The `readfilters::BadAlign` filter state: a graph handle (non-null once
constructed) and the `bad_align_frac_` threshold (`double`, embedded as `ℚ`). -/
structure BadAlign where
  graph : Graph
  bad_align_frac : ℚ

/-- The `BadAlign` constructor.  The C++ constructor stores its two arguments
and `assert`s that the graph pointer is not null; a null graph is the only
construction failure.  Modelled as `none` when the assertion fires. -/
def BadAlign.make (graph : Option Graph) (bad_align_frac : ℚ) : Option BadAlign :=
  match graph with
  | none => none
  | some g => some { graph := g, bad_align_frac := bad_align_frac }

/-- The comparison made by `BadAlign::filterRead`:
`query_aligned < round(bad_align_frac_ * (mapping.queryLength()))`, where
`query_aligned = mapping.queryLength() - query_clipped` in `size_t`
arithmetic. -/
def BadAlign.isBad (f : BadAlign) (mapping : GraphAlignment) : Bool :=
  decide (((sub64 mapping.queryLength mapping.queryClipped : Nat) : ℚ) <
    ((round (f.bad_align_frac * (mapping.queryLength : ℚ)) : ℤ) : ℚ))

/-- `BadAlign::filterRead`, taking the decoded mapping of the read:
sum the clipped-query lengths, subtract from the query length (`size_t`
arithmetic), flag the read `bad_align` when the aligned length is below
`round(bad_align_frac_ * queryLength)`, and return an empty reason
otherwise. -/
def BadAlign.filterRead (f : BadAlign) (mapping : GraphAlignment) : Bool × String :=
  (f.isBad mapping, if f.isBad mapping then "bad_align" else "")

/-! ## Per-unit output files (`Workflow::makeOutputFile`, `dumpOutput`) -/

/-- Splitting a character list at `'/'` separators (the semantics of
`String.splitOn "/"`, written with structural recursion). -/
def splitSlash (cs : List Char) : List (List Char) :=
  match cs with
  | [] => [[]]
  | c :: rest =>
      if c = '/' then [] :: splitSlash rest
      else
        match splitSlash rest with
        | [] => [[c]]
        | h :: t => (c :: h) :: t

/-- `boost::filesystem::path::filename` for the POSIX paths used here: the
component after the last separator (`"."` for a path ending in a separator,
as boost returns for directory-style paths). -/
def pathFilename (p : String) : String :=
  if p = "" then ""
  else
    match (splitSlash p.data).getLast? with
    | none => ""
    | some [] => "."
    | some cs => String.mk cs

/-- Whether a string's last character is the path separator. -/
def endsWithSlash (s : String) : Bool :=
  match s.data.getLast? with
  | some c => c = '/'
  | none => false

/-- `boost::filesystem` `operator/`: join with a single separator (none when
the left side is empty or already ends in one). -/
def pathJoin (dir file : String) : String :=
  if dir = "" then file
  else if endsWithSlash dir then dir ++ file
  else dir ++ "/" ++ file

/-- The output path computed by `Workflow::makeOutputFile`: the output folder
joined with the filename component of the graph-spec path, with `".gz"`
appended when gzip compression is on. -/
def makeOutputPath (outputFolderPath graphSpecPath : String) (gzipOutput : Bool) : String :=
  if gzipOutput then pathJoin outputFolderPath (pathFilename graphSpecPath) ++ ".gz"
  else pathJoin outputFolderPath (pathFilename graphSpecPath)

/-- The filesystem, abstracted for `makeOutputFile`: `openErr path` is
`some e` when opening `path` for writing fails with system error text `e`,
`none` when it succeeds. -/
structure FileSystem where
  openErr : String → Option String

/-- `Workflow::makeOutputFile`: compute the output path, open it (reporting
failure via `error(...)` with the path and `strerror(errno)`), and write the
unit's output to it.  Success returns the path written and its content. -/
def makeOutputFile (fs : FileSystem) (outputFolderPath : String) (gzipOutput : Bool)
    (output graphSpecPath : String) : Except String (String × String) :=
  match fs.openErr (makeOutputPath outputFolderPath graphSpecPath gzipOutput) with
  | some e =>
      Except.error ("ERROR: Failed to open output file '" ++
        makeOutputPath outputFolderPath graphSpecPath gzipOutput ++ "'. Error: '" ++ e ++ "'")
  | none => Except.ok (makeOutputPath outputFolderPath graphSpecPath gzipOutput, output)

/-! ## Result augmentation with bam paths (`Workflow::processGraph`) -/

/-- A minimal JSON value model (`Json::Value`), sufficient for the `"bam"`
augmentation done by `Workflow::processGraph`. -/
inductive JVal where
  | str (s : String)
  | arr (elems : List JVal)
  | obj (members : List (String × JVal))

/-- Assignment `j[key] = v` on a JSON object: overwrite the member when the
key is present, append it otherwise (jsoncpp map semantics, observed through
key lookup). -/
def JVal.set (j : JVal) (key : String) (v : JVal) : JVal :=
  match j with
  | .obj ms =>
      if ms.any (fun kv => kv.1 = key) then
        .obj (ms.map (fun kv => if kv.1 = key then (key, v) else kv))
      else
        .obj (ms ++ [(key, v)])
  | other => other

/-- Key lookup on a JSON object. -/
def JVal.get (j : JVal) (key : String) : Option JVal :=
  match j with
  | .obj ms => (ms.find? (fun kv => kv.1 = key)).map (fun kv => kv.2)
  | _ => none

/-- The `"bam"` augmentation in `Workflow::processGraph` (after
`alignAndDisambiguate` produced `outputJson`): a single string when the unit
has exactly one input path, otherwise an array of all input paths in input
order. -/
def processGraphBam (outputJson : JVal) (inputPaths : List String) : JVal :=
  if inputPaths.length = 1 then
    outputJson.set "bam" (.str (inputPaths.headD ""))
  else
    outputJson.set "bam" (.arr (inputPaths.map .str))

/-! ## KlibAligner strand selection

Only the declaration of `KlibAligner::alignRead` (with its documentation) is
part of the sources; the implementation (`KlibAlignerImpl`) is not.  The
definitions below are therefore modelled from the spec. -/

/-- A candidate alignment of one read orientation: its klib score and the
graph position / graph-CIGAR it would write back onto the read. -/
structure AlignCandidate where
  score : Int
  pos : Nat
  cigar : String
deriving DecidableEq

/-- A read, restricted to the graph-alignment fields `alignRead` writes:
mapped flag, graph position, graph-CIGAR, and whether the selected
orientation was the reverse-complement one. -/
structure Read where
  graph_mapped : Bool
  graph_pos : Option Nat
  graph_cigar : Option String
  is_graph_reverse_strand : Option Bool
deriving DecidableEq

/-- Modelled from the spec: the `KlibAligner` configuration, with the bound
path list (paths identified by their index-like ids in supplied order) and
the underlying klib local alignment of one read orientation (`true` =
reverse complement) against one path — `none` when no alignment clears the
local-alignment threshold.  The implementation of this underlying alignment
is not part of the sources. -/
structure KlibAlignerModel where
  paths : List Nat
  alignToPath : Bool → Nat → Option AlignCandidate

/-- Modelled from the spec: folding one path into the best-so-far candidate
of an orientation — a later path replaces the best only on strictly greater
score (ties keep the first-encountered path). -/
def bestStep (A : KlibAlignerModel) (rc : Bool) (best : Option AlignCandidate) (p : Nat) :
    Option AlignCandidate :=
  match best, A.alignToPath rc p with
  | none, c => c
  | some b, none => some b
  | some b, some c => if b.score < c.score then some c else some b

/-- Modelled from the spec: the best-scoring candidate for one orientation
over every configured path, ties broken by the first-encountered path in the
supplied order. -/
def KlibAlignerModel.bestCandidate (A : KlibAlignerModel) (rc : Bool) : Option AlignCandidate :=
  A.paths.foldl (bestStep A rc) none

/-- Writing a mapped selection back onto the read. -/
def writeCandidate (r : Read) (c : AlignCandidate) (rc : Bool) : Read :=
  { r with
    graph_mapped := true
    graph_pos := some c.pos
    graph_cigar := some c.cigar
    is_graph_reverse_strand := some rc }

/-- Modelled from the spec: `KlibAligner::alignRead` — align both the forward
and the reverse-complement orientation against every configured path and
select the candidate which is unique, or has the better score, defaulting to
the forward strand on ties; when neither orientation maps, mark the read
unmapped with its alignment fields unset. -/
def KlibAlignerModel.alignRead (A : KlibAlignerModel) (r : Read) : Read :=
  match A.bestCandidate false, A.bestCandidate true with
  | none, none =>
      { r with
        graph_mapped := false
        graph_pos := none
        graph_cigar := none
        is_graph_reverse_strand := none }
  | some f, none => writeCandidate r f false
  | none, some c => writeCandidate r c true
  | some f, some c => if f.score < c.score then writeCandidate r c true else writeCandidate r f false

/-! ## The concurrent scheduler (`Workflow::processGraphs`, `Workflow::run`)

The scheduler is embedded as a small-step interleaving machine.  Each atomic
step corresponds to one lock-protected critical section of the worker loop
(or to the lock-free expensive stage); a run is the left fold of the step
function over an arbitrary finite schedule of worker ids, so every theorem
quantifying over schedules covers every interleaving of the worker pool.

The aggregated output stream is modelled as a list of tokens: the framing
brackets written by `Workflow::run`, the separating commas, and one `item`
token per non-empty unit result written by `dumpOutput` (a failed unit leaves
`output` empty, so its emission writes no item token — but does write the
separator and sets the first-printed flag, exactly as the code does). -/

/-- Tokens of the aggregated output stream. -/
inductive Tok where
  | lbrack
  | rbrack
  | comma
  | item (g p : Nat)
deriving DecidableEq

/-- Observable events of a run, for stating trace properties.  `w` is the
worker, `g` the read-source group (index into `unprocessedInputs_`), `p` the
index of the claimed graph-spec path. -/
inductive Ev where
  /-- the worker claimed path `p` for group `g` (cursor advanced). -/
  | claim (w g p : Nat)
  /-- opening the read-source handles for the claimed unit threw. -/
  | openFail (w g p : Nat)
  /-- the terminate flag was observed after claiming; the unit is abandoned. -/
  | obsTerm (w g p : Nat)
  /-- the worker released the lock and entered the unit's expensive stage. -/
  | beginEx (w g p : Nat)
  /-- the per-unit output file was written (during the expensive stage). -/
  | fileWrite (w g p : Nat)
  /-- the expensive stage finished (`ok = false`: it threw). -/
  | exDone (w g p : Nat) (ok : Bool)
  /-- the lock was re-acquired after the expensive stage (on failure, the
  cleanup set the terminate flag under the lock). -/
  | endEx (w g p : Nat) (ok : Bool)
  /-- the unit's result was written to the aggregated stream position
  (empty result when `ok = false`). -/
  | emitRes (w g p : Nat) (ok : Bool)
  /-- the (empty) result of a unit whose handle opening failed was written
  to the aggregated stream position. -/
  | emitOF (w g p : Nat)
deriving DecidableEq

/-- Per-worker control locations of `Workflow::processGraphs`. -/
inductive Pc where
  /-- about to start the `for` body for group `g` (needs the lock). -/
  | atGroup (g : Nat)
  /-- holding the lock, at the `while` condition for group `g`. -/
  | loopW (g : Nat)
  /-- holding the lock, unit `(g, p)` claimed and its readers opened,
  about to check the terminate flag. -/
  | claimed (g p : Nat)
  /-- in the expensive stage for unit `(g, p)`, not holding the lock. -/
  | expensive (g p : Nat)
  /-- expensive stage done (`ok` its outcome), waiting to re-acquire the
  lock (the `unlock_guard` destructor / exception unwinding). -/
  | relock (g p : Nat) (ok : Bool)
  /-- holding the lock, about to write the unit result (`ok` = success)
  to the aggregated stream position. -/
  | emitR (g p : Nat) (ok : Bool)
  /-- holding the lock, about to write the empty result of an open-failed
  unit to the aggregated stream position. -/
  | emitF (g p : Nat)
  /-- fell off the end of the `for` loop over groups. -/
  | done
deriving DecidableEq

/-- Scheduler configuration: group and path counts, whether the aggregated
output (`output_file_path`) and the per-unit output folder are configured,
the two failure oracles (`openOk g p` = opening the readers of unit `(g,p)`
succeeds; `unitOk g p` = the unit's expensive stage, including its per-unit
file write, succeeds), and the worker pool size. -/
structure Cfg where
  numGroups : Nat
  numPaths : Nat
  aggregated : Bool
  perUnitDir : Bool
  openOk : Nat → Nat → Bool
  unitOk : Nat → Nat → Bool
  numWorkers : Nat

/-- The shared scheduler state plus per-worker control state. -/
structure St where
  pc : Nat → Pc
  cursor : Nat → Nat
  lock : Option Nat
  terminate : Bool
  firstPrinted : Bool
  stream : List Tok
  log : List Ev

/-- The initial state: every worker at the head of the group list, cursors at
zero, lock free, flags clear. -/
def initSt : St :=
  { pc := fun _ => Pc.atGroup 0
    cursor := fun _ => 0
    lock := none
    terminate := false
    firstPrinted := false
    stream := []
    log := [] }

/-- The tokens appended to the aggregated stream when one unit result is
written: nothing at all when no aggregated output is configured; otherwise a
separating comma (unless this is the first write) followed by the unit's
item — which is absent when the unit failed, because its `output` string is
empty and writing it appends nothing. -/
def emitToks (c : Cfg) (s : St) (g p : Nat) (ok : Bool) : List Tok :=
  if c.aggregated then
    (if s.firstPrinted then [Tok.comma] else []) ++ (if ok then [Tok.item g p] else [])
  else []

/-- One atomic step of worker `w`.  Steps that would block (the lock is
taken, or the worker is done, or `w` is not part of the pool) leave the state
unchanged. -/
def step (c : Cfg) (s : St) (w : Nat) : St :=
  if w < c.numWorkers then
    match s.pc w with
    | Pc.atGroup g =>
        if c.numGroups ≤ g then { s with pc := Function.update s.pc w Pc.done }
        else
          match s.lock with
          | none => { s with lock := some w, pc := Function.update s.pc w (Pc.loopW g) }
          | some _ => s
    | Pc.loopW g =>
        if c.numPaths ≤ s.cursor g then
          { s with lock := none, pc := Function.update s.pc w (Pc.atGroup (g + 1)) }
        else
          let p := s.cursor g
          if c.openOk g p then
            { s with
              cursor := Function.update s.cursor g (p + 1)
              pc := Function.update s.pc w (Pc.claimed g p)
              log := s.log ++ [Ev.claim w g p] }
          else
            { s with
              cursor := Function.update s.cursor g (p + 1)
              terminate := true
              pc := Function.update s.pc w (Pc.emitF g p)
              log := s.log ++ [Ev.claim w g p, Ev.openFail w g p] }
    | Pc.claimed g p =>
        if s.terminate then
          { s with
            lock := none
            pc := Function.update s.pc w (Pc.atGroup (g + 1))
            log := s.log ++ [Ev.obsTerm w g p] }
        else
          { s with
            lock := none
            pc := Function.update s.pc w (Pc.expensive g p)
            log := s.log ++ [Ev.beginEx w g p] }
    | Pc.expensive g p =>
        let ok := c.unitOk g p
        { s with
          pc := Function.update s.pc w (Pc.relock g p ok)
          log := s.log ++
            (if ok && c.perUnitDir then [Ev.fileWrite w g p] else []) ++ [Ev.exDone w g p ok] }
    | Pc.relock g p ok =>
        match s.lock with
        | none =>
            { s with
              lock := some w
              terminate := s.terminate || !ok
              pc := Function.update s.pc w (Pc.emitR g p ok)
              log := s.log ++ [Ev.endEx w g p ok] }
        | some _ => s
    | Pc.emitR g p ok =>
        { s with
          stream := s.stream ++ emitToks c s g p ok
          firstPrinted := s.firstPrinted || c.aggregated
          pc := Function.update s.pc w (Pc.loopW g)
          log := s.log ++ [Ev.emitRes w g p ok] }
    | Pc.emitF g p =>
        { s with
          stream := s.stream ++ emitToks c s g p false
          firstPrinted := s.firstPrinted || c.aggregated
          pc := Function.update s.pc w (Pc.loopW g)
          log := s.log ++ [Ev.emitOF w g p] }
    | Pc.done => s
  else s

/-- Running the worker pool under an arbitrary finite schedule of worker ids
(every interleaving is some schedule). -/
def runSched (c : Cfg) (sched : List Nat) : St :=
  sched.foldl (step c) initSt

/-- Whether `Workflow::run` writes the framing tokens around the aggregated
stream: an aggregated output is configured and there is more than one
graph-spec path (`!outputFilePath_.empty() && 1 < graphSpecPaths_.size()`). -/
def frameWritten (c : Cfg) : Bool := c.aggregated && decide (1 < c.numPaths)

/-- The full aggregated output of `Workflow::run`: the opening framing token
(written before the pool is launched), the stream produced by the workers,
and the closing framing token (written after the pool has joined). -/
def output (c : Cfg) (s : St) : List Tok :=
  (if frameWritten c then [Tok.lbrack] else []) ++ s.stream ++
    (if frameWritten c then [Tok.rbrack] else [])

/-- All workers of the pool have finished. -/
def allDone (c : Cfg) (s : St) : Prop := ∀ w < c.numWorkers, s.pc w = Pc.done

instance (c : Cfg) (s : St) : Decidable (allDone c s) := Nat.decidableBallLT _ _

/-- The number of processing units of a run (read-source groups crossed with
graph-spec paths). -/
def unitCount (c : Cfg) : Nat := c.numGroups * c.numPaths

/-! ### Log projections -/

/-- The paths claimed for group `g`, in claim order. -/
def evClaims (g : Nat) (l : List Ev) : List Nat :=
  l.filterMap fun e =>
    match e with
    | Ev.claim _ g' p => if g' = g then some p else none
    | _ => none

/-- The units of all claim events, in order. -/
def claimUnits (l : List Ev) : List (Nat × Nat) :=
  l.filterMap fun e => match e with | Ev.claim _ g p => some (g, p) | _ => none

/-- The units of all open-failure events. -/
def openFailUnits (l : List Ev) : List (Nat × Nat) :=
  l.filterMap fun e => match e with | Ev.openFail _ g p => some (g, p) | _ => none

/-- The units of all terminate-observation events. -/
def obsTermUnits (l : List Ev) : List (Nat × Nat) :=
  l.filterMap fun e => match e with | Ev.obsTerm _ g p => some (g, p) | _ => none

/-- The units whose expensive stage began. -/
def beginUnits (l : List Ev) : List (Nat × Nat) :=
  l.filterMap fun e => match e with | Ev.beginEx _ g p => some (g, p) | _ => none

/-- The units whose expensive stage finished computing. -/
def exDoneUnits (l : List Ev) : List (Nat × Nat) :=
  l.filterMap fun e => match e with | Ev.exDone _ g p _ => some (g, p) | _ => none

/-- The units whose worker re-acquired the lock after the expensive stage. -/
def endExUnits (l : List Ev) : List (Nat × Nat) :=
  l.filterMap fun e => match e with | Ev.endEx _ g p _ => some (g, p) | _ => none

/-- The units emitted after a completed expensive stage. -/
def emitRUnits (l : List Ev) : List (Nat × Nat) :=
  l.filterMap fun e => match e with | Ev.emitRes _ g p _ => some (g, p) | _ => none

/-- The units emitted after an open failure. -/
def emitOFUnits (l : List Ev) : List (Nat × Nat) :=
  l.filterMap fun e => match e with | Ev.emitOF _ g p => some (g, p) | _ => none

/-- All aggregated-stream writes, in stream order, with whether each wrote an
item (`true`) or an empty failed-unit result (`false`). -/
def emitsAll (l : List Ev) : List ((Nat × Nat) × Bool) :=
  l.filterMap fun e =>
    match e with
    | Ev.emitRes _ g p ok => some ((g, p), ok)
    | Ev.emitOF _ g p => some ((g, p), false)
    | _ => none

/-- The aggregated stream contents determined by the emission sequence: the
first write puts its item (nothing if the unit failed), every later write
puts a comma and then its item (nothing if the unit failed). -/
def streamOfRest (l : List ((Nat × Nat) × Bool)) : List Tok :=
  match l with
  | [] => []
  | (u, ok) :: rest =>
      Tok.comma :: ((if ok then [Tok.item u.1 u.2] else []) ++ streamOfRest rest)

/-- See `streamOfRest`. -/
def streamOf (l : List ((Nat × Nat) × Bool)) : List Tok :=
  match l with
  | [] => []
  | (u, ok) :: rest => (if ok then [Tok.item u.1 u.2] else []) ++ streamOfRest rest

/-- Comma-separated item tokens, one per unit. -/
def interComma (us : List (Nat × Nat)) : List Tok :=
  match us with
  | [] => []
  | [u] => [Tok.item u.1 u.2]
  | u :: rest => Tok.item u.1 u.2 :: Tok.comma :: interComma rest

/-- Syntactic well-formedness of the aggregated output: empty, or a single
bare item, or bracketed comma-separated items. -/
def WellFormed (ts : List Tok) : Prop :=
  ts = [] ∨ (∃ u : Nat × Nat, ts = [Tok.item u.1 u.2]) ∨
    ∃ us : List (Nat × Nat), ts = Tok.lbrack :: (interComma us ++ [Tok.rbrack])

/-! ### Invariant bookkeeping -/

/-- Control locations that hold the shared lock. -/
def pcLocky (pc : Pc) : Bool :=
  match pc with
  | Pc.loopW _ => true
  | Pc.claimed _ _ => true
  | Pc.emitR _ _ _ => true
  | Pc.emitF _ _ => true
  | _ => false

/-- The group a control location is working on (`numGroups` once done). -/
def pcGroup (c : Cfg) (pc : Pc) : Nat :=
  match pc with
  | Pc.atGroup g => g
  | Pc.loopW g => g
  | Pc.claimed g _ => g
  | Pc.expensive g _ => g
  | Pc.relock g _ _ => g
  | Pc.emitR g _ _ => g
  | Pc.emitF g _ => g
  | Pc.done => c.numGroups

/-- The claimed-but-unresolved unit of a control location. -/
def pendClaimed (pc : Pc) : Multiset (Nat × Nat) :=
  match pc with
  | Pc.claimed g p => {(g, p)}
  | _ => 0

/-- The unit currently in its expensive stage at a control location. -/
def pendEx (pc : Pc) : Multiset (Nat × Nat) :=
  match pc with
  | Pc.expensive g p => {(g, p)}
  | _ => 0

/-- The unit currently waiting to re-acquire the lock at a control
location. -/
def pendRelock (pc : Pc) : Multiset (Nat × Nat) :=
  match pc with
  | Pc.relock g p _ => {(g, p)}
  | _ => 0

/-- The unit about to be emitted (processed case) at a control location. -/
def pendEmitR (pc : Pc) : Multiset (Nat × Nat) :=
  match pc with
  | Pc.emitR g p _ => {(g, p)}
  | _ => 0

/-- The unit about to be emitted (open-failure case) at a control
location. -/
def pendEmitF (pc : Pc) : Multiset (Nat × Nat) :=
  match pc with
  | Pc.emitF g p => {(g, p)}
  | _ => 0

/-- Sum of a per-control-location multiset over the worker pool. -/
def pendSum (c : Cfg) (pc : Nat → Pc) (f : Pc → Multiset (Nat × Nat)) : Multiset (Nat × Nat) :=
  ∑ w ∈ Finset.range c.numWorkers, f (pc w)

/-- Whether an event can only happen while the terminate flag is set, or
itself sets it (open failures and terminate observations happen under the
lock with the flag set; a failed unit's `endEx` is the point where the
unwinding re-acquired the lock and the cleanup set the flag). -/
def evSetsOrSeesTerm (e : Ev) : Bool :=
  match e with
  | Ev.openFail _ _ _ => true
  | Ev.obsTerm _ _ _ => true
  | Ev.endEx _ _ _ ok => !ok
  | _ => false

/-- The global inductive invariant of the scheduler machine. -/
structure Inv (c : Cfg) (s : St) : Prop where
  lockPc : ∀ w, pcLocky (s.pc w) = true → s.lock = some w
  pcLock : ∀ w, s.lock = some w → pcLocky (s.pc w) = true ∧ w < c.numWorkers
  cursorLe : ∀ g, s.cursor g ≤ c.numPaths
  pcAtLe : ∀ w g, s.pc w = Pc.atGroup g → g ≤ c.numGroups
  grpAll : ∀ w, (∀ g, s.pc w ≠ Pc.atGroup g) → s.pc w ≠ Pc.done →
    pcGroup c (s.pc w) < c.numGroups
  claimsCursor : ∀ g, evClaims g s.log = List.range (s.cursor g)
  claimsG : ∀ w g p, Ev.claim w g p ∈ s.log → g < c.numGroups
  msClaim : (claimUnits s.log : Multiset (Nat × Nat)) =
    (beginUnits s.log : Multiset (Nat × Nat)) + (openFailUnits s.log : Multiset (Nat × Nat)) +
      (obsTermUnits s.log : Multiset (Nat × Nat)) + pendSum c s.pc pendClaimed
  msBegin : (beginUnits s.log : Multiset (Nat × Nat)) =
    (exDoneUnits s.log : Multiset (Nat × Nat)) + pendSum c s.pc pendEx
  msExDone : (exDoneUnits s.log : Multiset (Nat × Nat)) =
    (endExUnits s.log : Multiset (Nat × Nat)) + pendSum c s.pc pendRelock
  msEnd : (endExUnits s.log : Multiset (Nat × Nat)) =
    (emitRUnits s.log : Multiset (Nat × Nat)) + pendSum c s.pc pendEmitR
  msOpenFail : (openFailUnits s.log : Multiset (Nat × Nat)) =
    (emitOFUnits s.log : Multiset (Nat × Nat)) + pendSum c s.pc pendEmitF
  streamAgg : c.aggregated = true →
    s.stream = streamOf (emitsAll s.log) ∧ s.firstPrinted = !(emitsAll s.log).isEmpty
  okFaithEnd : ∀ w g p ok, Ev.endEx w g p ok ∈ s.log → ok = c.unitOk g p
  okFaithEmit : ∀ w g p ok, Ev.emitRes w g p ok ∈ s.log → ok = c.unitOk g p
  okFaithOF : ∀ w g p, Ev.openFail w g p ∈ s.log → c.openOk g p = false
  okFaithRelock : ∀ w g p ok, s.pc w = Pc.relock g p ok → ok = c.unitOk g p
  okFaithEmitR : ∀ w g p ok, s.pc w = Pc.emitR g p ok → ok = c.unitOk g p
  termEv : ∀ e ∈ s.log, evSetsOrSeesTerm e = true → s.terminate = true
  grpObs : ∀ w g p, Ev.obsTerm w g p ∈ s.log → g < pcGroup c (s.pc w)
  obsClaims : ∀ w g p l1 l2, s.log = l1 ++ Ev.obsTerm w g p :: l2 →
    ∀ g' p', Ev.claim w g' p' ∈ l2 → g < g'
  termFree : s.terminate = false →
    ∀ w, w < c.numWorkers → ∀ g, g < pcGroup c (s.pc w) → s.cursor g = c.numPaths

/-! ### Claim propositions under test

The two claims refuted below are stated here verbatim as propositions, so
that their counterexample theorems can prove their negations. -/

/-- Claim C2 as stated: constructing the bad-alignment filter succeeds
exactly when the graph handle is non-null and the threshold fraction lies in
`(0, 1]` (an out-of-range threshold failing at construction time). -/
def ClaimC2 : Prop :=
  ∀ (g : Option Graph) (frac : ℚ),
    (BadAlign.make g frac).isSome = true ↔ (g.isSome = true ∧ 0 < frac ∧ frac ≤ 1)

/-- Claim C3 as stated: for every failure-free complete run with an
aggregated output configured, the opening framing token is written only if
more than one unit exists, and the aggregated output is well-formed. -/
def ClaimC3 : Prop :=
  ∀ (c : Cfg) (sched : List Nat), c.aggregated = true →
    (∀ g p, c.openOk g p = true) → (∀ g p, c.unitOk g p = true) →
    allDone c (runSched c sched) →
    (frameWritten c = true → 1 < unitCount c) ∧ WellFormed (output c (runSched c sched))

/-- Claim C8 as stated: in every reachable state and for every step of a
worker, cursor advancement happens only while that worker holds the lock,
aggregated-stream writes happen only while it holds the lock, the expensive
stage runs without the lock, and the unit's result is written to the
per-unit output file only after the lock has been re-acquired (i.e. any new
per-unit file write happens while the writing worker holds the lock). -/
def ClaimC8 : Prop :=
  ∀ (c : Cfg) (sched : List Nat) (w : Nat),
    ((step c (runSched c sched) w).cursor ≠ (runSched c sched).cursor →
      (runSched c sched).lock = some w) ∧
    ((step c (runSched c sched) w).stream ≠ (runSched c sched).stream →
      (runSched c sched).lock = some w) ∧
    (∀ g p, (runSched c sched).pc w = Pc.expensive g p → (runSched c sched).lock ≠ some w) ∧
    (∀ g p, Ev.fileWrite w g p ∈ (step c (runSched c sched) w).log →
      Ev.fileWrite w g p ∈ (runSched c sched).log ∨ (runSched c sched).lock = some w)

/-! ## Theorems -/

/-! ### Helper lemmas for the bad-alignment filter -/

theorem foldClip_eq (l : List AlignSegment) (a : Nat)
    (h : a + (l.map (fun s => s.numClipped)).sum < W64) :
    l.foldl (fun acc s => (acc + s.numClipped % W64) % W64) a
      = a + (l.map (fun s => s.numClipped)).sum := by
  induction l generalizing a with
  | nil => simp
  | cons s l ih =>
    simp only [List.map_cons, List.sum_cons] at h
    simp only [List.foldl_cons, List.map_cons, List.sum_cons]
    have hW : W64 = 18446744073709551616 := rfl
    have hs : s.numClipped % W64 = s.numClipped := Nat.mod_eq_of_lt (by omega)
    have ha : (a + s.numClipped) % W64 = a + s.numClipped := Nat.mod_eq_of_lt (by omega)
    rw [hs, ha, ih (a + s.numClipped) (by omega)]
    omega

theorem sub64_eq (a b : Nat) (hba : b ≤ a) (ha : a < W64) :
    sub64 a b = a - b := by
  have hW : W64 = 18446744073709551616 := rfl
  unfold sub64
  have h1 : a % W64 = a := Nat.mod_eq_of_lt ha
  have h2 : b % W64 = b := Nat.mod_eq_of_lt (lt_of_le_of_lt hba ha)
  rw [h1, h2]
  have h3 : a + (W64 - b) = (a - b) + W64 := by omega
  rw [h3, Nat.add_mod_right]
  exact Nat.mod_eq_of_lt (by omega)

theorem queryClipped_eq (m : GraphAlignment) (h : m.clippedSum < W64) :
    m.queryClipped = m.clippedSum := by
  unfold GraphAlignment.queryClipped GraphAlignment.clippedSum
  unfold GraphAlignment.clippedSum at h
  simpa using foldClip_eq m.segments 0 (by omega)

/-! ### C1: the bad-alignment filter's exclusion rule -/

/-- Claim C1: `BadAlign::filterRead` excludes a read (returning `true` with
reason `"bad_align"`) iff the aligned length — query length minus the summed
clipped-query length over all decoded segments — is less than
`round(threshold_fraction * query_length)`, and a read that passes is
returned with an empty reason string. -/
theorem badAlign_filterRead_correct (f : BadAlign) (m : GraphAlignment)
    (hcl : m.clippedSum ≤ m.queryLength) (hlen : m.queryLength < W64) :
    ((f.filterRead m).1 = true ↔
      ((m.queryLength : ℚ) - (m.clippedSum : ℚ) <
        ((round (f.bad_align_frac * (m.queryLength : ℚ)) : ℤ) : ℚ))) ∧
    ((f.filterRead m).1 = true → (f.filterRead m).2 = "bad_align") ∧
    ((f.filterRead m).1 = false → (f.filterRead m).2 = "") := by
  have hq : m.queryClipped = m.clippedSum :=
    queryClipped_eq m (lt_of_le_of_lt hcl hlen)
  have hsub : sub64 m.queryLength m.queryClipped = m.queryLength - m.clippedSum := by
    rw [hq]; exact sub64_eq _ _ hcl hlen
  have hcast : ((m.queryLength - m.clippedSum : Nat) : ℚ)
      = (m.queryLength : ℚ) - (m.clippedSum : ℚ) := Nat.cast_sub hcl
  have h1 : (f.filterRead m).1 = f.isBad m := rfl
  have hiff : f.isBad m = true ↔
      ((m.queryLength : ℚ) - (m.clippedSum : ℚ) <
        ((round (f.bad_align_frac * (m.queryLength : ℚ)) : ℤ) : ℚ)) := by
    unfold BadAlign.isBad
    rw [decide_eq_true_iff, hsub, hcast]
  refine ⟨by rw [h1]; exact hiff, ?_, ?_⟩
  · intro h
    rw [h1] at h
    show (if f.isBad m then "bad_align" else "") = "bad_align"
    rw [h]
    rfl
  · intro h
    rw [h1] at h
    show (if f.isBad m then "bad_align" else "") = ""
    rw [h]
    rfl

/-- Witness for C1, at the boundary case from the claim:
`threshold_fraction = 4/5`, `query_length = 5`, so the threshold count is
`round(4) = 4`; a read with one segment clipping 2 bases (aligned length 3)
is excluded with reason `"bad_align"`, one clipping 1 base (aligned length 4)
passes with an empty reason. -/
theorem badAlign_filterRead_correct_witness :
    GraphAlignment.clippedSum ⟨[⟨2⟩], 5⟩ ≤ 5 ∧ (5 : Nat) < W64 ∧
    (({ graph := ⟨1⟩, bad_align_frac := 4/5 } : BadAlign).filterRead ⟨[⟨2⟩], 5⟩).1 = true ∧
    (({ graph := ⟨1⟩, bad_align_frac := 4/5 } : BadAlign).filterRead ⟨[⟨2⟩], 5⟩).2 = "bad_align" ∧
    (({ graph := ⟨1⟩, bad_align_frac := 4/5 } : BadAlign).filterRead ⟨[⟨1⟩], 5⟩).1 = false ∧
    (({ graph := ⟨1⟩, bad_align_frac := 4/5 } : BadAlign).filterRead ⟨[⟨1⟩], 5⟩).2 = "" := by
  have h3 := badAlign_filterRead_correct { graph := ⟨1⟩, bad_align_frac := 4/5 } ⟨[⟨2⟩], 5⟩
    (by decide) (by decide)
  have h4 := badAlign_filterRead_correct { graph := ⟨1⟩, bad_align_frac := 4/5 } ⟨[⟨1⟩], 5⟩
    (by decide) (by decide)
  have hround : ((round ((4/5 : ℚ) * ((5 : Nat) : ℚ)) : ℤ) : ℚ) = 4 := by
    norm_num
  have hbad : (({ graph := ⟨1⟩, bad_align_frac := 4/5 } : BadAlign).filterRead ⟨[⟨2⟩], 5⟩).1
      = true := by
    refine h3.1.mpr ?_
    show ((((5 : Nat) : ℚ)) - (((GraphAlignment.mk [⟨2⟩] 5).clippedSum : Nat) : ℚ) < _)
    rw [show (GraphAlignment.mk [⟨2⟩] 5).clippedSum = 2 from rfl, hround]
    norm_num
  have hok : (({ graph := ⟨1⟩, bad_align_frac := 4/5 } : BadAlign).filterRead ⟨[⟨1⟩], 5⟩).1
      = false := by
    by_contra hne
    have hne' : (({ graph := ⟨1⟩, bad_align_frac := 4/5 } : BadAlign).filterRead
        ⟨[⟨1⟩], 5⟩).1 = true := by
      revert hne
      cases h : (({ graph := ⟨1⟩, bad_align_frac := 4/5 } : BadAlign).filterRead
        ⟨[⟨1⟩], 5⟩).1 <;> simp
    have h5 := h4.1.mp hne'
    rw [show (GraphAlignment.mk [⟨1⟩] 5).clippedSum = 1 from rfl] at h5
    rw [hround] at h5
    norm_num at h5
  exact ⟨by decide, by decide, hbad, h3.2.1 hbad, hok, h4.2.2 hok⟩

/-! ### C2: the bad-alignment filter's construction checks -/

/-- Counterexample for C2 as stated: constructing `BadAlign` with a non-null
graph and the out-of-range threshold `2` succeeds — the constructor does not
validate the threshold range. -/
theorem badAlign_ctor_claim_refuted : ¬ ClaimC2 := by
  intro h
  have h2 := (h (some ⟨1⟩) 2).mp rfl
  norm_num at h2

/-- Claim C2 amended: constructing the bad-alignment filter fails exactly
when the graph handle is null (the `assert`); the threshold fraction is not
validated at construction time, so out-of-range thresholds are accepted. -/
theorem badAlign_ctor_amended (g : Option Graph) (frac : ℚ) :
    (BadAlign.make g frac).isSome = g.isSome := by
  cases g <;> rfl

/-! ### C9: bam-path augmentation of a unit's result -/

theorem find_map_set (ms : List (String × JVal)) (k : String) (v : JVal)
    (hm : ms.any (fun kv => kv.1 = k) = true) :
    List.find? (fun kv => kv.1 = k) (ms.map (fun kv => if kv.1 = k then (k, v) else kv))
      = some (k, v) := by
  induction ms with
  | nil => simp at hm
  | cons a ms ih =>
    by_cases ha : a.1 = k
    · simp [List.find?, ha]
    · have hm' : ms.any (fun kv => kv.1 = k) = true := by
        simp only [List.any_cons] at hm
        simpa [ha] using hm
      simp only [List.map_cons, if_neg ha]
      rw [List.find?_cons_of_neg _ (by simpa using ha)]
      exact ih hm'

theorem find_append_new (ms : List (String × JVal)) (k : String) (v : JVal)
    (hm : ms.any (fun kv => kv.1 = k) = false) :
    List.find? (fun kv => kv.1 = k) (ms ++ [(k, v)]) = some (k, v) := by
  induction ms with
  | nil => simp [List.find?]
  | cons a ms ih =>
    have ha : ¬ a.1 = k := by
      simp only [List.any_cons, Bool.or_eq_false_iff] at hm
      simpa using hm.1
    have hm' : ms.any (fun kv => kv.1 = k) = false := by
      simp only [List.any_cons, Bool.or_eq_false_iff] at hm
      exact hm.2
    rw [List.cons_append, List.find?_cons_of_neg _ (by simpa using ha)]
    exact ih hm'

theorem jval_set_get (ms : List (String × JVal)) (k : String) (v : JVal) :
    ((JVal.obj ms).set k v).get k = some v := by
  cases hm : ms.any (fun kv => kv.1 = k) with
  | true =>
      have hset : (JVal.obj ms).set k v
          = JVal.obj (ms.map fun kv => if kv.1 = k then (k, v) else kv) := by
        simp [JVal.set, hm]
      rw [hset]
      simp only [JVal.get]
      rw [find_map_set ms k v hm]
      rfl
  | false =>
      have hset : (JVal.obj ms).set k v = JVal.obj (ms ++ [(k, v)]) := by
        simp [JVal.set, hm]
      rw [hset]
      simp only [JVal.get]
      rw [find_append_new ms k v hm]
      rfl

/-- Claim C9: `Workflow::processGraph` augments the disambiguated result with
the originating read-source path(s) under the `"bam"` key — a single string
when the unit has exactly one input path, and the list of all input paths in
input order when it has more than one. -/
theorem processGraph_bam_augmentation (ms : List (String × JVal)) (inputPaths : List String) :
    (∀ p, inputPaths = [p] →
      (processGraphBam (JVal.obj ms) inputPaths).get "bam" = some (JVal.str p)) ∧
    (1 < inputPaths.length →
      (processGraphBam (JVal.obj ms) inputPaths).get "bam" =
        some (JVal.arr (inputPaths.map JVal.str))) := by
  constructor
  · intro p hp
    subst hp
    unfold processGraphBam
    simp only [List.length_singleton, if_true]
    exact jval_set_get ms "bam" (JVal.str p)
  · intro h
    unfold processGraphBam
    have hne : ¬ inputPaths.length = 1 := by omega
    simp only [hne, if_false]
    exact jval_set_get ms "bam" (JVal.arr (inputPaths.map JVal.str))

/-- Witness for C9: a unit with the two input paths `"a.bam"`, `"b.bam"`
gets `"bam"` bound to the two-element list in input order; a unit with the
single input path `"solo.bam"` gets `"bam"` bound to that single string. -/
theorem processGraph_bam_augmentation_witness :
    (["solo.bam"] : List String) = ["solo.bam"] ∧
    1 < (["a.bam", "b.bam"] : List String).length ∧
    (processGraphBam (JVal.obj [("x", JVal.str "y")]) ["a.bam", "b.bam"]).get "bam" =
      some (JVal.arr [JVal.str "a.bam", JVal.str "b.bam"]) ∧
    (processGraphBam (JVal.obj [("x", JVal.str "y")]) ["solo.bam"]).get "bam" =
      some (JVal.str "solo.bam") := by
  refine ⟨rfl, by decide, ?_, ?_⟩
  · exact (processGraph_bam_augmentation [("x", JVal.str "y")] ["a.bam", "b.bam"]).2 (by decide)
  · exact (processGraph_bam_augmentation [("x", JVal.str "y")] ["solo.bam"]).1 "solo.bam" rfl

/-! ### C7: KlibAligner orientation selection policy -/

theorem bestStep_none_iff (A : KlibAlignerModel) (rc : Bool) (acc : Option AlignCandidate)
    (p : Nat) : bestStep A rc acc p = none ↔ acc = none ∧ A.alignToPath rc p = none := by
  cases acc with
  | none =>
      unfold bestStep
      cases A.alignToPath rc p <;> simp
  | some b =>
      unfold bestStep
      cases h : A.alignToPath rc p with
      | none => simp
      | some c => by_cases hsc : b.score < c.score <;> simp [hsc]

theorem bestStep_mono (A : KlibAlignerModel) (rc : Bool) (acc : Option AlignCandidate)
    (p : Nat) (b : AlignCandidate) (hb : acc = some b) :
    ∃ b', bestStep A rc acc p = some b' ∧ b.score ≤ b'.score := by
  subst hb
  unfold bestStep
  cases h : A.alignToPath rc p with
  | none => exact ⟨b, rfl, le_refl _⟩
  | some c =>
      by_cases hsc : b.score < c.score
      · exact ⟨c, by simp [hsc], le_of_lt hsc⟩
      · exact ⟨b, by simp [hsc], le_refl _⟩

theorem bestStep_dominates (A : KlibAlignerModel) (rc : Bool) (acc : Option AlignCandidate)
    (p : Nat) (c' : AlignCandidate) (hc : A.alignToPath rc p = some c') :
    ∃ b', bestStep A rc acc p = some b' ∧ c'.score ≤ b'.score := by
  cases acc with
  | none => exact ⟨c', by simp [bestStep, hc], le_refl _⟩
  | some b =>
      unfold bestStep
      rw [hc]
      by_cases hsc : b.score < c'.score
      · exact ⟨c', by simp [hsc], le_refl _⟩
      · exact ⟨b, by simp [hsc], le_of_not_lt hsc⟩

theorem bestStep_source (A : KlibAlignerModel) (rc : Bool) (acc : Option AlignCandidate)
    (p : Nat) (c : AlignCandidate) (h : bestStep A rc acc p = some c) :
    acc = some c ∨ A.alignToPath rc p = some c := by
  cases acc with
  | none =>
      right
      simpa [bestStep] using h
  | some b =>
      cases hc : A.alignToPath rc p with
      | none =>
          left
          simpa [bestStep, hc] using h
      | some c' =>
          by_cases hsc : b.score < c'.score
          · right
            have hs : bestStep A rc (some b) p = some c' := by simp [bestStep, hc, hsc]
            rw [hs] at h
            exact h
          · left
            have hs : bestStep A rc (some b) p = some b := by simp [bestStep, hc, hsc]
            rw [hs] at h
            exact h

theorem bestFold_none_iff (A : KlibAlignerModel) (rc : Bool) (l : List Nat)
    (acc : Option AlignCandidate) :
    l.foldl (bestStep A rc) acc = none ↔
      acc = none ∧ ∀ p ∈ l, A.alignToPath rc p = none := by
  induction l generalizing acc with
  | nil => simp
  | cons p l ih =>
      rw [List.foldl_cons, ih (bestStep A rc acc p)]
      rw [bestStep_none_iff]
      constructor
      · rintro ⟨⟨h1, h2⟩, h3⟩
        exact ⟨h1, by
          intro q hq
          rcases List.mem_cons.mp hq with hq | hq
          · exact hq ▸ h2
          · exact h3 q hq⟩
      · rintro ⟨h1, h2⟩
        exact ⟨⟨h1, h2 p (List.mem_cons_self p l)⟩, fun q hq => h2 q (List.mem_cons_of_mem p hq)⟩

theorem bestFold_some (A : KlibAlignerModel) (rc : Bool) (l : List Nat)
    (acc : Option AlignCandidate) (c : AlignCandidate)
    (h : l.foldl (bestStep A rc) acc = some c) :
    (acc = some c ∨ ∃ p ∈ l, A.alignToPath rc p = some c) ∧
      (∀ b, acc = some b → b.score ≤ c.score) ∧
      (∀ p ∈ l, ∀ c', A.alignToPath rc p = some c' → c'.score ≤ c.score) := by
  induction l generalizing acc with
  | nil =>
      refine ⟨Or.inl h, ?_, by simp⟩
      intro b hb
      rw [hb] at h
      cases h
      exact le_refl _
  | cons p l ih =>
      rw [List.foldl_cons] at h
      obtain ⟨ih1, ih2, ih3⟩ := ih (bestStep A rc acc p) h
      refine ⟨?_, ?_, ?_⟩
      · rcases ih1 with hstep | ⟨q, hq, hal⟩
        · rcases bestStep_source A rc acc p c hstep with hacc | hal
          · exact Or.inl hacc
          · exact Or.inr ⟨p, List.mem_cons_self p l, hal⟩
        · exact Or.inr ⟨q, List.mem_cons_of_mem p hq, hal⟩
      · intro b hb
        obtain ⟨b', hb', hle⟩ := bestStep_mono A rc acc p b hb
        exact le_trans hle (ih2 b' hb')
      · intro q hq c' hc'
        rcases List.mem_cons.mp hq with hq | hq
        · subst hq
          obtain ⟨b', hb', hle⟩ := bestStep_dominates A rc acc q c' hc'
          exact le_trans hle (ih2 b' hb')
        · exact ih3 q hq c' hc'

/-- Claim C7 (modelled from the spec; the `KlibAligner` implementation is
not part of the sources): `alignRead` aligns both the forward and the
reverse-complement orientation against every configured path — an
orientation's candidate is `none` exactly when no path maps, and a produced
candidate comes from a configured path and dominates every configured path's
score — and selects the only mapped orientation when exactly one maps, the
higher-scoring candidate when both map, the forward-orientation candidate on
an exact score tie, and marks the read unmapped with its alignment fields
unset when neither orientation maps. -/
theorem klibAligner_selection_policy (A : KlibAlignerModel) (r : Read) :
    (∀ rc, A.bestCandidate rc = none ↔ ∀ p ∈ A.paths, A.alignToPath rc p = none) ∧
    (∀ rc c, A.bestCandidate rc = some c →
      (∃ p ∈ A.paths, A.alignToPath rc p = some c) ∧
        ∀ p ∈ A.paths, ∀ c', A.alignToPath rc p = some c' → c'.score ≤ c.score) ∧
    (∀ f, A.bestCandidate false = some f → A.bestCandidate true = none →
      A.alignRead r = writeCandidate r f false) ∧
    (∀ c, A.bestCandidate false = none → A.bestCandidate true = some c →
      A.alignRead r = writeCandidate r c true) ∧
    (∀ f c, A.bestCandidate false = some f → A.bestCandidate true = some c →
      (f.score < c.score → A.alignRead r = writeCandidate r c true) ∧
        (c.score < f.score → A.alignRead r = writeCandidate r f false) ∧
        (f.score = c.score → A.alignRead r = writeCandidate r f false)) ∧
    (A.bestCandidate false = none → A.bestCandidate true = none →
      A.alignRead r =
        { r with
          graph_mapped := false
          graph_pos := none
          graph_cigar := none
          is_graph_reverse_strand := none }) := by
  refine ⟨?_, ?_, ?_, ?_, ?_, ?_⟩
  · intro rc
    rw [KlibAlignerModel.bestCandidate, bestFold_none_iff]
    simp
  · intro rc c h
    obtain ⟨h1, _, h3⟩ := bestFold_some A rc A.paths none c h
    refine ⟨?_, h3⟩
    rcases h1 with h1 | h1
    · cases h1
    · exact h1
  · intro f hf ht
    unfold KlibAlignerModel.alignRead
    rw [hf, ht]
  · intro c hf ht
    unfold KlibAlignerModel.alignRead
    rw [hf, ht]
  · intro f c hf ht
    refine ⟨?_, ?_, ?_⟩
    · intro hlt
      simp only [KlibAlignerModel.alignRead, hf, ht]
      rw [if_pos hlt]
    · intro hlt
      simp only [KlibAlignerModel.alignRead, hf, ht]
      rw [if_neg (not_lt.mpr (le_of_lt hlt))]
    · intro heq
      simp only [KlibAlignerModel.alignRead, hf, ht]
      rw [if_neg (not_lt.mpr (le_of_eq heq.symm))]
  · intro hf ht
    unfold KlibAlignerModel.alignRead
    rw [hf, ht]

/-- Witness for C7: a model with two paths where both orientations map with
equal best score `7`; `alignRead` selects the forward-orientation candidate
(and its graph position / CIGAR are written back onto the read). -/
theorem klibAligner_selection_policy_witness :
    (KlibAlignerModel.bestCandidate
      { paths := [0, 1]
        alignToPath := fun rc p =>
          some { score := if p = 0 then 7 else 3, pos := if rc then 50 else 10,
                 cigar := if rc then "rc" else "fw" } } false
      = some { score := 7, pos := 10, cigar := "fw" }) ∧
    (KlibAlignerModel.bestCandidate
      { paths := [0, 1]
        alignToPath := fun rc p =>
          some { score := if p = 0 then 7 else 3, pos := if rc then 50 else 10,
                 cigar := if rc then "rc" else "fw" } } true
      = some { score := 7, pos := 50, cigar := "rc" }) ∧
    ((7 : Int) = 7) ∧
    (KlibAlignerModel.alignRead
      { paths := [0, 1]
        alignToPath := fun rc p =>
          some { score := if p = 0 then 7 else 3, pos := if rc then 50 else 10,
                 cigar := if rc then "rc" else "fw" } }
      { graph_mapped := false, graph_pos := none, graph_cigar := none,
        is_graph_reverse_strand := none }
      = { graph_mapped := true, graph_pos := some 10, graph_cigar := some "fw",
          is_graph_reverse_strand := some false }) := by
  refine ⟨by decide, by decide, rfl, ?_⟩
  have h := (klibAligner_selection_policy
    { paths := [0, 1]
      alignToPath := fun rc p =>
        some { score := if p = 0 then 7 else 3, pos := if rc then 50 else 10,
               cigar := if rc then "rc" else "fw" } }
    { graph_mapped := false, graph_pos := none, graph_cigar := none,
      is_graph_reverse_strand := none }).2.2.2.2.1
    { score := 7, pos := 10, cigar := "fw" } { score := 7, pos := 50, cigar := "rc" }
    (by decide) (by decide)
  exact h.2.2 rfl

/-! ### Scheduler: branch equations for `step` -/

theorem step_notin {c : Cfg} {s : St} {w : Nat} (hw : ¬ w < c.numWorkers) :
    step c s w = s := by
  simp [step, hw]

theorem step_done {c : Cfg} {s : St} {w : Nat} (hw : w < c.numWorkers)
    (hpc : s.pc w = Pc.done) : step c s w = s := by
  simp [step, hw, hpc]

theorem step_atGroup_fin {c : Cfg} {s : St} {w g : Nat} (hw : w < c.numWorkers)
    (hpc : s.pc w = Pc.atGroup g) (hg : c.numGroups ≤ g) :
    step c s w = { s with pc := Function.update s.pc w Pc.done } := by
  simp [step, hw, hpc, hg]

theorem step_atGroup_lock {c : Cfg} {s : St} {w g : Nat} (hw : w < c.numWorkers)
    (hpc : s.pc w = Pc.atGroup g) (hg : ¬ c.numGroups ≤ g) (hl : s.lock = none) :
    step c s w = { s with lock := some w, pc := Function.update s.pc w (Pc.loopW g) } := by
  simp [step, hw, hpc, hg, hl]

theorem step_atGroup_wait {c : Cfg} {s : St} {w g w' : Nat} (hw : w < c.numWorkers)
    (hpc : s.pc w = Pc.atGroup g) (hg : ¬ c.numGroups ≤ g) (hl : s.lock = some w') :
    step c s w = s := by
  simp [step, hw, hpc, hg, hl]

theorem step_loop_exhaust {c : Cfg} {s : St} {w g : Nat} (hw : w < c.numWorkers)
    (hpc : s.pc w = Pc.loopW g) (hcur : c.numPaths ≤ s.cursor g) :
    step c s w = { s with lock := none, pc := Function.update s.pc w (Pc.atGroup (g + 1)) } := by
  simp [step, hw, hpc, hcur]

theorem step_loop_claim {c : Cfg} {s : St} {w g : Nat} (hw : w < c.numWorkers)
    (hpc : s.pc w = Pc.loopW g) (hcur : ¬ c.numPaths ≤ s.cursor g)
    (hok : c.openOk g (s.cursor g) = true) :
    step c s w =
      { s with
        cursor := Function.update s.cursor g (s.cursor g + 1)
        pc := Function.update s.pc w (Pc.claimed g (s.cursor g))
        log := s.log ++ [Ev.claim w g (s.cursor g)] } := by
  simp [step, hw, hpc, hcur, hok]

theorem step_loop_openfail {c : Cfg} {s : St} {w g : Nat} (hw : w < c.numWorkers)
    (hpc : s.pc w = Pc.loopW g) (hcur : ¬ c.numPaths ≤ s.cursor g)
    (hok : c.openOk g (s.cursor g) = false) :
    step c s w =
      { s with
        cursor := Function.update s.cursor g (s.cursor g + 1)
        terminate := true
        pc := Function.update s.pc w (Pc.emitF g (s.cursor g))
        log := s.log ++ [Ev.claim w g (s.cursor g), Ev.openFail w g (s.cursor g)] } := by
  simp [step, hw, hpc, hcur, hok]

theorem step_claimed_term {c : Cfg} {s : St} {w g p : Nat} (hw : w < c.numWorkers)
    (hpc : s.pc w = Pc.claimed g p) (ht : s.terminate = true) :
    step c s w =
      { s with
        lock := none
        pc := Function.update s.pc w (Pc.atGroup (g + 1))
        log := s.log ++ [Ev.obsTerm w g p] } := by
  simp [step, hw, hpc, ht]

theorem step_claimed_go {c : Cfg} {s : St} {w g p : Nat} (hw : w < c.numWorkers)
    (hpc : s.pc w = Pc.claimed g p) (ht : s.terminate = false) :
    step c s w =
      { s with
        lock := none
        pc := Function.update s.pc w (Pc.expensive g p)
        log := s.log ++ [Ev.beginEx w g p] } := by
  simp [step, hw, hpc, ht]

theorem step_expensive {c : Cfg} {s : St} {w g p : Nat} (hw : w < c.numWorkers)
    (hpc : s.pc w = Pc.expensive g p) :
    step c s w =
      { s with
        pc := Function.update s.pc w (Pc.relock g p (c.unitOk g p))
        log := s.log ++
          (if c.unitOk g p && c.perUnitDir then [Ev.fileWrite w g p] else []) ++
            [Ev.exDone w g p (c.unitOk g p)] } := by
  simp [step, hw, hpc]

theorem step_relock_go {c : Cfg} {s : St} {w g p : Nat} {ok : Bool} (hw : w < c.numWorkers)
    (hpc : s.pc w = Pc.relock g p ok) (hl : s.lock = none) :
    step c s w =
      { s with
        lock := some w
        terminate := s.terminate || !ok
        pc := Function.update s.pc w (Pc.emitR g p ok)
        log := s.log ++ [Ev.endEx w g p ok] } := by
  simp [step, hw, hpc, hl]

theorem step_relock_wait {c : Cfg} {s : St} {w g p w' : Nat} {ok : Bool}
    (hw : w < c.numWorkers) (hpc : s.pc w = Pc.relock g p ok) (hl : s.lock = some w') :
    step c s w = s := by
  simp [step, hw, hpc, hl]

theorem step_emitR {c : Cfg} {s : St} {w g p : Nat} {ok : Bool} (hw : w < c.numWorkers)
    (hpc : s.pc w = Pc.emitR g p ok) :
    step c s w =
      { s with
        stream := s.stream ++ emitToks c s g p ok
        firstPrinted := s.firstPrinted || c.aggregated
        pc := Function.update s.pc w (Pc.loopW g)
        log := s.log ++ [Ev.emitRes w g p ok] } := by
  simp [step, hw, hpc]

theorem step_emitF {c : Cfg} {s : St} {w g p : Nat} (hw : w < c.numWorkers)
    (hpc : s.pc w = Pc.emitF g p) :
    step c s w =
      { s with
        stream := s.stream ++ emitToks c s g p false
        firstPrinted := s.firstPrinted || c.aggregated
        pc := Function.update s.pc w (Pc.loopW g)
        log := s.log ++ [Ev.emitOF w g p] } := by
  simp [step, hw, hpc]

/-! ### Scheduler: invariant machinery -/

theorem pendSum_update (c : Cfg) (pc : Nat → Pc) (f : Pc → Multiset (Nat × Nat))
    (w : Nat) (hw : w < c.numWorkers) (b : Pc) :
    pendSum c (Function.update pc w b) f + f (pc w) = pendSum c pc f + f b := by
  unfold pendSum
  have hmem : w ∈ Finset.range c.numWorkers := Finset.mem_range.mpr hw
  have h1 : ∀ x, f (Function.update pc w b x) = Function.update (fun y => f (pc y)) w (f b) x := by
    intro x
    by_cases hx : x = w
    · subst hx; simp
    · simp [Function.update_noteq hx]
  rw [Finset.sum_congr rfl (fun x _ => h1 x), Finset.sum_update_of_mem hmem, ← Finset.erase_eq,
    ← Finset.sum_erase_add (Finset.range c.numWorkers) (fun x => f (pc x)) hmem]
  abel

theorem ms_balance {U : Type} {A B P P' da db fb fw : Multiset U}
    (hold : A = B + P) (hupd : P' + fw = P + fb) (hbal : da + fw = db + fb) :
    A + da = B + db + P' := by
  apply add_right_cancel (b := fw)
  calc A + da + fw = A + (da + fw) := by rw [add_assoc]
    _ = B + P + (db + fb) := by rw [hold, hbal]
    _ = B + db + (P + fb) := by abel
    _ = B + db + (P' + fw) := by rw [← hupd]
    _ = B + db + P' + fw := by abel

theorem Inv_init (c : Cfg) : Inv c initSt := by
  refine
    { lockPc := ?_, pcLock := ?_, cursorLe := ?_, pcAtLe := ?_, grpAll := ?_,
      claimsCursor := ?_, claimsG := ?_, msClaim := ?_, msBegin := ?_, msExDone := ?_,
      msEnd := ?_, msOpenFail := ?_, streamAgg := ?_, okFaithEnd := ?_, okFaithEmit := ?_,
      okFaithOF := ?_, okFaithRelock := ?_, okFaithEmitR := ?_, termEv := ?_, grpObs := ?_,
      obsClaims := ?_, termFree := ?_ } <;>
    simp [initSt, pcLocky, pcGroup, evClaims, claimUnits, beginUnits, openFailUnits,
      obsTermUnits, exDoneUnits, endExUnits, emitRUnits, emitOFUnits, emitsAll, streamOf,
      pendSum, pendClaimed, pendEx, pendRelock, pendEmitR, pendEmitF]

theorem pendSum_update_same (c : Cfg) (pc : Nat → Pc) (f : Pc → Multiset (Nat × Nat))
    (w : Nat) (hw : w < c.numWorkers) (b : Pc) (h0 : f (pc w) = f b) :
    pendSum c (Function.update pc w b) f = pendSum c pc f := by
  have h1 := pendSum_update c pc f w hw b
  rw [h0] at h1
  exact add_right_cancel h1

theorem inv_atGroup_fin {c : Cfg} {s : St} {w g : Nat} (h : Inv c s) (hw : w < c.numWorkers)
    (hpc : s.pc w = Pc.atGroup g) (hg : c.numGroups ≤ g) : Inv c (step c s w) := by
  rw [step_atGroup_fin hw hpc hg]
  refine
    { lockPc := ?_, pcLock := ?_, cursorLe := h.cursorLe, pcAtLe := ?_, grpAll := ?_,
      claimsCursor := h.claimsCursor, claimsG := h.claimsG, msClaim := ?_, msBegin := ?_,
      msExDone := ?_, msEnd := ?_, msOpenFail := ?_, streamAgg := h.streamAgg,
      okFaithEnd := h.okFaithEnd, okFaithEmit := h.okFaithEmit, okFaithOF := h.okFaithOF,
      okFaithRelock := ?_, okFaithEmitR := ?_, termEv := h.termEv, grpObs := ?_,
      obsClaims := h.obsClaims, termFree := ?_ }
  · intro w' hl
    by_cases hww : w' = w
    · subst hww
      simp [pcLocky, Function.update_same] at hl
    · simp only [Function.update_noteq hww] at hl
      exact h.lockPc w' hl
  · intro w' hl
    obtain ⟨h1, h2⟩ := h.pcLock w' hl
    refine ⟨?_, h2⟩
    by_cases hww : w' = w
    · subst hww
      rw [hpc] at h1
      simp [pcLocky] at h1
    · simp only [Function.update_noteq hww]
      exact h1
  · intro w' g' hpc'
    by_cases hww : w' = w
    · subst hww
      simp [Function.update_same] at hpc'
    · simp only [Function.update_noteq hww] at hpc'
      exact h.pcAtLe w' g' hpc'
  · intro w' hna hnd
    by_cases hww : w' = w
    · subst hww
      simp [Function.update_same] at hnd
    · simp only [Function.update_noteq hww] at hna hnd ⊢
      exact h.grpAll w' hna hnd
  · simp only [pendSum_update_same c s.pc pendClaimed w hw Pc.done (by rw [hpc]; rfl)]
    exact h.msClaim
  · simp only [pendSum_update_same c s.pc pendEx w hw Pc.done (by rw [hpc]; rfl)]
    exact h.msBegin
  · simp only [pendSum_update_same c s.pc pendRelock w hw Pc.done (by rw [hpc]; rfl)]
    exact h.msExDone
  · simp only [pendSum_update_same c s.pc pendEmitR w hw Pc.done (by rw [hpc]; rfl)]
    exact h.msEnd
  · simp only [pendSum_update_same c s.pc pendEmitF w hw Pc.done (by rw [hpc]; rfl)]
    exact h.msOpenFail
  · intro w' g' p' ok hpc'
    by_cases hww : w' = w
    · subst hww
      simp [Function.update_same] at hpc'
    · simp only [Function.update_noteq hww] at hpc'
      exact h.okFaithRelock w' g' p' ok hpc'
  · intro w' g' p' ok hpc'
    by_cases hww : w' = w
    · subst hww
      simp [Function.update_same] at hpc'
    · simp only [Function.update_noteq hww] at hpc'
      exact h.okFaithEmitR w' g' p' ok hpc'
  · intro w' g' p' hm
    have hold := h.grpObs w' g' p' hm
    by_cases hww : w' = w
    · subst hww
      simp only [Function.update_same]
      rw [hpc] at hold
      have hge : g ≤ c.numGroups := h.pcAtLe w' g hpc
      simp only [pcGroup] at hold ⊢
      omega
    · simp only [Function.update_noteq hww]
      exact hold
  · intro ht w' hw' g' hg'
    by_cases hww : w' = w
    · subst hww
      simp only [Function.update_same, pcGroup] at hg'
      refine h.termFree ht w' hw' g' ?_
      rw [hpc]
      simp only [pcGroup]
      omega
    · simp only [Function.update_noteq hww] at hg'
      exact h.termFree ht w' hw' g' hg'

theorem inv_atGroup_lock {c : Cfg} {s : St} {w g : Nat} (h : Inv c s) (hw : w < c.numWorkers)
    (hpc : s.pc w = Pc.atGroup g) (hg : ¬ c.numGroups ≤ g) (hl : s.lock = none) :
    Inv c (step c s w) := by
  rw [step_atGroup_lock hw hpc hg hl]
  refine
    { lockPc := ?_, pcLock := ?_, cursorLe := h.cursorLe, pcAtLe := ?_, grpAll := ?_,
      claimsCursor := h.claimsCursor, claimsG := h.claimsG, msClaim := ?_, msBegin := ?_,
      msExDone := ?_, msEnd := ?_, msOpenFail := ?_, streamAgg := h.streamAgg,
      okFaithEnd := h.okFaithEnd, okFaithEmit := h.okFaithEmit, okFaithOF := h.okFaithOF,
      okFaithRelock := ?_, okFaithEmitR := ?_, termEv := h.termEv, grpObs := ?_,
      obsClaims := h.obsClaims, termFree := ?_ }
  · intro w' hl'
    by_cases hww : w' = w
    · subst hww; rfl
    · simp only [Function.update_noteq hww] at hl'
      have h0 := h.lockPc w' hl'
      rw [hl] at h0
      cases h0
  · intro w' hl'
    have hww : w = w' := by
      have h0 : (some w : Option Nat) = some w' := hl'
      exact Option.some.inj h0
    subst hww
    refine ⟨?_, hw⟩
    simp only [Function.update_same]
    rfl
  · intro w' g' hpc'
    by_cases hww : w' = w
    · subst hww
      simp [Function.update_same] at hpc'
    · simp only [Function.update_noteq hww] at hpc'
      exact h.pcAtLe w' g' hpc'
  · intro w' hna hnd
    by_cases hww : w' = w
    · subst hww
      simp only [Function.update_same, pcGroup]
      omega
    · simp only [Function.update_noteq hww] at hna hnd ⊢
      exact h.grpAll w' hna hnd
  · simp only [pendSum_update_same c s.pc pendClaimed w hw (Pc.loopW g) (by rw [hpc]; rfl)]
    exact h.msClaim
  · simp only [pendSum_update_same c s.pc pendEx w hw (Pc.loopW g) (by rw [hpc]; rfl)]
    exact h.msBegin
  · simp only [pendSum_update_same c s.pc pendRelock w hw (Pc.loopW g) (by rw [hpc]; rfl)]
    exact h.msExDone
  · simp only [pendSum_update_same c s.pc pendEmitR w hw (Pc.loopW g) (by rw [hpc]; rfl)]
    exact h.msEnd
  · simp only [pendSum_update_same c s.pc pendEmitF w hw (Pc.loopW g) (by rw [hpc]; rfl)]
    exact h.msOpenFail
  · intro w' g' p' ok hpc'
    by_cases hww : w' = w
    · subst hww
      simp [Function.update_same] at hpc'
    · simp only [Function.update_noteq hww] at hpc'
      exact h.okFaithRelock w' g' p' ok hpc'
  · intro w' g' p' ok hpc'
    by_cases hww : w' = w
    · subst hww
      simp [Function.update_same] at hpc'
    · simp only [Function.update_noteq hww] at hpc'
      exact h.okFaithEmitR w' g' p' ok hpc'
  · intro w' g' p' hm
    have hold := h.grpObs w' g' p' hm
    by_cases hww : w' = w
    · subst hww
      simp only [Function.update_same]
      rw [hpc] at hold
      exact hold
    · simp only [Function.update_noteq hww]
      exact hold
  · intro ht w' hw' g' hg'
    by_cases hww : w' = w
    · subst hww
      simp only [Function.update_same] at hg'
      refine h.termFree ht w' hw' g' ?_
      rw [hpc]
      exact hg'
    · simp only [Function.update_noteq hww] at hg'
      exact h.termFree ht w' hw' g' hg'

theorem append_singleton_decomp {α : Type} {log l1 l2 : List α} {e e' : α}
    (h : log ++ [e'] = l1 ++ e :: l2) :
    (l1 = log ∧ e = e' ∧ l2 = []) ∨ ∃ l2', log = l1 ++ e :: l2' ∧ l2 = l2' ++ [e'] := by
  rcases List.eq_nil_or_concat l2 with h2 | ⟨l2', a, h2⟩
  · subst h2
    obtain ⟨hl, he⟩ := List.append_inj' h rfl
    injection he with he'
    exact Or.inl ⟨hl.symm, he'.symm, rfl⟩
  · rw [List.concat_eq_append] at h2
    subst h2
    right
    have h' : log ++ [e'] = (l1 ++ e :: l2') ++ [a] := by
      rw [h]
      simp
    obtain ⟨hl, he⟩ := List.append_inj' h' rfl
    injection he with he'
    subst he'
    exact ⟨l2', hl, rfl⟩

theorem obsClaims_extend {c : Cfg} {s : St} (h : Inv c s) (evs : List Ev)
    (hobs : ∀ w g p, Ev.obsTerm w g p ∉ evs)
    (hclaims : ∀ w g p, Ev.claim w g p ∈ evs →
      ∀ g0 p0, Ev.obsTerm w g0 p0 ∈ s.log → g0 < g) :
    ∀ w g p l1 l2, s.log ++ evs = l1 ++ Ev.obsTerm w g p :: l2 →
      ∀ g' p', Ev.claim w g' p' ∈ l2 → g < g' := by
  induction evs using List.reverseRecOn with
  | nil =>
      intro w g p l1 l2 hdec
      rw [List.append_nil] at hdec
      exact h.obsClaims w g p l1 l2 hdec
  | append_singleton evs' e ih =>
      intro w g p l1 l2 hdec g' p' hcm
      rw [← List.append_assoc] at hdec
      rcases append_singleton_decomp hdec with ⟨hl1, he, hl2⟩ | ⟨l2', hlog, hl2⟩
      · exact absurd (by rw [he]; exact List.mem_append_right evs' (by simp))
          (hobs w g p)
      · subst hl2
        rcases List.mem_append.mp hcm with hcm' | hcm'
        · refine ih (fun w0 g0 p0 hm => hobs w0 g0 p0 (List.mem_append_left _ hm))
            (fun w0 g0 p0 hm => hclaims w0 g0 p0 (List.mem_append_left _ hm))
            w g p l1 l2' hlog g' p' hcm'
        · have he' : Ev.claim w g' p' = e := List.mem_singleton.mp hcm'
          have hobsmem : Ev.obsTerm w g p ∈ s.log := by
            have hmem : Ev.obsTerm w g p ∈ s.log ++ evs' := by
              rw [hlog]
              exact List.mem_append_right l1 (List.mem_cons_self _ _)
            rcases List.mem_append.mp hmem with hm | hm
            · exact hm
            · exact absurd hm (fun hh => hobs w g p (List.mem_append_left _ hh))
          exact hclaims w g' p'
            (by rw [he']; exact List.mem_append_right evs' (by simp)) g p hobsmem

theorem inv_loop_exhaust {c : Cfg} {s : St} {w g : Nat} (h : Inv c s) (hw : w < c.numWorkers)
    (hpc : s.pc w = Pc.loopW g) (hcur : c.numPaths ≤ s.cursor g) : Inv c (step c s w) := by
  rw [step_loop_exhaust hw hpc hcur]
  have hlock : s.lock = some w := h.lockPc w (by rw [hpc]; rfl)
  refine
    { lockPc := ?_, pcLock := ?_, cursorLe := h.cursorLe, pcAtLe := ?_, grpAll := ?_,
      claimsCursor := h.claimsCursor, claimsG := h.claimsG, msClaim := ?_, msBegin := ?_,
      msExDone := ?_, msEnd := ?_, msOpenFail := ?_, streamAgg := h.streamAgg,
      okFaithEnd := h.okFaithEnd, okFaithEmit := h.okFaithEmit, okFaithOF := h.okFaithOF,
      okFaithRelock := ?_, okFaithEmitR := ?_, termEv := h.termEv, grpObs := ?_,
      obsClaims := h.obsClaims, termFree := ?_ }
  · intro w' hl'
    by_cases hww : w' = w
    · subst hww
      simp [pcLocky, Function.update_same] at hl'
    · simp only [Function.update_noteq hww] at hl'
      have h0 := h.lockPc w' hl'
      rw [hlock] at h0
      injection h0 with h0
      exact absurd h0.symm hww
  · intro w' hl'
    cases hl'
  · intro w' g' hpc'
    by_cases hww : w' = w
    · subst hww
      simp only [Function.update_same] at hpc'
      injection hpc' with hg'
      have : g < c.numGroups := by
        have h0 := h.grpAll w' (by simp [hpc]) (by simp [hpc])
        rw [hpc] at h0
        simpa [pcGroup] using h0
      omega
    · simp only [Function.update_noteq hww] at hpc'
      exact h.pcAtLe w' g' hpc'
  · intro w' hna hnd
    by_cases hww : w' = w
    · subst hww
      exact absurd (by simp [Function.update_same]) (hna (g + 1))
    · simp only [Function.update_noteq hww] at hna hnd ⊢
      exact h.grpAll w' hna hnd
  · simp only [pendSum_update_same c s.pc pendClaimed w hw (Pc.atGroup (g + 1))
      (by rw [hpc]; rfl)]
    exact h.msClaim
  · simp only [pendSum_update_same c s.pc pendEx w hw (Pc.atGroup (g + 1)) (by rw [hpc]; rfl)]
    exact h.msBegin
  · simp only [pendSum_update_same c s.pc pendRelock w hw (Pc.atGroup (g + 1))
      (by rw [hpc]; rfl)]
    exact h.msExDone
  · simp only [pendSum_update_same c s.pc pendEmitR w hw (Pc.atGroup (g + 1))
      (by rw [hpc]; rfl)]
    exact h.msEnd
  · simp only [pendSum_update_same c s.pc pendEmitF w hw (Pc.atGroup (g + 1))
      (by rw [hpc]; rfl)]
    exact h.msOpenFail
  · intro w' g' p' ok hpc'
    by_cases hww : w' = w
    · subst hww
      simp [Function.update_same] at hpc'
    · simp only [Function.update_noteq hww] at hpc'
      exact h.okFaithRelock w' g' p' ok hpc'
  · intro w' g' p' ok hpc'
    by_cases hww : w' = w
    · subst hww
      simp [Function.update_same] at hpc'
    · simp only [Function.update_noteq hww] at hpc'
      exact h.okFaithEmitR w' g' p' ok hpc'
  · intro w' g' p' hm
    have hold := h.grpObs w' g' p' hm
    by_cases hww : w' = w
    · subst hww
      simp only [Function.update_same]
      rw [hpc] at hold
      simp only [pcGroup] at hold ⊢
      omega
    · simp only [Function.update_noteq hww]
      exact hold
  · intro ht w' hw' g' hg'
    by_cases hww : w' = w
    · subst hww
      simp only [Function.update_same, pcGroup] at hg'
      by_cases hgg : g' = g
      · subst hgg
        exact le_antisymm (h.cursorLe g') hcur
      · refine h.termFree ht w' hw' g' ?_
        rw [hpc]
        simp only [pcGroup]
        omega
    · simp only [Function.update_noteq hww] at hg'
      exact h.termFree ht w' hw' g' hg'

theorem inv_loop_claim {c : Cfg} {s : St} {w g : Nat} (h : Inv c s) (hw : w < c.numWorkers)
    (hpc : s.pc w = Pc.loopW g) (hcur : ¬ c.numPaths ≤ s.cursor g)
    (hok : c.openOk g (s.cursor g) = true) : Inv c (step c s w) := by
  rw [step_loop_claim hw hpc hcur hok]
  have hlock : s.lock = some w := h.lockPc w (by rw [hpc]; rfl)
  have hgrp : g < c.numGroups := by
    have h0 := h.grpAll w (by simp [hpc]) (by simp [hpc])
    rw [hpc] at h0
    simpa [pcGroup] using h0
  refine
    { lockPc := ?_, pcLock := ?_, cursorLe := ?_, pcAtLe := ?_, grpAll := ?_,
      claimsCursor := ?_, claimsG := ?_, msClaim := ?_, msBegin := ?_,
      msExDone := ?_, msEnd := ?_, msOpenFail := ?_, streamAgg := ?_,
      okFaithEnd := ?_, okFaithEmit := ?_, okFaithOF := ?_,
      okFaithRelock := ?_, okFaithEmitR := ?_, termEv := ?_, grpObs := ?_,
      obsClaims := ?_, termFree := ?_ }
  · intro w' hl'
    by_cases hww : w' = w
    · subst hww
      exact hlock
    · simp only [Function.update_noteq hww] at hl'
      exact h.lockPc w' hl'
  · intro w' hl'
    have h0 : s.lock = some w' := hl'
    rw [hlock] at h0
    injection h0 with hww
    subst hww
    exact ⟨by simp [Function.update_same, pcLocky], hw⟩
  · intro g'
    by_cases hgg : g' = g
    · subst hgg
      simp only [Function.update_same]
      omega
    · simp only [Function.update_noteq hgg]
      exact h.cursorLe g'
  · intro w' g' hpc'
    by_cases hww : w' = w
    · subst hww
      simp [Function.update_same] at hpc'
    · simp only [Function.update_noteq hww] at hpc'
      exact h.pcAtLe w' g' hpc'
  · intro w' hna hnd
    by_cases hww : w' = w
    · subst hww
      simp only [Function.update_same, pcGroup]
      exact hgrp
    · simp only [Function.update_noteq hww] at hna hnd ⊢
      exact h.grpAll w' hna hnd
  · intro g'
    by_cases hgg : g' = g
    · subst hgg
      have hev : evClaims g' (s.log ++ [Ev.claim w g' (s.cursor g')])
          = evClaims g' s.log ++ [s.cursor g'] := by
        simp [evClaims]
      rw [hev, h.claimsCursor g']
      simp only [Function.update_same]
      rw [List.range_succ]
    · have hgg' : ¬ g = g' := fun hh => hgg hh.symm
      have hev : evClaims g' (s.log ++ [Ev.claim w g (s.cursor g)]) = evClaims g' s.log := by
        simp [evClaims, hgg']
      rw [hev, h.claimsCursor g']
      simp only [Function.update_noteq hgg]
  · intro w0 g0 p0 hm
    rcases List.mem_append.mp hm with hm | hm
    · exact h.claimsG w0 g0 p0 hm
    · have := List.mem_singleton.mp hm
      injection this with hw0 hg0 hp0
      subst hg0
      exact hgrp
  · have hP := pendSum_update c s.pc pendClaimed w hw (Pc.claimed g (s.cursor g))
    rw [hpc] at hP
    simp only [pendClaimed, add_zero] at hP
    have hcl : claimUnits (s.log ++ [Ev.claim w g (s.cursor g)])
        = claimUnits s.log ++ [(g, s.cursor g)] := by simp [claimUnits]
    have hbg : beginUnits (s.log ++ [Ev.claim w g (s.cursor g)]) = beginUnits s.log := by
      simp [beginUnits]
    have hof : openFailUnits (s.log ++ [Ev.claim w g (s.cursor g)]) = openFailUnits s.log := by
      simp [openFailUnits]
    have hob : obsTermUnits (s.log ++ [Ev.claim w g (s.cursor g)]) = obsTermUnits s.log := by
      simp [obsTermUnits]
    simp only [hcl, hbg, hof, hob, hP]
    rw [← Multiset.coe_add]
    rw [show ((([(g, s.cursor g)] : List (Nat × Nat)) : Multiset (Nat × Nat))
      = {(g, s.cursor g)}) from rfl]
    rw [h.msClaim, add_assoc]
  · have hbg : beginUnits (s.log ++ [Ev.claim w g (s.cursor g)]) = beginUnits s.log := by
      simp [beginUnits]
    have hxd : exDoneUnits (s.log ++ [Ev.claim w g (s.cursor g)]) = exDoneUnits s.log := by
      simp [exDoneUnits]
    simp only [hbg, hxd,
      pendSum_update_same c s.pc pendEx w hw (Pc.claimed g (s.cursor g)) (by rw [hpc]; rfl)]
    exact h.msBegin
  · have hxd : exDoneUnits (s.log ++ [Ev.claim w g (s.cursor g)]) = exDoneUnits s.log := by
      simp [exDoneUnits]
    have hen : endExUnits (s.log ++ [Ev.claim w g (s.cursor g)]) = endExUnits s.log := by
      simp [endExUnits]
    simp only [hxd, hen,
      pendSum_update_same c s.pc pendRelock w hw (Pc.claimed g (s.cursor g)) (by rw [hpc]; rfl)]
    exact h.msExDone
  · have hen : endExUnits (s.log ++ [Ev.claim w g (s.cursor g)]) = endExUnits s.log := by
      simp [endExUnits]
    have hem : emitRUnits (s.log ++ [Ev.claim w g (s.cursor g)]) = emitRUnits s.log := by
      simp [emitRUnits]
    simp only [hen, hem,
      pendSum_update_same c s.pc pendEmitR w hw (Pc.claimed g (s.cursor g)) (by rw [hpc]; rfl)]
    exact h.msEnd
  · have hof : openFailUnits (s.log ++ [Ev.claim w g (s.cursor g)]) = openFailUnits s.log := by
      simp [openFailUnits]
    have hem : emitOFUnits (s.log ++ [Ev.claim w g (s.cursor g)]) = emitOFUnits s.log := by
      simp [emitOFUnits]
    simp only [hof, hem,
      pendSum_update_same c s.pc pendEmitF w hw (Pc.claimed g (s.cursor g)) (by rw [hpc]; rfl)]
    exact h.msOpenFail
  · intro ha
    have hea : emitsAll (s.log ++ [Ev.claim w g (s.cursor g)]) = emitsAll s.log := by
      simp [emitsAll]
    simp only [hea]
    exact h.streamAgg ha
  · intro w0 g0 p0 ok hm
    rcases List.mem_append.mp hm with hm | hm
    · exact h.okFaithEnd w0 g0 p0 ok hm
    · simp at hm
  · intro w0 g0 p0 ok hm
    rcases List.mem_append.mp hm with hm | hm
    · exact h.okFaithEmit w0 g0 p0 ok hm
    · simp at hm
  · intro w0 g0 p0 hm
    rcases List.mem_append.mp hm with hm | hm
    · exact h.okFaithOF w0 g0 p0 hm
    · simp at hm
  · intro w0 g0 p0 ok hpc'
    by_cases hww : w0 = w
    · subst hww
      simp [Function.update_same] at hpc'
    · simp only [Function.update_noteq hww] at hpc'
      exact h.okFaithRelock w0 g0 p0 ok hpc'
  · intro w0 g0 p0 ok hpc'
    by_cases hww : w0 = w
    · subst hww
      simp [Function.update_same] at hpc'
    · simp only [Function.update_noteq hww] at hpc'
      exact h.okFaithEmitR w0 g0 p0 ok hpc'
  · intro e hm hset
    rcases List.mem_append.mp hm with hm | hm
    · exact h.termEv e hm hset
    · have := List.mem_singleton.mp hm
      subst this
      simp [evSetsOrSeesTerm] at hset
  · intro w0 g0 p0 hm
    have hm' : Ev.obsTerm w0 g0 p0 ∈ s.log := by
      rcases List.mem_append.mp hm with hm | hm
      · exact hm
      · simp at hm
    have hold := h.grpObs w0 g0 p0 hm'
    by_cases hww : w0 = w
    · subst hww
      simp only [Function.update_same]
      rw [hpc] at hold
      simp only [pcGroup] at hold ⊢
      exact hold
    · simp only [Function.update_noteq hww]
      exact hold
  · refine obsClaims_extend h [Ev.claim w g (s.cursor g)] (by simp) ?_
    intro w0 g0 p0 hm g1 p1 hob
    have := List.mem_singleton.mp hm
    injection this with hw0 hg0 hp0
    subst hw0
    subst hg0
    have h0 := h.grpObs w0 g1 p1 hob
    rw [hpc] at h0
    simpa [pcGroup] using h0
  · intro ht w0 hw0 g' hg'
    have ht' : s.terminate = false := ht
    by_cases hww : w0 = w
    · subst hww
      simp only [Function.update_same, pcGroup] at hg'
      have hold := h.termFree ht' w0 hw0 g' (by rw [hpc]; simpa [pcGroup] using hg')
      have hgg : ¬ g' = g := by
        intro hh
        subst hh
        omega
      simp only [Function.update_noteq hgg]
      exact hold
    · simp only [Function.update_noteq hww] at hg'
      have hold := h.termFree ht' w0 hw0 g' hg'
      by_cases hgg : g' = g
      · subst hgg
        omega
      · simp only [Function.update_noteq hgg]
        exact hold

theorem inv_loop_openfail {c : Cfg} {s : St} {w g : Nat} (h : Inv c s) (hw : w < c.numWorkers)
    (hpc : s.pc w = Pc.loopW g) (hcur : ¬ c.numPaths ≤ s.cursor g)
    (hok : c.openOk g (s.cursor g) = false) : Inv c (step c s w) := by
  rw [step_loop_openfail hw hpc hcur hok]
  have hlock : s.lock = some w := h.lockPc w (by rw [hpc]; rfl)
  have hgrp : g < c.numGroups := by
    have h0 := h.grpAll w (by simp [hpc]) (by simp [hpc])
    rw [hpc] at h0
    simpa [pcGroup] using h0
  refine
    { lockPc := ?_, pcLock := ?_, cursorLe := ?_, pcAtLe := ?_, grpAll := ?_,
      claimsCursor := ?_, claimsG := ?_, msClaim := ?_, msBegin := ?_,
      msExDone := ?_, msEnd := ?_, msOpenFail := ?_, streamAgg := ?_,
      okFaithEnd := ?_, okFaithEmit := ?_, okFaithOF := ?_,
      okFaithRelock := ?_, okFaithEmitR := ?_, termEv := ?_, grpObs := ?_,
      obsClaims := ?_, termFree := ?_ }
  · intro w' hl'
    by_cases hww : w' = w
    · subst hww
      exact hlock
    · simp only [Function.update_noteq hww] at hl'
      exact h.lockPc w' hl'
  · intro w' hl'
    have h0 : s.lock = some w' := hl'
    rw [hlock] at h0
    injection h0 with hww
    subst hww
    exact ⟨by simp [Function.update_same, pcLocky], hw⟩
  · intro g'
    by_cases hgg : g' = g
    · subst hgg
      simp only [Function.update_same]
      omega
    · simp only [Function.update_noteq hgg]
      exact h.cursorLe g'
  · intro w' g' hpc'
    by_cases hww : w' = w
    · subst hww
      simp [Function.update_same] at hpc'
    · simp only [Function.update_noteq hww] at hpc'
      exact h.pcAtLe w' g' hpc'
  · intro w' hna hnd
    by_cases hww : w' = w
    · subst hww
      simp only [Function.update_same, pcGroup]
      exact hgrp
    · simp only [Function.update_noteq hww] at hna hnd ⊢
      exact h.grpAll w' hna hnd
  · intro g'
    by_cases hgg : g' = g
    · subst hgg
      have hev : evClaims g' (s.log ++ [Ev.claim w g' (s.cursor g'), Ev.openFail w g' (s.cursor g')])
          = evClaims g' s.log ++ [s.cursor g'] := by
        simp [evClaims]
      rw [hev, h.claimsCursor g']
      simp only [Function.update_same]
      rw [List.range_succ]
    · have hgg' : ¬ g = g' := fun hh => hgg hh.symm
      have hev : evClaims g' (s.log ++ [Ev.claim w g (s.cursor g), Ev.openFail w g (s.cursor g)])
          = evClaims g' s.log := by
        simp [evClaims, hgg']
      rw [hev, h.claimsCursor g']
      simp only [Function.update_noteq hgg]
  · intro w0 g0 p0 hm
    rcases List.mem_append.mp hm with hm | hm
    · exact h.claimsG w0 g0 p0 hm
    · rcases List.mem_cons.mp hm with hm' | hm'
      · injection hm' with hw0 hg0 hp0
        subst hg0
        exact hgrp
      · simp at hm'
  · have hP := pendSum_update_same c s.pc pendClaimed w hw (Pc.emitF g (s.cursor g))
      (by rw [hpc]; rfl)
    have hcl : claimUnits (s.log ++ [Ev.claim w g (s.cursor g), Ev.openFail w g (s.cursor g)])
        = claimUnits s.log ++ [(g, s.cursor g)] := by simp [claimUnits]
    have hbg : beginUnits (s.log ++ [Ev.claim w g (s.cursor g), Ev.openFail w g (s.cursor g)])
        = beginUnits s.log := by simp [beginUnits]
    have hof : openFailUnits (s.log ++ [Ev.claim w g (s.cursor g), Ev.openFail w g (s.cursor g)])
        = openFailUnits s.log ++ [(g, s.cursor g)] := by simp [openFailUnits]
    have hob : obsTermUnits (s.log ++ [Ev.claim w g (s.cursor g), Ev.openFail w g (s.cursor g)])
        = obsTermUnits s.log := by simp [obsTermUnits]
    simp only [hcl, hbg, hof, hob, hP]
    rw [← Multiset.coe_add, ← Multiset.coe_add (openFailUnits s.log)]
    rw [show ((([(g, s.cursor g)] : List (Nat × Nat)) : Multiset (Nat × Nat))
      = {(g, s.cursor g)}) from rfl]
    rw [h.msClaim]
    abel
  · have hbg : beginUnits (s.log ++ [Ev.claim w g (s.cursor g), Ev.openFail w g (s.cursor g)])
        = beginUnits s.log := by simp [beginUnits]
    have hxd : exDoneUnits (s.log ++ [Ev.claim w g (s.cursor g), Ev.openFail w g (s.cursor g)])
        = exDoneUnits s.log := by simp [exDoneUnits]
    simp only [hbg, hxd,
      pendSum_update_same c s.pc pendEx w hw (Pc.emitF g (s.cursor g)) (by rw [hpc]; rfl)]
    exact h.msBegin
  · have hxd : exDoneUnits (s.log ++ [Ev.claim w g (s.cursor g), Ev.openFail w g (s.cursor g)])
        = exDoneUnits s.log := by simp [exDoneUnits]
    have hen : endExUnits (s.log ++ [Ev.claim w g (s.cursor g), Ev.openFail w g (s.cursor g)])
        = endExUnits s.log := by simp [endExUnits]
    simp only [hxd, hen,
      pendSum_update_same c s.pc pendRelock w hw (Pc.emitF g (s.cursor g)) (by rw [hpc]; rfl)]
    exact h.msExDone
  · have hen : endExUnits (s.log ++ [Ev.claim w g (s.cursor g), Ev.openFail w g (s.cursor g)])
        = endExUnits s.log := by simp [endExUnits]
    have hem : emitRUnits (s.log ++ [Ev.claim w g (s.cursor g), Ev.openFail w g (s.cursor g)])
        = emitRUnits s.log := by simp [emitRUnits]
    simp only [hen, hem,
      pendSum_update_same c s.pc pendEmitR w hw (Pc.emitF g (s.cursor g)) (by rw [hpc]; rfl)]
    exact h.msEnd
  · have hP := pendSum_update c s.pc pendEmitF w hw (Pc.emitF g (s.cursor g))
    rw [hpc] at hP
    simp only [pendEmitF, add_zero] at hP
    have hof : openFailUnits (s.log ++ [Ev.claim w g (s.cursor g), Ev.openFail w g (s.cursor g)])
        = openFailUnits s.log ++ [(g, s.cursor g)] := by simp [openFailUnits]
    have hem : emitOFUnits (s.log ++ [Ev.claim w g (s.cursor g), Ev.openFail w g (s.cursor g)])
        = emitOFUnits s.log := by simp [emitOFUnits]
    simp only [hof, hem, hP]
    rw [← Multiset.coe_add]
    rw [show ((([(g, s.cursor g)] : List (Nat × Nat)) : Multiset (Nat × Nat))
      = {(g, s.cursor g)}) from rfl]
    rw [h.msOpenFail, add_assoc]
  · intro ha
    have hea : emitsAll (s.log ++ [Ev.claim w g (s.cursor g), Ev.openFail w g (s.cursor g)])
        = emitsAll s.log := by simp [emitsAll]
    simp only [hea]
    exact h.streamAgg ha
  · intro w0 g0 p0 ok hm
    rcases List.mem_append.mp hm with hm | hm
    · exact h.okFaithEnd w0 g0 p0 ok hm
    · simp at hm
  · intro w0 g0 p0 ok hm
    rcases List.mem_append.mp hm with hm | hm
    · exact h.okFaithEmit w0 g0 p0 ok hm
    · simp at hm
  · intro w0 g0 p0 hm
    rcases List.mem_append.mp hm with hm | hm
    · exact h.okFaithOF w0 g0 p0 hm
    · rcases List.mem_cons.mp hm with hm' | hm'
      · cases hm'
      · have := List.mem_singleton.mp hm'
        injection this with hw0 hg0 hp0
        subst hg0
        subst hp0
        exact hok
  · intro w0 g0 p0 ok hpc'
    by_cases hww : w0 = w
    · subst hww
      simp [Function.update_same] at hpc'
    · simp only [Function.update_noteq hww] at hpc'
      exact h.okFaithRelock w0 g0 p0 ok hpc'
  · intro w0 g0 p0 ok hpc'
    by_cases hww : w0 = w
    · subst hww
      simp [Function.update_same] at hpc'
    · simp only [Function.update_noteq hww] at hpc'
      exact h.okFaithEmitR w0 g0 p0 ok hpc'
  · intro e hm hset
    rfl
  · intro w0 g0 p0 hm
    have hm' : Ev.obsTerm w0 g0 p0 ∈ s.log := by
      rcases List.mem_append.mp hm with hm | hm
      · exact hm
      · simp at hm
    have hold := h.grpObs w0 g0 p0 hm'
    by_cases hww : w0 = w
    · subst hww
      simp only [Function.update_same]
      rw [hpc] at hold
      simp only [pcGroup] at hold ⊢
      exact hold
    · simp only [Function.update_noteq hww]
      exact hold
  · refine obsClaims_extend h [Ev.claim w g (s.cursor g), Ev.openFail w g (s.cursor g)]
      (by simp) ?_
    intro w0 g0 p0 hm g1 p1 hob
    rcases List.mem_cons.mp hm with hm' | hm'
    · injection hm' with hw0 hg0 hp0
      subst hw0
      subst hg0
      have h0 := h.grpObs w0 g1 p1 hob
      rw [hpc] at h0
      simpa [pcGroup] using h0
    · simp at hm'
  · intro ht
    cases ht

theorem inv_claimed_term {c : Cfg} {s : St} {w g p : Nat} (h : Inv c s) (hw : w < c.numWorkers)
    (hpc : s.pc w = Pc.claimed g p) (ht : s.terminate = true) : Inv c (step c s w) := by
  rw [step_claimed_term hw hpc ht]
  have hlock : s.lock = some w := h.lockPc w (by rw [hpc]; rfl)
  have hgrp : g < c.numGroups := by
    have h0 := h.grpAll w (by simp [hpc]) (by simp [hpc])
    rw [hpc] at h0
    simpa [pcGroup] using h0
  refine
    { lockPc := ?_, pcLock := ?_, cursorLe := h.cursorLe, pcAtLe := ?_, grpAll := ?_,
      claimsCursor := ?_, claimsG := ?_, msClaim := ?_, msBegin := ?_,
      msExDone := ?_, msEnd := ?_, msOpenFail := ?_, streamAgg := ?_,
      okFaithEnd := ?_, okFaithEmit := ?_, okFaithOF := ?_,
      okFaithRelock := ?_, okFaithEmitR := ?_, termEv := ?_, grpObs := ?_,
      obsClaims := ?_, termFree := ?_ }
  · intro w' hl'
    by_cases hww : w' = w
    · subst hww
      simp [pcLocky, Function.update_same] at hl'
    · simp only [Function.update_noteq hww] at hl'
      have h0 := h.lockPc w' hl'
      rw [hlock] at h0
      injection h0 with h0
      exact absurd h0.symm hww
  · intro w' hl'
    cases hl'
  · intro w' g' hpc'
    by_cases hww : w' = w
    · subst hww
      simp only [Function.update_same] at hpc'
      injection hpc' with hg'
      omega
    · simp only [Function.update_noteq hww] at hpc'
      exact h.pcAtLe w' g' hpc'
  · intro w' hna hnd
    by_cases hww : w' = w
    · subst hww
      exact absurd (by simp [Function.update_same]) (hna (g + 1))
    · simp only [Function.update_noteq hww] at hna hnd ⊢
      exact h.grpAll w' hna hnd
  · intro g'
    have hev : evClaims g' (s.log ++ [Ev.obsTerm w g p]) = evClaims g' s.log := by
      simp [evClaims]
    rw [hev]
    exact h.claimsCursor g'
  · intro w0 g0 p0 hm
    rcases List.mem_append.mp hm with hm | hm
    · exact h.claimsG w0 g0 p0 hm
    · simp at hm
  · have hP := pendSum_update c s.pc pendClaimed w hw (Pc.atGroup (g + 1))
    rw [hpc] at hP
    simp only [pendClaimed, add_zero] at hP
    have hcl : claimUnits (s.log ++ [Ev.obsTerm w g p]) = claimUnits s.log := by
      simp [claimUnits]
    have hbg : beginUnits (s.log ++ [Ev.obsTerm w g p]) = beginUnits s.log := by
      simp [beginUnits]
    have hof : openFailUnits (s.log ++ [Ev.obsTerm w g p]) = openFailUnits s.log := by
      simp [openFailUnits]
    have hob : obsTermUnits (s.log ++ [Ev.obsTerm w g p])
        = obsTermUnits s.log ++ [(g, p)] := by simp [obsTermUnits]
    simp only [hcl, hbg, hof, hob]
    rw [← Multiset.coe_add (obsTermUnits s.log)]
    rw [show ((([(g, p)] : List (Nat × Nat)) : Multiset (Nat × Nat)) = {(g, p)}) from rfl]
    rw [h.msClaim, ← hP]
    abel
  · have hbg : beginUnits (s.log ++ [Ev.obsTerm w g p]) = beginUnits s.log := by
      simp [beginUnits]
    have hxd : exDoneUnits (s.log ++ [Ev.obsTerm w g p]) = exDoneUnits s.log := by
      simp [exDoneUnits]
    simp only [hbg, hxd,
      pendSum_update_same c s.pc pendEx w hw (Pc.atGroup (g + 1)) (by rw [hpc]; rfl)]
    exact h.msBegin
  · have hxd : exDoneUnits (s.log ++ [Ev.obsTerm w g p]) = exDoneUnits s.log := by
      simp [exDoneUnits]
    have hen : endExUnits (s.log ++ [Ev.obsTerm w g p]) = endExUnits s.log := by
      simp [endExUnits]
    simp only [hxd, hen,
      pendSum_update_same c s.pc pendRelock w hw (Pc.atGroup (g + 1)) (by rw [hpc]; rfl)]
    exact h.msExDone
  · have hen : endExUnits (s.log ++ [Ev.obsTerm w g p]) = endExUnits s.log := by
      simp [endExUnits]
    have hem : emitRUnits (s.log ++ [Ev.obsTerm w g p]) = emitRUnits s.log := by
      simp [emitRUnits]
    simp only [hen, hem,
      pendSum_update_same c s.pc pendEmitR w hw (Pc.atGroup (g + 1)) (by rw [hpc]; rfl)]
    exact h.msEnd
  · have hof : openFailUnits (s.log ++ [Ev.obsTerm w g p]) = openFailUnits s.log := by
      simp [openFailUnits]
    have hem : emitOFUnits (s.log ++ [Ev.obsTerm w g p]) = emitOFUnits s.log := by
      simp [emitOFUnits]
    simp only [hof, hem,
      pendSum_update_same c s.pc pendEmitF w hw (Pc.atGroup (g + 1)) (by rw [hpc]; rfl)]
    exact h.msOpenFail
  · intro ha
    have hea : emitsAll (s.log ++ [Ev.obsTerm w g p]) = emitsAll s.log := by
      simp [emitsAll]
    simp only [hea]
    exact h.streamAgg ha
  · intro w0 g0 p0 ok hm
    rcases List.mem_append.mp hm with hm | hm
    · exact h.okFaithEnd w0 g0 p0 ok hm
    · simp at hm
  · intro w0 g0 p0 ok hm
    rcases List.mem_append.mp hm with hm | hm
    · exact h.okFaithEmit w0 g0 p0 ok hm
    · simp at hm
  · intro w0 g0 p0 hm
    rcases List.mem_append.mp hm with hm | hm
    · exact h.okFaithOF w0 g0 p0 hm
    · simp at hm
  · intro w0 g0 p0 ok hpc'
    by_cases hww : w0 = w
    · subst hww
      simp [Function.update_same] at hpc'
    · simp only [Function.update_noteq hww] at hpc'
      exact h.okFaithRelock w0 g0 p0 ok hpc'
  · intro w0 g0 p0 ok hpc'
    by_cases hww : w0 = w
    · subst hww
      simp [Function.update_same] at hpc'
    · simp only [Function.update_noteq hww] at hpc'
      exact h.okFaithEmitR w0 g0 p0 ok hpc'
  · intro e hm hset
    exact ht
  · intro w0 g0 p0 hm
    rcases List.mem_append.mp hm with hm' | hm'
    · have hold := h.grpObs w0 g0 p0 hm'
      by_cases hww : w0 = w
      · subst hww
        simp only [Function.update_same]
        rw [hpc] at hold
        simp only [pcGroup] at hold ⊢
        omega
      · simp only [Function.update_noteq hww]
        exact hold
    · have := List.mem_singleton.mp hm'
      injection this with hw0 hg0 hp0
      subst hw0
      subst hg0
      simp only [Function.update_same, pcGroup]
      omega
  · intro w0 g0 p0 l1 l2 hdec g' p' hcm
    rcases append_singleton_decomp hdec with ⟨hl1, he, hl2⟩ | ⟨l2', hlog, hl2⟩
    · subst hl2
      simp at hcm
    · subst hl2
      rcases List.mem_append.mp hcm with hcm' | hcm'
      · exact h.obsClaims w0 g0 p0 l1 l2' hlog g' p' hcm'
      · simp at hcm'
  · intro ht'
    rw [ht] at ht'
    cases ht'

theorem inv_claimed_go {c : Cfg} {s : St} {w g p : Nat} (h : Inv c s) (hw : w < c.numWorkers)
    (hpc : s.pc w = Pc.claimed g p) (ht : s.terminate = false) : Inv c (step c s w) := by
  rw [step_claimed_go hw hpc ht]
  have hlock : s.lock = some w := h.lockPc w (by rw [hpc]; rfl)
  have hgrp : g < c.numGroups := by
    have h0 := h.grpAll w (by simp [hpc]) (by simp [hpc])
    rw [hpc] at h0
    simpa [pcGroup] using h0
  refine
    { lockPc := ?_, pcLock := ?_, cursorLe := h.cursorLe, pcAtLe := ?_, grpAll := ?_,
      claimsCursor := ?_, claimsG := ?_, msClaim := ?_, msBegin := ?_,
      msExDone := ?_, msEnd := ?_, msOpenFail := ?_, streamAgg := ?_,
      okFaithEnd := ?_, okFaithEmit := ?_, okFaithOF := ?_,
      okFaithRelock := ?_, okFaithEmitR := ?_, termEv := ?_, grpObs := ?_,
      obsClaims := ?_, termFree := ?_ }
  · intro w' hl'
    by_cases hww : w' = w
    · subst hww
      simp [pcLocky, Function.update_same] at hl'
    · simp only [Function.update_noteq hww] at hl'
      have h0 := h.lockPc w' hl'
      rw [hlock] at h0
      injection h0 with h0
      exact absurd h0.symm hww
  · intro w' hl'
    cases hl'
  · intro w' g' hpc'
    by_cases hww : w' = w
    · subst hww
      simp [Function.update_same] at hpc'
    · simp only [Function.update_noteq hww] at hpc'
      exact h.pcAtLe w' g' hpc'
  · intro w' hna hnd
    by_cases hww : w' = w
    · subst hww
      simp only [Function.update_same, pcGroup]
      exact hgrp
    · simp only [Function.update_noteq hww] at hna hnd ⊢
      exact h.grpAll w' hna hnd
  · intro g'
    have hev : evClaims g' (s.log ++ [Ev.beginEx w g p]) = evClaims g' s.log := by
      simp [evClaims]
    rw [hev]
    exact h.claimsCursor g'
  · intro w0 g0 p0 hm
    rcases List.mem_append.mp hm with hm | hm
    · exact h.claimsG w0 g0 p0 hm
    · simp at hm
  · have hP := pendSum_update c s.pc pendClaimed w hw (Pc.expensive g p)
    rw [hpc] at hP
    simp only [pendClaimed, add_zero] at hP
    have hcl : claimUnits (s.log ++ [Ev.beginEx w g p]) = claimUnits s.log := by
      simp [claimUnits]
    have hbg : beginUnits (s.log ++ [Ev.beginEx w g p])
        = beginUnits s.log ++ [(g, p)] := by simp [beginUnits]
    have hof : openFailUnits (s.log ++ [Ev.beginEx w g p]) = openFailUnits s.log := by
      simp [openFailUnits]
    have hob : obsTermUnits (s.log ++ [Ev.beginEx w g p]) = obsTermUnits s.log := by
      simp [obsTermUnits]
    simp only [hcl, hbg, hof, hob]
    rw [← Multiset.coe_add (beginUnits s.log)]
    rw [show ((([(g, p)] : List (Nat × Nat)) : Multiset (Nat × Nat)) = {(g, p)}) from rfl]
    rw [h.msClaim, ← hP]
    abel
  · have hP := pendSum_update c s.pc pendEx w hw (Pc.expensive g p)
    rw [hpc] at hP
    simp only [pendEx, add_zero] at hP
    have hbg : beginUnits (s.log ++ [Ev.beginEx w g p])
        = beginUnits s.log ++ [(g, p)] := by simp [beginUnits]
    have hxd : exDoneUnits (s.log ++ [Ev.beginEx w g p]) = exDoneUnits s.log := by
      simp [exDoneUnits]
    simp only [hbg, hxd, hP]
    rw [← Multiset.coe_add]
    rw [show ((([(g, p)] : List (Nat × Nat)) : Multiset (Nat × Nat)) = {(g, p)}) from rfl]
    rw [h.msBegin, add_assoc]
  · have hxd : exDoneUnits (s.log ++ [Ev.beginEx w g p]) = exDoneUnits s.log := by
      simp [exDoneUnits]
    have hen : endExUnits (s.log ++ [Ev.beginEx w g p]) = endExUnits s.log := by
      simp [endExUnits]
    simp only [hxd, hen,
      pendSum_update_same c s.pc pendRelock w hw (Pc.expensive g p) (by rw [hpc]; rfl)]
    exact h.msExDone
  · have hen : endExUnits (s.log ++ [Ev.beginEx w g p]) = endExUnits s.log := by
      simp [endExUnits]
    have hem : emitRUnits (s.log ++ [Ev.beginEx w g p]) = emitRUnits s.log := by
      simp [emitRUnits]
    simp only [hen, hem,
      pendSum_update_same c s.pc pendEmitR w hw (Pc.expensive g p) (by rw [hpc]; rfl)]
    exact h.msEnd
  · have hof : openFailUnits (s.log ++ [Ev.beginEx w g p]) = openFailUnits s.log := by
      simp [openFailUnits]
    have hem : emitOFUnits (s.log ++ [Ev.beginEx w g p]) = emitOFUnits s.log := by
      simp [emitOFUnits]
    simp only [hof, hem,
      pendSum_update_same c s.pc pendEmitF w hw (Pc.expensive g p) (by rw [hpc]; rfl)]
    exact h.msOpenFail
  · intro ha
    have hea : emitsAll (s.log ++ [Ev.beginEx w g p]) = emitsAll s.log := by
      simp [emitsAll]
    simp only [hea]
    exact h.streamAgg ha
  · intro w0 g0 p0 ok hm
    rcases List.mem_append.mp hm with hm | hm
    · exact h.okFaithEnd w0 g0 p0 ok hm
    · simp at hm
  · intro w0 g0 p0 ok hm
    rcases List.mem_append.mp hm with hm | hm
    · exact h.okFaithEmit w0 g0 p0 ok hm
    · simp at hm
  · intro w0 g0 p0 hm
    rcases List.mem_append.mp hm with hm | hm
    · exact h.okFaithOF w0 g0 p0 hm
    · simp at hm
  · intro w0 g0 p0 ok hpc'
    by_cases hww : w0 = w
    · subst hww
      simp [Function.update_same] at hpc'
    · simp only [Function.update_noteq hww] at hpc'
      exact h.okFaithRelock w0 g0 p0 ok hpc'
  · intro w0 g0 p0 ok hpc'
    by_cases hww : w0 = w
    · subst hww
      simp [Function.update_same] at hpc'
    · simp only [Function.update_noteq hww] at hpc'
      exact h.okFaithEmitR w0 g0 p0 ok hpc'
  · intro e hm hset
    rcases List.mem_append.mp hm with hm | hm
    · exact h.termEv e hm hset
    · have := List.mem_singleton.mp hm
      subst this
      simp [evSetsOrSeesTerm] at hset
  · intro w0 g0 p0 hm
    have hm' : Ev.obsTerm w0 g0 p0 ∈ s.log := by
      rcases List.mem_append.mp hm with hm | hm
      · exact hm
      · simp at hm
    have hold := h.grpObs w0 g0 p0 hm'
    by_cases hww : w0 = w
    · subst hww
      simp only [Function.update_same]
      rw [hpc] at hold
      simp only [pcGroup] at hold ⊢
      exact hold
    · simp only [Function.update_noteq hww]
      exact hold
  · exact obsClaims_extend h [Ev.beginEx w g p] (by simp) (by simp)
  · intro ht' w0 hw0 g' hg'
    have ht'' : s.terminate = false := ht'
    by_cases hww : w0 = w
    · subst hww
      simp only [Function.update_same, pcGroup] at hg'
      exact h.termFree ht'' w0 hw0 g' (by rw [hpc]; simpa [pcGroup] using hg')
    · simp only [Function.update_noteq hww] at hg'
      exact h.termFree ht'' w0 hw0 g' hg'

theorem streamOfRest_append (l : List ((Nat × Nat) × Bool)) (x : (Nat × Nat) × Bool) :
    streamOfRest (l ++ [x]) = streamOfRest l ++
      (Tok.comma :: (if x.2 then [Tok.item x.1.1 x.1.2] else [])) := by
  induction l with
  | nil =>
      cases x with
      | mk u ok => cases ok <;> rfl
  | cons y l ih =>
      cases y with
      | mk u ok => simp [streamOfRest, ih]

theorem streamOf_append (l : List ((Nat × Nat) × Bool)) (x : (Nat × Nat) × Bool) :
    streamOf (l ++ [x]) = streamOf l ++
      ((if l.isEmpty then [] else [Tok.comma]) ++
        (if x.2 then [Tok.item x.1.1 x.1.2] else [])) := by
  cases l with
  | nil =>
      cases x with
      | mk u ok => cases ok <;> rfl
  | cons y l =>
      cases y with
      | mk u ok =>
          simp only [List.cons_append, streamOf, streamOfRest_append, List.isEmpty_cons]
          simp

theorem inv_expensive {c : Cfg} {s : St} {w g p : Nat} (h : Inv c s) (hw : w < c.numWorkers)
    (hpc : s.pc w = Pc.expensive g p) : Inv c (step c s w) := by
  rw [step_expensive hw hpc]
  have hgrp : g < c.numGroups := by
    have h0 := h.grpAll w (by simp [hpc]) (by simp [hpc])
    rw [hpc] at h0
    simpa [pcGroup] using h0
  refine
    { lockPc := ?_, pcLock := ?_, cursorLe := h.cursorLe, pcAtLe := ?_, grpAll := ?_,
      claimsCursor := ?_, claimsG := ?_, msClaim := ?_, msBegin := ?_,
      msExDone := ?_, msEnd := ?_, msOpenFail := ?_, streamAgg := ?_,
      okFaithEnd := ?_, okFaithEmit := ?_, okFaithOF := ?_,
      okFaithRelock := ?_, okFaithEmitR := ?_, termEv := ?_, grpObs := ?_,
      obsClaims := ?_, termFree := ?_ }
  · intro w' hl'
    by_cases hww : w' = w
    · subst hww
      simp [pcLocky, Function.update_same] at hl'
    · simp only [Function.update_noteq hww] at hl'
      exact h.lockPc w' hl'
  · intro w' hl'
    obtain ⟨h1, h2⟩ := h.pcLock w' hl'
    refine ⟨?_, h2⟩
    by_cases hww : w' = w
    · subst hww
      rw [hpc] at h1
      simp [pcLocky] at h1
    · simp only [Function.update_noteq hww]
      exact h1
  · intro w' g' hpc'
    by_cases hww : w' = w
    · subst hww
      simp [Function.update_same] at hpc'
    · simp only [Function.update_noteq hww] at hpc'
      exact h.pcAtLe w' g' hpc'
  · intro w' hna hnd
    by_cases hww : w' = w
    · subst hww
      simp only [Function.update_same, pcGroup]
      exact hgrp
    · simp only [Function.update_noteq hww] at hna hnd ⊢
      exact h.grpAll w' hna hnd
  · intro g'
    have hev : evClaims g' (s.log ++
        ((if c.unitOk g p && c.perUnitDir then [Ev.fileWrite w g p] else []) ++
          [Ev.exDone w g p (c.unitOk g p)])) = evClaims g' s.log := by
      cases hif : (c.unitOk g p && c.perUnitDir) <;> simp [evClaims, hif]
    rw [← List.append_assoc] at hev
    rw [hev]
    exact h.claimsCursor g'
  · intro w0 g0 p0 hm
    rw [List.append_assoc, List.mem_append] at hm
    rcases hm with hm | hm
    · exact h.claimsG w0 g0 p0 hm
    · revert hm
      cases hif : (c.unitOk g p && c.perUnitDir) <;> simp [hif]
  · have hcl : claimUnits (s.log ++
        (if c.unitOk g p && c.perUnitDir then [Ev.fileWrite w g p] else []) ++
          [Ev.exDone w g p (c.unitOk g p)]) = claimUnits s.log := by
      cases hif : (c.unitOk g p && c.perUnitDir) <;> simp [claimUnits, hif]
    have hbg : beginUnits (s.log ++
        (if c.unitOk g p && c.perUnitDir then [Ev.fileWrite w g p] else []) ++
          [Ev.exDone w g p (c.unitOk g p)]) = beginUnits s.log := by
      cases hif : (c.unitOk g p && c.perUnitDir) <;> simp [beginUnits, hif]
    have hof : openFailUnits (s.log ++
        (if c.unitOk g p && c.perUnitDir then [Ev.fileWrite w g p] else []) ++
          [Ev.exDone w g p (c.unitOk g p)]) = openFailUnits s.log := by
      cases hif : (c.unitOk g p && c.perUnitDir) <;> simp [openFailUnits, hif]
    have hob : obsTermUnits (s.log ++
        (if c.unitOk g p && c.perUnitDir then [Ev.fileWrite w g p] else []) ++
          [Ev.exDone w g p (c.unitOk g p)]) = obsTermUnits s.log := by
      cases hif : (c.unitOk g p && c.perUnitDir) <;> simp [obsTermUnits, hif]
    simp only [hcl, hbg, hof, hob,
      pendSum_update_same c s.pc pendClaimed w hw (Pc.relock g p (c.unitOk g p))
        (by rw [hpc]; rfl)]
    exact h.msClaim
  · have hP := pendSum_update c s.pc pendEx w hw (Pc.relock g p (c.unitOk g p))
    rw [hpc] at hP
    simp only [pendEx, add_zero] at hP
    have hbg : beginUnits (s.log ++
        (if c.unitOk g p && c.perUnitDir then [Ev.fileWrite w g p] else []) ++
          [Ev.exDone w g p (c.unitOk g p)]) = beginUnits s.log := by
      cases hif : (c.unitOk g p && c.perUnitDir) <;> simp [beginUnits, hif]
    have hxd : exDoneUnits (s.log ++
        (if c.unitOk g p && c.perUnitDir then [Ev.fileWrite w g p] else []) ++
          [Ev.exDone w g p (c.unitOk g p)]) = exDoneUnits s.log ++ [(g, p)] := by
      cases hif : (c.unitOk g p && c.perUnitDir) <;> simp [exDoneUnits, hif]
    simp only [hbg, hxd]
    rw [← Multiset.coe_add]
    rw [show ((([(g, p)] : List (Nat × Nat)) : Multiset (Nat × Nat)) = {(g, p)}) from rfl]
    rw [h.msBegin, ← hP]
    abel
  · have hP := pendSum_update c s.pc pendRelock w hw (Pc.relock g p (c.unitOk g p))
    rw [hpc] at hP
    simp only [pendRelock, add_zero] at hP
    have hxd : exDoneUnits (s.log ++
        (if c.unitOk g p && c.perUnitDir then [Ev.fileWrite w g p] else []) ++
          [Ev.exDone w g p (c.unitOk g p)]) = exDoneUnits s.log ++ [(g, p)] := by
      cases hif : (c.unitOk g p && c.perUnitDir) <;> simp [exDoneUnits, hif]
    have hen : endExUnits (s.log ++
        (if c.unitOk g p && c.perUnitDir then [Ev.fileWrite w g p] else []) ++
          [Ev.exDone w g p (c.unitOk g p)]) = endExUnits s.log := by
      cases hif : (c.unitOk g p && c.perUnitDir) <;> simp [endExUnits, hif]
    simp only [hxd, hen, hP]
    rw [← Multiset.coe_add]
    rw [show ((([(g, p)] : List (Nat × Nat)) : Multiset (Nat × Nat)) = {(g, p)}) from rfl]
    rw [h.msExDone]
    abel
  · have hen : endExUnits (s.log ++
        (if c.unitOk g p && c.perUnitDir then [Ev.fileWrite w g p] else []) ++
          [Ev.exDone w g p (c.unitOk g p)]) = endExUnits s.log := by
      cases hif : (c.unitOk g p && c.perUnitDir) <;> simp [endExUnits, hif]
    have hem : emitRUnits (s.log ++
        (if c.unitOk g p && c.perUnitDir then [Ev.fileWrite w g p] else []) ++
          [Ev.exDone w g p (c.unitOk g p)]) = emitRUnits s.log := by
      cases hif : (c.unitOk g p && c.perUnitDir) <;> simp [emitRUnits, hif]
    simp only [hen, hem,
      pendSum_update_same c s.pc pendEmitR w hw (Pc.relock g p (c.unitOk g p))
        (by rw [hpc]; rfl)]
    exact h.msEnd
  · have hof : openFailUnits (s.log ++
        (if c.unitOk g p && c.perUnitDir then [Ev.fileWrite w g p] else []) ++
          [Ev.exDone w g p (c.unitOk g p)]) = openFailUnits s.log := by
      cases hif : (c.unitOk g p && c.perUnitDir) <;> simp [openFailUnits, hif]
    have hem : emitOFUnits (s.log ++
        (if c.unitOk g p && c.perUnitDir then [Ev.fileWrite w g p] else []) ++
          [Ev.exDone w g p (c.unitOk g p)]) = emitOFUnits s.log := by
      cases hif : (c.unitOk g p && c.perUnitDir) <;> simp [emitOFUnits, hif]
    simp only [hof, hem,
      pendSum_update_same c s.pc pendEmitF w hw (Pc.relock g p (c.unitOk g p))
        (by rw [hpc]; rfl)]
    exact h.msOpenFail
  · intro ha
    have hea : emitsAll (s.log ++
        (if c.unitOk g p && c.perUnitDir then [Ev.fileWrite w g p] else []) ++
          [Ev.exDone w g p (c.unitOk g p)]) = emitsAll s.log := by
      cases hif : (c.unitOk g p && c.perUnitDir) <;> simp [emitsAll, hif]
    simp only [hea]
    exact h.streamAgg ha
  · intro w0 g0 p0 ok hm
    rw [List.append_assoc, List.mem_append] at hm
    rcases hm with hm | hm
    · exact h.okFaithEnd w0 g0 p0 ok hm
    · revert hm
      cases hif : (c.unitOk g p && c.perUnitDir) <;> simp [hif]
  · intro w0 g0 p0 ok hm
    rw [List.append_assoc, List.mem_append] at hm
    rcases hm with hm | hm
    · exact h.okFaithEmit w0 g0 p0 ok hm
    · revert hm
      cases hif : (c.unitOk g p && c.perUnitDir) <;> simp [hif]
  · intro w0 g0 p0 hm
    rw [List.append_assoc, List.mem_append] at hm
    rcases hm with hm | hm
    · exact h.okFaithOF w0 g0 p0 hm
    · revert hm
      cases hif : (c.unitOk g p && c.perUnitDir) <;> simp [hif]
  · intro w0 g0 p0 ok hpc'
    by_cases hww : w0 = w
    · subst hww
      simp only [Function.update_same] at hpc'
      injection hpc' with hg0 hp0 hok
      subst hg0
      subst hp0
      exact hok.symm
    · simp only [Function.update_noteq hww] at hpc'
      exact h.okFaithRelock w0 g0 p0 ok hpc'
  · intro w0 g0 p0 ok hpc'
    by_cases hww : w0 = w
    · subst hww
      simp [Function.update_same] at hpc'
    · simp only [Function.update_noteq hww] at hpc'
      exact h.okFaithEmitR w0 g0 p0 ok hpc'
  · intro e hm hset
    rw [List.append_assoc, List.mem_append] at hm
    rcases hm with hm | hm
    · exact h.termEv e hm hset
    · have he : e = Ev.fileWrite w g p ∨ e = Ev.exDone w g p (c.unitOk g p) := by
        revert hm
        cases hif : (c.unitOk g p && c.perUnitDir) <;> simp [hif] <;> tauto
      rcases he with he | he <;> subst he <;> simp [evSetsOrSeesTerm] at hset
  · intro w0 g0 p0 hm
    have hm' : Ev.obsTerm w0 g0 p0 ∈ s.log := by
      rw [List.append_assoc, List.mem_append] at hm
      rcases hm with hm | hm
      · exact hm
      · revert hm
        cases hif : (c.unitOk g p && c.perUnitDir) <;> simp [hif]
    have hold := h.grpObs w0 g0 p0 hm'
    by_cases hww : w0 = w
    · subst hww
      simp only [Function.update_same]
      rw [hpc] at hold
      simp only [pcGroup] at hold ⊢
      exact hold
    · simp only [Function.update_noteq hww]
      exact hold
  · intro w0 g0 p0 l1 l2 hdec g' p' hcm
    rw [List.append_assoc] at hdec
    refine obsClaims_extend h
      ((if c.unitOk g p && c.perUnitDir then [Ev.fileWrite w g p] else []) ++
        [Ev.exDone w g p (c.unitOk g p)]) ?_ ?_ w0 g0 p0 l1 l2 hdec g' p' hcm
    · intro w1 g1 p1
      cases hif : (c.unitOk g p && c.perUnitDir) <;> simp [hif]
    · intro w1 g1 p1 hm1
      revert hm1
      cases hif : (c.unitOk g p && c.perUnitDir) <;> simp [hif]
  · intro ht w0 hw0 g' hg'
    have ht' : s.terminate = false := ht
    by_cases hww : w0 = w
    · subst hww
      simp only [Function.update_same, pcGroup] at hg'
      exact h.termFree ht' w0 hw0 g' (by rw [hpc]; simpa [pcGroup] using hg')
    · simp only [Function.update_noteq hww] at hg'
      exact h.termFree ht' w0 hw0 g' hg'

theorem inv_relock_go {c : Cfg} {s : St} {w g p : Nat} {ok : Bool} (h : Inv c s)
    (hw : w < c.numWorkers) (hpc : s.pc w = Pc.relock g p ok) (hl : s.lock = none) :
    Inv c (step c s w) := by
  rw [step_relock_go hw hpc hl]
  have hgrp : g < c.numGroups := by
    have h0 := h.grpAll w (by simp [hpc]) (by simp [hpc])
    rw [hpc] at h0
    simpa [pcGroup] using h0
  have hokf : ok = c.unitOk g p := h.okFaithRelock w g p ok hpc
  refine
    { lockPc := ?_, pcLock := ?_, cursorLe := h.cursorLe, pcAtLe := ?_, grpAll := ?_,
      claimsCursor := ?_, claimsG := ?_, msClaim := ?_, msBegin := ?_,
      msExDone := ?_, msEnd := ?_, msOpenFail := ?_, streamAgg := ?_,
      okFaithEnd := ?_, okFaithEmit := ?_, okFaithOF := ?_,
      okFaithRelock := ?_, okFaithEmitR := ?_, termEv := ?_, grpObs := ?_,
      obsClaims := ?_, termFree := ?_ }
  · intro w' hl'
    by_cases hww : w' = w
    · subst hww
      rfl
    · simp only [Function.update_noteq hww] at hl'
      have h0 := h.lockPc w' hl'
      rw [hl] at h0
      cases h0
  · intro w' hl'
    have h0 : (some w : Option Nat) = some w' := hl'
    injection h0 with hww
    subst hww
    exact ⟨by simp [Function.update_same, pcLocky], hw⟩
  · intro w' g' hpc'
    by_cases hww : w' = w
    · subst hww
      simp [Function.update_same] at hpc'
    · simp only [Function.update_noteq hww] at hpc'
      exact h.pcAtLe w' g' hpc'
  · intro w' hna hnd
    by_cases hww : w' = w
    · subst hww
      simp only [Function.update_same, pcGroup]
      exact hgrp
    · simp only [Function.update_noteq hww] at hna hnd ⊢
      exact h.grpAll w' hna hnd
  · intro g'
    have hev : evClaims g' (s.log ++ [Ev.endEx w g p ok]) = evClaims g' s.log := by
      simp [evClaims]
    rw [hev]
    exact h.claimsCursor g'
  · intro w0 g0 p0 hm
    rcases List.mem_append.mp hm with hm | hm
    · exact h.claimsG w0 g0 p0 hm
    · simp at hm
  · have hcl : claimUnits (s.log ++ [Ev.endEx w g p ok]) = claimUnits s.log := by
      simp [claimUnits]
    have hbg : beginUnits (s.log ++ [Ev.endEx w g p ok]) = beginUnits s.log := by
      simp [beginUnits]
    have hof : openFailUnits (s.log ++ [Ev.endEx w g p ok]) = openFailUnits s.log := by
      simp [openFailUnits]
    have hob : obsTermUnits (s.log ++ [Ev.endEx w g p ok]) = obsTermUnits s.log := by
      simp [obsTermUnits]
    simp only [hcl, hbg, hof, hob,
      pendSum_update_same c s.pc pendClaimed w hw (Pc.emitR g p ok) (by rw [hpc]; rfl)]
    exact h.msClaim
  · have hbg : beginUnits (s.log ++ [Ev.endEx w g p ok]) = beginUnits s.log := by
      simp [beginUnits]
    have hxd : exDoneUnits (s.log ++ [Ev.endEx w g p ok]) = exDoneUnits s.log := by
      simp [exDoneUnits]
    simp only [hbg, hxd,
      pendSum_update_same c s.pc pendEx w hw (Pc.emitR g p ok) (by rw [hpc]; rfl)]
    exact h.msBegin
  · have hP := pendSum_update c s.pc pendRelock w hw (Pc.emitR g p ok)
    rw [hpc] at hP
    simp only [pendRelock, add_zero] at hP
    have hxd : exDoneUnits (s.log ++ [Ev.endEx w g p ok]) = exDoneUnits s.log := by
      simp [exDoneUnits]
    have hen : endExUnits (s.log ++ [Ev.endEx w g p ok])
        = endExUnits s.log ++ [(g, p)] := by simp [endExUnits]
    simp only [hxd, hen]
    rw [← Multiset.coe_add (endExUnits s.log)]
    rw [show ((([(g, p)] : List (Nat × Nat)) : Multiset (Nat × Nat)) = {(g, p)}) from rfl]
    rw [h.msExDone, ← hP]
    abel
  · have hP := pendSum_update c s.pc pendEmitR w hw (Pc.emitR g p ok)
    rw [hpc] at hP
    simp only [pendEmitR, add_zero] at hP
    have hen : endExUnits (s.log ++ [Ev.endEx w g p ok])
        = endExUnits s.log ++ [(g, p)] := by simp [endExUnits]
    have hem : emitRUnits (s.log ++ [Ev.endEx w g p ok]) = emitRUnits s.log := by
      simp [emitRUnits]
    simp only [hen, hem, hP]
    rw [← Multiset.coe_add]
    rw [show ((([(g, p)] : List (Nat × Nat)) : Multiset (Nat × Nat)) = {(g, p)}) from rfl]
    rw [h.msEnd, add_assoc]
  · have hof : openFailUnits (s.log ++ [Ev.endEx w g p ok]) = openFailUnits s.log := by
      simp [openFailUnits]
    have hem : emitOFUnits (s.log ++ [Ev.endEx w g p ok]) = emitOFUnits s.log := by
      simp [emitOFUnits]
    simp only [hof, hem,
      pendSum_update_same c s.pc pendEmitF w hw (Pc.emitR g p ok) (by rw [hpc]; rfl)]
    exact h.msOpenFail
  · intro ha
    have hea : emitsAll (s.log ++ [Ev.endEx w g p ok]) = emitsAll s.log := by
      simp [emitsAll]
    simp only [hea]
    exact h.streamAgg ha
  · intro w0 g0 p0 ok0 hm
    rcases List.mem_append.mp hm with hm | hm
    · exact h.okFaithEnd w0 g0 p0 ok0 hm
    · have := List.mem_singleton.mp hm
      injection this with hw0 hg0 hp0 hok0
      subst hg0
      subst hp0
      rw [hok0]
      exact hokf
  · intro w0 g0 p0 ok0 hm
    rcases List.mem_append.mp hm with hm | hm
    · exact h.okFaithEmit w0 g0 p0 ok0 hm
    · simp at hm
  · intro w0 g0 p0 hm
    rcases List.mem_append.mp hm with hm | hm
    · exact h.okFaithOF w0 g0 p0 hm
    · simp at hm
  · intro w0 g0 p0 ok0 hpc'
    by_cases hww : w0 = w
    · subst hww
      simp [Function.update_same] at hpc'
    · simp only [Function.update_noteq hww] at hpc'
      exact h.okFaithRelock w0 g0 p0 ok0 hpc'
  · intro w0 g0 p0 ok0 hpc'
    by_cases hww : w0 = w
    · subst hww
      simp only [Function.update_same] at hpc'
      injection hpc' with hg0 hp0 hok0
      subst hg0
      subst hp0
      rw [← hok0]
      exact hokf
    · simp only [Function.update_noteq hww] at hpc'
      exact h.okFaithEmitR w0 g0 p0 ok0 hpc'
  · intro e hm hset
    rcases List.mem_append.mp hm with hm | hm
    · have h0 := h.termEv e hm hset
      rw [h0]
      rfl
    · have := List.mem_singleton.mp hm
      subst this
      simp only [evSetsOrSeesTerm] at hset
      rw [hset]
      simp
  · intro w0 g0 p0 hm
    have hm' : Ev.obsTerm w0 g0 p0 ∈ s.log := by
      rcases List.mem_append.mp hm with hm | hm
      · exact hm
      · simp at hm
    have hold := h.grpObs w0 g0 p0 hm'
    by_cases hww : w0 = w
    · subst hww
      simp only [Function.update_same]
      rw [hpc] at hold
      simp only [pcGroup] at hold ⊢
      exact hold
    · simp only [Function.update_noteq hww]
      exact hold
  · exact obsClaims_extend h [Ev.endEx w g p ok] (by simp) (by simp)
  · intro ht w0 hw0 g' hg'
    have ht' : s.terminate = false ∧ ok = true := by
      have h0 : (s.terminate || !ok) = false := ht
      rcases Bool.or_eq_false_iff.mp h0 with ⟨h1, h2⟩
      exact ⟨h1, by simpa using h2⟩
    by_cases hww : w0 = w
    · subst hww
      simp only [Function.update_same, pcGroup] at hg'
      exact h.termFree ht'.1 w0 hw0 g' (by rw [hpc]; simpa [pcGroup] using hg')
    · simp only [Function.update_noteq hww] at hg'
      exact h.termFree ht'.1 w0 hw0 g' hg'

theorem inv_emitR {c : Cfg} {s : St} {w g p : Nat} {ok : Bool} (h : Inv c s)
    (hw : w < c.numWorkers) (hpc : s.pc w = Pc.emitR g p ok) : Inv c (step c s w) := by
  rw [step_emitR hw hpc]
  have hlock : s.lock = some w := h.lockPc w (by rw [hpc]; rfl)
  have hgrp : g < c.numGroups := by
    have h0 := h.grpAll w (by simp [hpc]) (by simp [hpc])
    rw [hpc] at h0
    simpa [pcGroup] using h0
  refine
    { lockPc := ?_, pcLock := ?_, cursorLe := h.cursorLe, pcAtLe := ?_, grpAll := ?_,
      claimsCursor := ?_, claimsG := ?_, msClaim := ?_, msBegin := ?_,
      msExDone := ?_, msEnd := ?_, msOpenFail := ?_, streamAgg := ?_,
      okFaithEnd := ?_, okFaithEmit := ?_, okFaithOF := ?_,
      okFaithRelock := ?_, okFaithEmitR := ?_, termEv := ?_, grpObs := ?_,
      obsClaims := ?_, termFree := ?_ }
  · intro w' hl'
    by_cases hww : w' = w
    · subst hww
      exact hlock
    · simp only [Function.update_noteq hww] at hl'
      exact h.lockPc w' hl'
  · intro w' hl'
    have h0 : s.lock = some w' := hl'
    rw [hlock] at h0
    injection h0 with hww
    subst hww
    exact ⟨by simp [Function.update_same, pcLocky], hw⟩
  · intro w' g' hpc'
    by_cases hww : w' = w
    · subst hww
      simp [Function.update_same] at hpc'
    · simp only [Function.update_noteq hww] at hpc'
      exact h.pcAtLe w' g' hpc'
  · intro w' hna hnd
    by_cases hww : w' = w
    · subst hww
      simp only [Function.update_same, pcGroup]
      exact hgrp
    · simp only [Function.update_noteq hww] at hna hnd ⊢
      exact h.grpAll w' hna hnd
  · intro g'
    have hev : evClaims g' (s.log ++ [Ev.emitRes w g p ok]) = evClaims g' s.log := by
      simp [evClaims]
    rw [hev]
    exact h.claimsCursor g'
  · intro w0 g0 p0 hm
    rcases List.mem_append.mp hm with hm | hm
    · exact h.claimsG w0 g0 p0 hm
    · simp at hm
  · have hcl : claimUnits (s.log ++ [Ev.emitRes w g p ok]) = claimUnits s.log := by
      simp [claimUnits]
    have hbg : beginUnits (s.log ++ [Ev.emitRes w g p ok]) = beginUnits s.log := by
      simp [beginUnits]
    have hof : openFailUnits (s.log ++ [Ev.emitRes w g p ok]) = openFailUnits s.log := by
      simp [openFailUnits]
    have hob : obsTermUnits (s.log ++ [Ev.emitRes w g p ok]) = obsTermUnits s.log := by
      simp [obsTermUnits]
    simp only [hcl, hbg, hof, hob,
      pendSum_update_same c s.pc pendClaimed w hw (Pc.loopW g) (by rw [hpc]; rfl)]
    exact h.msClaim
  · have hbg : beginUnits (s.log ++ [Ev.emitRes w g p ok]) = beginUnits s.log := by
      simp [beginUnits]
    have hxd : exDoneUnits (s.log ++ [Ev.emitRes w g p ok]) = exDoneUnits s.log := by
      simp [exDoneUnits]
    simp only [hbg, hxd,
      pendSum_update_same c s.pc pendEx w hw (Pc.loopW g) (by rw [hpc]; rfl)]
    exact h.msBegin
  · have hxd : exDoneUnits (s.log ++ [Ev.emitRes w g p ok]) = exDoneUnits s.log := by
      simp [exDoneUnits]
    have hen : endExUnits (s.log ++ [Ev.emitRes w g p ok]) = endExUnits s.log := by
      simp [endExUnits]
    simp only [hxd, hen,
      pendSum_update_same c s.pc pendRelock w hw (Pc.loopW g) (by rw [hpc]; rfl)]
    exact h.msExDone
  · have hP := pendSum_update c s.pc pendEmitR w hw (Pc.loopW g)
    rw [hpc] at hP
    simp only [pendEmitR, add_zero] at hP
    have hen : endExUnits (s.log ++ [Ev.emitRes w g p ok]) = endExUnits s.log := by
      simp [endExUnits]
    have hem : emitRUnits (s.log ++ [Ev.emitRes w g p ok])
        = emitRUnits s.log ++ [(g, p)] := by simp [emitRUnits]
    simp only [hen, hem]
    rw [← Multiset.coe_add (emitRUnits s.log)]
    rw [show ((([(g, p)] : List (Nat × Nat)) : Multiset (Nat × Nat)) = {(g, p)}) from rfl]
    rw [h.msEnd, ← hP]
    abel
  · have hof : openFailUnits (s.log ++ [Ev.emitRes w g p ok]) = openFailUnits s.log := by
      simp [openFailUnits]
    have hem : emitOFUnits (s.log ++ [Ev.emitRes w g p ok]) = emitOFUnits s.log := by
      simp [emitOFUnits]
    simp only [hof, hem,
      pendSum_update_same c s.pc pendEmitF w hw (Pc.loopW g) (by rw [hpc]; rfl)]
    exact h.msOpenFail
  · intro ha
    have hea : emitsAll (s.log ++ [Ev.emitRes w g p ok]) = emitsAll s.log ++ [((g, p), ok)] := by
      simp [emitsAll]
    obtain ⟨hs1, hs2⟩ := h.streamAgg ha
    constructor
    · show s.stream ++ emitToks c s g p ok = _
      rw [hea, streamOf_append, hs1]
      unfold emitToks
      rw [ha, hs2]
      cases hemp : (emitsAll s.log).isEmpty <;> simp
    · show (s.firstPrinted || c.aggregated) = _
      rw [hea, ha]
      simp
  · intro w0 g0 p0 ok0 hm
    rcases List.mem_append.mp hm with hm | hm
    · exact h.okFaithEnd w0 g0 p0 ok0 hm
    · simp at hm
  · intro w0 g0 p0 ok0 hm
    rcases List.mem_append.mp hm with hm | hm
    · exact h.okFaithEmit w0 g0 p0 ok0 hm
    · have := List.mem_singleton.mp hm
      injection this with hw0 hg0 hp0 hok0
      subst hg0
      subst hp0
      rw [hok0]
      exact h.okFaithEmitR w g0 p0 ok hpc
  · intro w0 g0 p0 hm
    rcases List.mem_append.mp hm with hm | hm
    · exact h.okFaithOF w0 g0 p0 hm
    · simp at hm
  · intro w0 g0 p0 ok0 hpc'
    by_cases hww : w0 = w
    · subst hww
      simp [Function.update_same] at hpc'
    · simp only [Function.update_noteq hww] at hpc'
      exact h.okFaithRelock w0 g0 p0 ok0 hpc'
  · intro w0 g0 p0 ok0 hpc'
    by_cases hww : w0 = w
    · subst hww
      simp [Function.update_same] at hpc'
    · simp only [Function.update_noteq hww] at hpc'
      exact h.okFaithEmitR w0 g0 p0 ok0 hpc'
  · intro e hm hset
    rcases List.mem_append.mp hm with hm | hm
    · exact h.termEv e hm hset
    · have := List.mem_singleton.mp hm
      subst this
      simp [evSetsOrSeesTerm] at hset
  · intro w0 g0 p0 hm
    have hm' : Ev.obsTerm w0 g0 p0 ∈ s.log := by
      rcases List.mem_append.mp hm with hm | hm
      · exact hm
      · simp at hm
    have hold := h.grpObs w0 g0 p0 hm'
    by_cases hww : w0 = w
    · subst hww
      simp only [Function.update_same]
      rw [hpc] at hold
      simp only [pcGroup] at hold ⊢
      exact hold
    · simp only [Function.update_noteq hww]
      exact hold
  · exact obsClaims_extend h [Ev.emitRes w g p ok] (by simp) (by simp)
  · intro ht w0 hw0 g' hg'
    have ht' : s.terminate = false := ht
    by_cases hww : w0 = w
    · subst hww
      simp only [Function.update_same, pcGroup] at hg'
      exact h.termFree ht' w0 hw0 g' (by rw [hpc]; simpa [pcGroup] using hg')
    · simp only [Function.update_noteq hww] at hg'
      exact h.termFree ht' w0 hw0 g' hg'

theorem inv_emitF {c : Cfg} {s : St} {w g p : Nat} (h : Inv c s)
    (hw : w < c.numWorkers) (hpc : s.pc w = Pc.emitF g p) : Inv c (step c s w) := by
  rw [step_emitF hw hpc]
  have hlock : s.lock = some w := h.lockPc w (by rw [hpc]; rfl)
  have hgrp : g < c.numGroups := by
    have h0 := h.grpAll w (by simp [hpc]) (by simp [hpc])
    rw [hpc] at h0
    simpa [pcGroup] using h0
  refine
    { lockPc := ?_, pcLock := ?_, cursorLe := h.cursorLe, pcAtLe := ?_, grpAll := ?_,
      claimsCursor := ?_, claimsG := ?_, msClaim := ?_, msBegin := ?_,
      msExDone := ?_, msEnd := ?_, msOpenFail := ?_, streamAgg := ?_,
      okFaithEnd := ?_, okFaithEmit := ?_, okFaithOF := ?_,
      okFaithRelock := ?_, okFaithEmitR := ?_, termEv := ?_, grpObs := ?_,
      obsClaims := ?_, termFree := ?_ }
  · intro w' hl'
    by_cases hww : w' = w
    · subst hww
      exact hlock
    · simp only [Function.update_noteq hww] at hl'
      exact h.lockPc w' hl'
  · intro w' hl'
    have h0 : s.lock = some w' := hl'
    rw [hlock] at h0
    injection h0 with hww
    subst hww
    exact ⟨by simp [Function.update_same, pcLocky], hw⟩
  · intro w' g' hpc'
    by_cases hww : w' = w
    · subst hww
      simp [Function.update_same] at hpc'
    · simp only [Function.update_noteq hww] at hpc'
      exact h.pcAtLe w' g' hpc'
  · intro w' hna hnd
    by_cases hww : w' = w
    · subst hww
      simp only [Function.update_same, pcGroup]
      exact hgrp
    · simp only [Function.update_noteq hww] at hna hnd ⊢
      exact h.grpAll w' hna hnd
  · intro g'
    have hev : evClaims g' (s.log ++ [Ev.emitOF w g p]) = evClaims g' s.log := by
      simp [evClaims]
    rw [hev]
    exact h.claimsCursor g'
  · intro w0 g0 p0 hm
    rcases List.mem_append.mp hm with hm | hm
    · exact h.claimsG w0 g0 p0 hm
    · simp at hm
  · have hcl : claimUnits (s.log ++ [Ev.emitOF w g p]) = claimUnits s.log := by
      simp [claimUnits]
    have hbg : beginUnits (s.log ++ [Ev.emitOF w g p]) = beginUnits s.log := by
      simp [beginUnits]
    have hof : openFailUnits (s.log ++ [Ev.emitOF w g p]) = openFailUnits s.log := by
      simp [openFailUnits]
    have hob : obsTermUnits (s.log ++ [Ev.emitOF w g p]) = obsTermUnits s.log := by
      simp [obsTermUnits]
    simp only [hcl, hbg, hof, hob,
      pendSum_update_same c s.pc pendClaimed w hw (Pc.loopW g) (by rw [hpc]; rfl)]
    exact h.msClaim
  · have hbg : beginUnits (s.log ++ [Ev.emitOF w g p]) = beginUnits s.log := by
      simp [beginUnits]
    have hxd : exDoneUnits (s.log ++ [Ev.emitOF w g p]) = exDoneUnits s.log := by
      simp [exDoneUnits]
    simp only [hbg, hxd,
      pendSum_update_same c s.pc pendEx w hw (Pc.loopW g) (by rw [hpc]; rfl)]
    exact h.msBegin
  · have hxd : exDoneUnits (s.log ++ [Ev.emitOF w g p]) = exDoneUnits s.log := by
      simp [exDoneUnits]
    have hen : endExUnits (s.log ++ [Ev.emitOF w g p]) = endExUnits s.log := by
      simp [endExUnits]
    simp only [hxd, hen,
      pendSum_update_same c s.pc pendRelock w hw (Pc.loopW g) (by rw [hpc]; rfl)]
    exact h.msExDone
  · have hen : endExUnits (s.log ++ [Ev.emitOF w g p]) = endExUnits s.log := by
      simp [endExUnits]
    have hem : emitRUnits (s.log ++ [Ev.emitOF w g p]) = emitRUnits s.log := by
      simp [emitRUnits]
    simp only [hen, hem,
      pendSum_update_same c s.pc pendEmitR w hw (Pc.loopW g) (by rw [hpc]; rfl)]
    exact h.msEnd
  · have hP := pendSum_update c s.pc pendEmitF w hw (Pc.loopW g)
    rw [hpc] at hP
    simp only [pendEmitF, add_zero] at hP
    have hof : openFailUnits (s.log ++ [Ev.emitOF w g p]) = openFailUnits s.log := by
      simp [openFailUnits]
    have hem : emitOFUnits (s.log ++ [Ev.emitOF w g p])
        = emitOFUnits s.log ++ [(g, p)] := by simp [emitOFUnits]
    simp only [hof, hem]
    rw [← Multiset.coe_add (emitOFUnits s.log)]
    rw [show ((([(g, p)] : List (Nat × Nat)) : Multiset (Nat × Nat)) = {(g, p)}) from rfl]
    rw [h.msOpenFail, ← hP]
    abel
  · intro ha
    have hea : emitsAll (s.log ++ [Ev.emitOF w g p]) = emitsAll s.log ++ [((g, p), false)] := by
      simp [emitsAll]
    obtain ⟨hs1, hs2⟩ := h.streamAgg ha
    constructor
    · show s.stream ++ emitToks c s g p false = _
      rw [hea, streamOf_append, hs1]
      unfold emitToks
      rw [ha, hs2]
      cases hemp : (emitsAll s.log).isEmpty <;> simp
    · show (s.firstPrinted || c.aggregated) = _
      rw [hea, ha]
      simp
  · intro w0 g0 p0 ok0 hm
    rcases List.mem_append.mp hm with hm | hm
    · exact h.okFaithEnd w0 g0 p0 ok0 hm
    · simp at hm
  · intro w0 g0 p0 ok0 hm
    rcases List.mem_append.mp hm with hm | hm
    · exact h.okFaithEmit w0 g0 p0 ok0 hm
    · simp at hm
  · intro w0 g0 p0 hm
    rcases List.mem_append.mp hm with hm | hm
    · exact h.okFaithOF w0 g0 p0 hm
    · simp at hm
  · intro w0 g0 p0 ok0 hpc'
    by_cases hww : w0 = w
    · subst hww
      simp [Function.update_same] at hpc'
    · simp only [Function.update_noteq hww] at hpc'
      exact h.okFaithRelock w0 g0 p0 ok0 hpc'
  · intro w0 g0 p0 ok0 hpc'
    by_cases hww : w0 = w
    · subst hww
      simp [Function.update_same] at hpc'
    · simp only [Function.update_noteq hww] at hpc'
      exact h.okFaithEmitR w0 g0 p0 ok0 hpc'
  · intro e hm hset
    rcases List.mem_append.mp hm with hm | hm
    · exact h.termEv e hm hset
    · have := List.mem_singleton.mp hm
      subst this
      simp [evSetsOrSeesTerm] at hset
  · intro w0 g0 p0 hm
    have hm' : Ev.obsTerm w0 g0 p0 ∈ s.log := by
      rcases List.mem_append.mp hm with hm | hm
      · exact hm
      · simp at hm
    have hold := h.grpObs w0 g0 p0 hm'
    by_cases hww : w0 = w
    · subst hww
      simp only [Function.update_same]
      rw [hpc] at hold
      simp only [pcGroup] at hold ⊢
      exact hold
    · simp only [Function.update_noteq hww]
      exact hold
  · exact obsClaims_extend h [Ev.emitOF w g p] (by simp) (by simp)
  · intro ht w0 hw0 g' hg'
    have ht' : s.terminate = false := ht
    by_cases hww : w0 = w
    · subst hww
      simp only [Function.update_same, pcGroup] at hg'
      exact h.termFree ht' w0 hw0 g' (by rw [hpc]; simpa [pcGroup] using hg')
    · simp only [Function.update_noteq hww] at hg'
      exact h.termFree ht' w0 hw0 g' hg'

theorem inv_step {c : Cfg} {s : St} (w : Nat) (h : Inv c s) : Inv c (step c s w) := by
  by_cases hw : w < c.numWorkers
  · cases hpc : s.pc w with
    | atGroup g =>
        by_cases hg : c.numGroups ≤ g
        · exact inv_atGroup_fin h hw hpc hg
        · cases hl : s.lock with
          | none => exact inv_atGroup_lock h hw hpc hg hl
          | some w' =>
              rw [step_atGroup_wait hw hpc hg hl]
              exact h
    | loopW g =>
        by_cases hcur : c.numPaths ≤ s.cursor g
        · exact inv_loop_exhaust h hw hpc hcur
        · cases hok : c.openOk g (s.cursor g) with
          | true => exact inv_loop_claim h hw hpc hcur hok
          | false => exact inv_loop_openfail h hw hpc hcur hok
    | claimed g p =>
        cases ht : s.terminate with
        | true => exact inv_claimed_term h hw hpc ht
        | false => exact inv_claimed_go h hw hpc ht
    | expensive g p => exact inv_expensive h hw hpc
    | relock g p ok =>
        cases hl : s.lock with
        | none => exact inv_relock_go h hw hpc hl
        | some w' =>
            rw [step_relock_wait hw hpc hl]
            exact h
    | emitR g p ok => exact inv_emitR h hw hpc
    | emitF g p => exact inv_emitF h hw hpc
    | done =>
        rw [step_done hw hpc]
        exact h
  · rw [step_notin hw]
    exact h

theorem runSched_append (c : Cfg) (l : List Nat) (w : Nat) :
    runSched c (l ++ [w]) = step c (runSched c l) w := by
  unfold runSched
  rw [List.foldl_append]
  rfl

theorem inv_run (c : Cfg) (l : List Nat) : Inv c (runSched c l) := by
  induction l using List.reverseRecOn with
  | nil => exact Inv_init c
  | append_singleton l w ih =>
      rw [runSched_append]
      exact inv_step w ih

/-- Per-step facts of the scheduler machine used by the trace-level claims:
the terminate flag is monotone, cursors never move backwards, no unit's
expensive stage begins once the flag is set, cursor advancement and
aggregated-stream writes happen only while the stepping worker holds the
lock, a newly logged per-unit file write happens from the expensive stage
while the stepping worker does not hold the lock, and no step moves another
worker's control location. -/
theorem step_facts (c : Cfg) (s : St) (w : Nat) (h : Inv c s) :
    (s.terminate = true → (step c s w).terminate = true) ∧
    (∀ g, s.cursor g ≤ (step c s w).cursor g) ∧
    (s.terminate = true → beginUnits (step c s w).log = beginUnits s.log) ∧
    ((step c s w).cursor ≠ s.cursor → s.lock = some w) ∧
    ((step c s w).stream ≠ s.stream → s.lock = some w) ∧
    (∀ g p, Ev.fileWrite w g p ∈ (step c s w).log → Ev.fileWrite w g p ∈ s.log ∨
      (s.pc w = Pc.expensive g p ∧ s.lock ≠ some w)) ∧
    (∀ w2, w2 ≠ w → (step c s w).pc w2 = s.pc w2) := by
  by_cases hw : w < c.numWorkers
  · cases hpc : s.pc w with
    | atGroup g =>
        by_cases hg : c.numGroups ≤ g
        · rw [step_atGroup_fin hw hpc hg]
          refine ⟨fun ht => ht, fun g' => le_refl _, fun ht => rfl, ?_, ?_, ?_, ?_⟩
          · intro hne
            exact absurd rfl hne
          · intro hne
            exact absurd rfl hne
          · intro g' p' hm
            exact Or.inl hm
          · intro w2 hne
            exact Function.update_noteq hne _ _
        · cases hl : s.lock with
          | none =>
              rw [step_atGroup_lock hw hpc hg hl]
              refine ⟨fun ht => ht, fun g' => le_refl _, fun ht => rfl, ?_, ?_, ?_, ?_⟩
              · intro hne
                exact absurd rfl hne
              · intro hne
                exact absurd rfl hne
              · intro g' p' hm
                exact Or.inl hm
              · intro w2 hne
                exact Function.update_noteq hne _ _
          | some w' =>
              rw [step_atGroup_wait hw hpc hg hl]
              exact ⟨fun ht => ht, fun g' => le_refl _, fun ht => rfl,
                fun hne => absurd rfl hne, fun hne => absurd rfl hne,
                fun g' p' hm => Or.inl hm, fun w2 hne => rfl⟩
    | loopW g =>
        have hlock : s.lock = some w := h.lockPc w (by rw [hpc]; rfl)
        by_cases hcur : c.numPaths ≤ s.cursor g
        · rw [step_loop_exhaust hw hpc hcur]
          refine ⟨fun ht => ht, fun g' => le_refl _, fun ht => rfl, ?_, ?_, ?_, ?_⟩
          · intro hne
            exact hlock
          · intro hne
            exact absurd rfl hne
          · intro g' p' hm
            exact Or.inl hm
          · intro w2 hne
            exact Function.update_noteq hne _ _
        · cases hok : c.openOk g (s.cursor g) with
          | true =>
              rw [step_loop_claim hw hpc hcur hok]
              refine ⟨fun ht => ht, ?_, ?_, fun hne => hlock, ?_, ?_, ?_⟩
              · intro g'
                by_cases hgg : g' = g
                · subst hgg
                  simp only [Function.update_same]
                  omega
                · simp only [Function.update_noteq hgg]
                  exact le_refl _
              · intro ht
                simp [beginUnits]
              · intro hne
                exact absurd rfl hne
              · intro g' p' hm
                rcases List.mem_append.mp hm with hm | hm
                · exact Or.inl hm
                · simp at hm
              · intro w2 hne
                exact Function.update_noteq hne _ _
          | false =>
              rw [step_loop_openfail hw hpc hcur hok]
              refine ⟨fun ht => rfl, ?_, ?_, fun hne => hlock, ?_, ?_, ?_⟩
              · intro g'
                by_cases hgg : g' = g
                · subst hgg
                  simp only [Function.update_same]
                  omega
                · simp only [Function.update_noteq hgg]
                  exact le_refl _
              · intro ht
                simp [beginUnits]
              · intro hne
                exact absurd rfl hne
              · intro g' p' hm
                rcases List.mem_append.mp hm with hm | hm
                · exact Or.inl hm
                · simp at hm
              · intro w2 hne
                exact Function.update_noteq hne _ _
    | claimed g p =>
        have hlock : s.lock = some w := h.lockPc w (by rw [hpc]; rfl)
        cases ht : s.terminate with
        | true =>
            rw [step_claimed_term hw hpc ht]
            refine ⟨fun ht' => ht, fun g' => le_refl _, ?_, ?_, ?_, ?_, ?_⟩
            · intro ht'
              simp [beginUnits]
            · intro hne
              exact absurd rfl hne
            · intro hne
              exact absurd rfl hne
            · intro g' p' hm
              rcases List.mem_append.mp hm with hm | hm
              · exact Or.inl hm
              · simp at hm
            · intro w2 hne
              exact Function.update_noteq hne _ _
        | false =>
            rw [step_claimed_go hw hpc ht]
            refine ⟨?_, fun g' => le_refl _, ?_, ?_, ?_, ?_, ?_⟩
            · intro ht'
              simp at ht'
            · intro ht'
              simp at ht'
            · intro hne
              exact absurd rfl hne
            · intro hne
              exact absurd rfl hne
            · intro g' p' hm
              rcases List.mem_append.mp hm with hm | hm
              · exact Or.inl hm
              · simp at hm
            · intro w2 hne
              exact Function.update_noteq hne _ _
    | expensive g p =>
        have hnl : s.lock ≠ some w := by
          intro hl
          have := (h.pcLock w hl).1
          rw [hpc] at this
          simp [pcLocky] at this
        rw [step_expensive hw hpc]
        refine ⟨fun ht => ht, fun g' => le_refl _, ?_, ?_, ?_, ?_, ?_⟩
        · intro ht
          cases hif : (c.unitOk g p && c.perUnitDir) <;> simp [beginUnits, hif]
        · intro hne
          exact absurd rfl hne
        · intro hne
          exact absurd rfl hne
        · intro g' p' hm
          rw [List.append_assoc, List.mem_append] at hm
          rcases hm with hm | hm
          · exact Or.inl hm
          · right
            have : g' = g ∧ p' = p := by
              revert hm
              cases hif : (c.unitOk g p && c.perUnitDir) <;> simp [hif] <;> tauto
            obtain ⟨rfl, rfl⟩ := this
            exact ⟨rfl, hnl⟩
        · intro w2 hne
          exact Function.update_noteq hne _ _
    | relock g p ok =>
        cases hl : s.lock with
        | none =>
            rw [step_relock_go hw hpc hl]
            refine ⟨?_, fun g' => le_refl _, ?_, ?_, ?_, ?_, ?_⟩
            · intro ht
              rw [ht]
              rfl
            · intro ht
              simp [beginUnits]
            · intro hne
              exact absurd rfl hne
            · intro hne
              exact absurd rfl hne
            · intro g' p' hm
              rcases List.mem_append.mp hm with hm | hm
              · exact Or.inl hm
              · simp at hm
            · intro w2 hne
              exact Function.update_noteq hne _ _
        | some w' =>
            rw [step_relock_wait hw hpc hl]
            exact ⟨fun ht => ht, fun g' => le_refl _, fun ht => rfl,
              fun hne => absurd rfl hne, fun hne => absurd rfl hne,
              fun g' p' hm => Or.inl hm, fun w2 hne => rfl⟩
    | emitR g p ok =>
        have hlock : s.lock = some w := h.lockPc w (by rw [hpc]; rfl)
        rw [step_emitR hw hpc]
        refine ⟨fun ht => ht, fun g' => le_refl _, ?_, ?_, fun hne => hlock, ?_, ?_⟩
        · intro ht
          simp [beginUnits]
        · intro hne
          exact absurd rfl hne
        · intro g' p' hm
          rcases List.mem_append.mp hm with hm | hm
          · exact Or.inl hm
          · simp at hm
        · intro w2 hne
          exact Function.update_noteq hne _ _
    | emitF g p =>
        have hlock : s.lock = some w := h.lockPc w (by rw [hpc]; rfl)
        rw [step_emitF hw hpc]
        refine ⟨fun ht => ht, fun g' => le_refl _, ?_, ?_, fun hne => hlock, ?_, ?_⟩
        · intro ht
          simp [beginUnits]
        · intro hne
          exact absurd rfl hne
        · intro g' p' hm
          rcases List.mem_append.mp hm with hm | hm
          · exact Or.inl hm
          · simp at hm
        · intro w2 hne
          exact Function.update_noteq hne _ _
    | done =>
        rw [step_done hw hpc]
        exact ⟨fun ht => ht, fun g' => le_refl _, fun ht => rfl,
          fun hne => absurd rfl hne, fun hne => absurd rfl hne,
          fun g' p' hm => Or.inl hm, fun w2 hne => rfl⟩
  · rw [step_notin hw]
    exact ⟨fun ht => ht, fun g' => le_refl _, fun ht => rfl,
      fun hne => absurd rfl hne, fun hne => absurd rfl hne,
      fun g' p' hm => Or.inl hm, fun w2 hne => rfl⟩

/-! ### Scheduler: derived counting lemmas -/

theorem count_range (n p : Nat) : (List.range n).count p = if p < n then 1 else 0 := by
  by_cases h : p < n
  · rw [if_pos h]
    exact List.count_eq_one_of_mem (List.nodup_range n) (List.mem_range.mpr h)
  · rw [if_neg h]
    exact List.count_eq_zero.mpr (fun hm => h (List.mem_range.mp hm))

theorem beginUnits_mem {l : List Ev} {g p : Nat} :
    (g, p) ∈ beginUnits l ↔ ∃ w, Ev.beginEx w g p ∈ l := by
  unfold beginUnits
  rw [List.mem_filterMap]
  constructor
  · rintro ⟨e, he, hfe⟩
    cases e
    case beginEx w g1 p1 =>
        simp only [Option.some.injEq, Prod.mk.injEq] at hfe
        obtain ⟨rfl, rfl⟩ := hfe
        exact ⟨w, he⟩
    all_goals simp at hfe
  · rintro ⟨w, hw⟩
    exact ⟨Ev.beginEx w g p, hw, rfl⟩

theorem obsTermUnits_mem {l : List Ev} {g p : Nat} :
    (g, p) ∈ obsTermUnits l ↔ ∃ w, Ev.obsTerm w g p ∈ l := by
  unfold obsTermUnits
  rw [List.mem_filterMap]
  constructor
  · rintro ⟨e, he, hfe⟩
    cases e
    case obsTerm w g1 p1 =>
        simp only [Option.some.injEq, Prod.mk.injEq] at hfe
        obtain ⟨rfl, rfl⟩ := hfe
        exact ⟨w, he⟩
    all_goals simp at hfe
  · rintro ⟨w, hw⟩
    exact ⟨Ev.obsTerm w g p, hw, rfl⟩

theorem openFailUnits_mem {l : List Ev} {g p : Nat} :
    (g, p) ∈ openFailUnits l ↔ ∃ w, Ev.openFail w g p ∈ l := by
  unfold openFailUnits
  rw [List.mem_filterMap]
  constructor
  · rintro ⟨e, he, hfe⟩
    cases e
    case openFail w g1 p1 =>
        simp only [Option.some.injEq, Prod.mk.injEq] at hfe
        obtain ⟨rfl, rfl⟩ := hfe
        exact ⟨w, he⟩
    all_goals simp at hfe
  · rintro ⟨w, hw⟩
    exact ⟨Ev.openFail w g p, hw, rfl⟩

theorem endExUnits_mem {l : List Ev} {g p : Nat} :
    (g, p) ∈ endExUnits l ↔ ∃ w ok, Ev.endEx w g p ok ∈ l := by
  unfold endExUnits
  rw [List.mem_filterMap]
  constructor
  · rintro ⟨e, he, hfe⟩
    cases e
    case endEx w g1 p1 ok =>
        simp only [Option.some.injEq, Prod.mk.injEq] at hfe
        obtain ⟨rfl, rfl⟩ := hfe
        exact ⟨w, ok, he⟩
    all_goals simp at hfe
  · rintro ⟨w, ok, hw⟩
    exact ⟨Ev.endEx w g p ok, hw, rfl⟩

theorem emitRUnits_mem {l : List Ev} {g p : Nat} :
    (g, p) ∈ emitRUnits l ↔ ∃ w ok, Ev.emitRes w g p ok ∈ l := by
  unfold emitRUnits
  rw [List.mem_filterMap]
  constructor
  · rintro ⟨e, he, hfe⟩
    cases e
    case emitRes w g1 p1 ok =>
        simp only [Option.some.injEq, Prod.mk.injEq] at hfe
        obtain ⟨rfl, rfl⟩ := hfe
        exact ⟨w, ok, he⟩
    all_goals simp at hfe
  · rintro ⟨w, ok, hw⟩
    exact ⟨Ev.emitRes w g p ok, hw, rfl⟩

theorem emitOFUnits_mem {l : List Ev} {g p : Nat} :
    (g, p) ∈ emitOFUnits l ↔ ∃ w, Ev.emitOF w g p ∈ l := by
  unfold emitOFUnits
  rw [List.mem_filterMap]
  constructor
  · rintro ⟨e, he, hfe⟩
    cases e
    case emitOF w g1 p1 =>
        simp only [Option.some.injEq, Prod.mk.injEq] at hfe
        obtain ⟨rfl, rfl⟩ := hfe
        exact ⟨w, he⟩
    all_goals simp at hfe
  · rintro ⟨w, hw⟩
    exact ⟨Ev.emitOF w g p, hw, rfl⟩

theorem claimUnits_count (g p : Nat) (l : List Ev) :
    (claimUnits l).count (g, p) = (evClaims g l).count p := by
  induction l with
  | nil => rfl
  | cons e l ih =>
      cases e
      case claim w0 g0 p0 =>
          have h1 : claimUnits (Ev.claim w0 g0 p0 :: l) = (g0, p0) :: claimUnits l := rfl
          rw [h1]
          by_cases hg : g0 = g
          · subst hg
            have h2 : evClaims g0 (Ev.claim w0 g0 p0 :: l) = p0 :: evClaims g0 l := by
              simp [evClaims, List.filterMap_cons]
            rw [h2, List.count_cons, List.count_cons, ih]
            by_cases hp : p0 = p <;> simp [hp, Prod.ext_iff]
          · have h2 : evClaims g (Ev.claim w0 g0 p0 :: l) = evClaims g l := by
              simp [evClaims, List.filterMap_cons, hg]
            rw [h2, List.count_cons, ih]
            simp [Prod.ext_iff, hg]
      all_goals exact ih

theorem emitsAll_length (l : List Ev) :
    (emitsAll l).length = (emitRUnits l).length + (emitOFUnits l).length := by
  induction l with
  | nil => rfl
  | cons e l ih =>
      cases e <;> simp [emitsAll, emitRUnits, emitOFUnits, List.filterMap_cons] at ih ⊢ <;> omega

theorem streamOfRest_item_count (g p : Nat) (l : List ((Nat × Nat) × Bool)) :
    (streamOfRest l).count (Tok.item g p) = l.count ((g, p), true) := by
  induction l with
  | nil => rfl
  | cons x l ih =>
      cases x with
      | mk u ok =>
          cases ok
          · simp [streamOfRest, List.count_cons, ih, Prod.ext_iff]
          · by_cases hu : u = (g, p)
            · subst hu
              simp [streamOfRest, List.count_cons, ih]
            · simp [streamOfRest, List.count_cons, ih, hu, Prod.ext_iff]
              intro h1 h2
              exact absurd (Prod.ext h1 h2) hu

theorem streamOf_item_count (g p : Nat) (l : List ((Nat × Nat) × Bool)) :
    (streamOf l).count (Tok.item g p) = l.count ((g, p), true) := by
  cases l with
  | nil => rfl
  | cons x l =>
      cases x with
      | mk u ok =>
          cases ok
          · simp [streamOf, streamOfRest_item_count, List.count_cons, Prod.ext_iff]
          · by_cases hu : u = (g, p)
            · subst hu
              simp [streamOf, streamOfRest_item_count, List.count_cons]
            · simp [streamOf, streamOfRest_item_count, List.count_cons, hu, Prod.ext_iff]
              intro h1 h2
              exact absurd (Prod.ext h1 h2) hu

theorem emitsAll_count_true (g p : Nat) (l : List Ev)
    (hall : ∀ w ok, Ev.emitRes w g p ok ∈ l → ok = true) :
    (emitsAll l).count ((g, p), true) = (emitRUnits l).count (g, p) := by
  induction l with
  | nil => rfl
  | cons e l ih =>
      have hall' : ∀ w ok, Ev.emitRes w g p ok ∈ l → ok = true :=
        fun w ok hm => hall w ok (List.mem_cons_of_mem _ hm)
      cases e
      case emitRes w0 g0 p0 ok0 =>
          have h1 : emitsAll (Ev.emitRes w0 g0 p0 ok0 :: l)
              = ((g0, p0), ok0) :: emitsAll l := rfl
          have h2 : emitRUnits (Ev.emitRes w0 g0 p0 ok0 :: l)
              = (g0, p0) :: emitRUnits l := rfl
          rw [h1, h2, List.count_cons, List.count_cons, ih hall']
          by_cases hu : (g0, p0) = (g, p)
          · have hg0 : g0 = g := (Prod.mk.injEq _ _ _ _ ▸ hu).1
            have hp0 : p0 = p := (Prod.mk.injEq _ _ _ _ ▸ hu).2
            subst hg0
            subst hp0
            have hok0 : ok0 = true := hall w0 ok0 (List.mem_cons_self _ _)
            subst hok0
            simp
          · have hne : ¬ (((g0, p0), ok0) = ((g, p), true)) := by
              intro hc
              exact hu (congrArg Prod.fst hc)
            have hne2 : ¬ ((g0, p0) = (g, p)) := hu
            simp [hne, hne2]
      case emitOF w0 g0 p0 =>
          have h1 : emitsAll (Ev.emitOF w0 g0 p0 :: l)
              = ((g0, p0), false) :: emitsAll l := rfl
          have h2 : emitRUnits (Ev.emitOF w0 g0 p0 :: l) = emitRUnits l := rfl
          rw [h1, h2, List.count_cons, ih hall']
          simp
      all_goals exact ih hall'

theorem emitsAll_count_false (g p : Nat) (l : List Ev)
    (hall : ∀ w ok, Ev.emitRes w g p ok ∈ l → ok = false) :
    (emitsAll l).count ((g, p), true) = 0 := by
  induction l with
  | nil => rfl
  | cons e l ih =>
      have hall' : ∀ w ok, Ev.emitRes w g p ok ∈ l → ok = false :=
        fun w ok hm => hall w ok (List.mem_cons_of_mem _ hm)
      cases e
      case emitRes w0 g0 p0 ok0 =>
          have h1 : emitsAll (Ev.emitRes w0 g0 p0 ok0 :: l)
              = ((g0, p0), ok0) :: emitsAll l := rfl
          rw [h1, List.count_cons, ih hall']
          by_cases hu : (g0, p0) = (g, p)
          · have hg0 : g0 = g := (Prod.mk.injEq _ _ _ _ ▸ hu).1
            have hp0 : p0 = p := (Prod.mk.injEq _ _ _ _ ▸ hu).2
            subst hg0
            subst hp0
            have hok0 : ok0 = false := hall w0 ok0 (List.mem_cons_self _ _)
            subst hok0
            simp
          · have hne : ¬ (((g0, p0), ok0) = ((g, p), true)) := by
              intro hc
              exact hu (congrArg Prod.fst hc)
            simp [hne]
      case emitOF w0 g0 p0 =>
          have h1 : emitsAll (Ev.emitOF w0 g0 p0 :: l)
              = ((g0, p0), false) :: emitsAll l := rfl
          rw [h1, List.count_cons, ih hall']
          simp
      all_goals exact ih hall'

theorem streamOfRest_all_ok (l : List ((Nat × Nat) × Bool)) (h : ∀ x ∈ l, x.2 = true) :
    streamOfRest l = if l.isEmpty then [] else Tok.comma :: interComma (l.map Prod.fst) := by
  induction l with
  | nil => rfl
  | cons x l ih =>
      cases x with
      | mk u ok =>
          have hok : ok = true := h (u, ok) (List.mem_cons_self _ _)
          subst hok
          have h' : ∀ x ∈ l, x.2 = true := fun x hx => h x (List.mem_cons_of_mem _ hx)
          rw [streamOfRest, ih h']
          cases l with
          | nil => rfl
          | cons y l => simp [interComma]

theorem streamOf_all_ok (l : List ((Nat × Nat) × Bool)) (h : ∀ x ∈ l, x.2 = true) :
    streamOf l = interComma (l.map Prod.fst) := by
  cases l with
  | nil => rfl
  | cons x l =>
      cases x with
      | mk u ok =>
          have hok : ok = true := h (u, ok) (List.mem_cons_self _ _)
          subst hok
          have h' : ∀ x ∈ l, x.2 = true := fun x hx => h x (List.mem_cons_of_mem _ hx)
          rw [streamOf, streamOfRest_all_ok l h']
          cases l with
          | nil => rfl
          | cons y l => simp [interComma]

theorem emitsAll_mem {l : List Ev} {x : (Nat × Nat) × Bool} (hm : x ∈ emitsAll l) :
    (∃ w, Ev.emitRes w x.1.1 x.1.2 x.2 ∈ l) ∨ (x.2 = false ∧ ∃ w, Ev.emitOF w x.1.1 x.1.2 ∈ l) := by
  unfold emitsAll at hm
  rcases List.mem_filterMap.mp hm with ⟨e, he, hfe⟩
  cases e
  case emitRes w g1 p1 ok =>
      left
      simp only [Option.some.injEq] at hfe
      rw [← hfe]
      exact ⟨w, he⟩
  case emitOF w g1 p1 =>
      right
      simp only [Option.some.injEq] at hfe
      rw [← hfe]
      exact ⟨rfl, w, he⟩
  all_goals simp at hfe

theorem claimUnits_mem {l : List Ev} {g p : Nat} :
    (g, p) ∈ claimUnits l ↔ ∃ w, Ev.claim w g p ∈ l := by
  unfold claimUnits
  rw [List.mem_filterMap]
  constructor
  · rintro ⟨e, he, hfe⟩
    cases e
    case claim w g1 p1 =>
        simp only [Option.some.injEq, Prod.mk.injEq] at hfe
        obtain ⟨rfl, rfl⟩ := hfe
        exact ⟨w, he⟩
    all_goals simp at hfe
  · rintro ⟨w, hw⟩
    exact ⟨Ev.claim w g p, hw, rfl⟩

theorem evClaims_mem {l : List Ev} {g p : Nat} (w : Nat) (hm : Ev.claim w g p ∈ l) :
    p ∈ evClaims g l := by
  unfold evClaims
  refine List.mem_filterMap.mpr ⟨Ev.claim w g p, hm, ?_⟩
  simp

/-! ### Scheduler: runs without failures, terminate-flag propagation -/

theorem step_no_term {c : Cfg} {s : St} (w : Nat) (h : Inv c s)
    (hopen : ∀ g p, c.openOk g p = true) (hunit : ∀ g p, c.unitOk g p = true)
    (ht : s.terminate = false) : (step c s w).terminate = false := by
  by_cases hw : w < c.numWorkers
  · cases hpc : s.pc w with
    | atGroup g =>
        by_cases hg : c.numGroups ≤ g
        · rw [step_atGroup_fin hw hpc hg]
          exact ht
        · cases hl : s.lock with
          | none =>
              rw [step_atGroup_lock hw hpc hg hl]
              exact ht
          | some w' =>
              rw [step_atGroup_wait hw hpc hg hl]
              exact ht
    | loopW g =>
        by_cases hcur : c.numPaths ≤ s.cursor g
        · rw [step_loop_exhaust hw hpc hcur]
          exact ht
        · rw [step_loop_claim hw hpc hcur (hopen g (s.cursor g))]
          exact ht
    | claimed g p =>
        rw [step_claimed_go hw hpc ht]
        exact ht
    | expensive g p =>
        rw [step_expensive hw hpc]
        exact ht
    | relock g p ok =>
        cases hl : s.lock with
        | none =>
            rw [step_relock_go hw hpc hl]
            show (s.terminate || !ok) = false
            rw [ht, h.okFaithRelock w g p ok hpc, hunit g p]
            rfl
        | some w' =>
            rw [step_relock_wait hw hpc hl]
            exact ht
    | emitR g p ok =>
        rw [step_emitR hw hpc]
        exact ht
    | emitF g p =>
        rw [step_emitF hw hpc]
        exact ht
    | done =>
        rw [step_done hw hpc]
        exact ht
  · rw [step_notin hw]
    exact ht

theorem foldl_no_term (c : Cfg) (hopen : ∀ g p, c.openOk g p = true)
    (hunit : ∀ g p, c.unitOk g p = true) (l : List Nat) :
    ∀ (s : St), Inv c s → s.terminate = false →
      (l.foldl (step c) s).terminate = false := by
  induction l with
  | nil => exact fun s h ht => ht
  | cons w l ih =>
      intro s h ht
      exact ih (step c s w) (inv_step w h) (step_no_term w h hopen hunit ht)

theorem run_no_term (c : Cfg) (hopen : ∀ g p, c.openOk g p = true)
    (hunit : ∀ g p, c.unitOk g p = true) (sched : List Nat) :
    (runSched c sched).terminate = false :=
  foldl_no_term c hopen hunit sched initSt (Inv_init c) rfl

theorem foldl_term_frozen (c : Cfg) (l : List Nat) :
    ∀ (s : St), Inv c s → s.terminate = true →
      (l.foldl (step c) s).terminate = true ∧
        beginUnits (l.foldl (step c) s).log = beginUnits s.log := by
  induction l with
  | nil => exact fun s h ht => ⟨ht, rfl⟩
  | cons w l ih =>
      intro s h ht
      obtain ⟨hf1, _, hf3, _⟩ := step_facts c s w h
      obtain ⟨h1, h2⟩ := ih (step c s w) (inv_step w h) (hf1 ht)
      exact ⟨h1, h2.trans (hf3 ht)⟩

/-! ### Scheduler: consequences of the invariant at a finished run -/

theorem pendSum_allDone {c : Cfg} {s : St} (hd : allDone c s)
    (f : Pc → Multiset (Nat × Nat)) (hf : f Pc.done = 0) :
    pendSum c s.pc f = 0 := by
  refine Finset.sum_eq_zero ?_
  intro w hw
  rw [hd w (Finset.mem_range.mp hw), hf]

theorem allDone_ms {c : Cfg} {s : St} (h : Inv c s) (hd : allDone c s) :
    (claimUnits s.log : Multiset (Nat × Nat)) =
        (beginUnits s.log : Multiset (Nat × Nat)) +
          (openFailUnits s.log : Multiset (Nat × Nat)) +
          (obsTermUnits s.log : Multiset (Nat × Nat)) ∧
    (beginUnits s.log : Multiset (Nat × Nat)) = (exDoneUnits s.log : Multiset (Nat × Nat)) ∧
    (exDoneUnits s.log : Multiset (Nat × Nat)) = (endExUnits s.log : Multiset (Nat × Nat)) ∧
    (endExUnits s.log : Multiset (Nat × Nat)) = (emitRUnits s.log : Multiset (Nat × Nat)) ∧
    (openFailUnits s.log : Multiset (Nat × Nat)) =
      (emitOFUnits s.log : Multiset (Nat × Nat)) := by
  have h1 := h.msClaim
  have h2 := h.msBegin
  have h3 := h.msExDone
  have h4 := h.msEnd
  have h5 := h.msOpenFail
  rw [pendSum_allDone hd pendClaimed rfl, add_zero] at h1
  rw [pendSum_allDone hd pendEx rfl, add_zero] at h2
  rw [pendSum_allDone hd pendRelock rfl, add_zero] at h3
  rw [pendSum_allDone hd pendEmitR rfl, add_zero] at h4
  rw [pendSum_allDone hd pendEmitF rfl, add_zero] at h5
  exact ⟨h1, h2, h3, h4, h5⟩

theorem no_openFail_units {c : Cfg} {s : St} (h : Inv c s)
    (hopen : ∀ g p, c.openOk g p = true) :
    openFailUnits s.log = [] ∧ emitOFUnits s.log = [] := by
  have h1 : openFailUnits s.log = [] := by
    rw [List.eq_nil_iff_forall_not_mem]
    intro x hx
    obtain ⟨g, p⟩ := x
    rcases openFailUnits_mem.mp hx with ⟨w, hw⟩
    have hf := h.okFaithOF w g p hw
    rw [hopen g p] at hf
    exact Bool.noConfusion hf
  have h2 : emitOFUnits s.log = [] := by
    rw [List.eq_nil_iff_forall_not_mem]
    intro x hx
    obtain ⟨g, p⟩ := x
    have hle : (emitOFUnits s.log : Multiset (Nat × Nat)) ≤
        (openFailUnits s.log : Multiset (Nat × Nat)) := by
      rw [h.msOpenFail]
      exact le_add_right (le_refl _)
    have hm := Multiset.mem_of_le hle (Multiset.mem_coe.mpr hx)
    rw [h1] at hm
    simp at hm
  exact ⟨h1, h2⟩

theorem no_obsTerm_units {c : Cfg} {s : St} (h : Inv c s) (ht : s.terminate = false) :
    obsTermUnits s.log = [] := by
  rw [List.eq_nil_iff_forall_not_mem]
  intro x hx
  obtain ⟨g, p⟩ := x
  rcases obsTermUnits_mem.mp hx with ⟨w, hw⟩
  have := h.termEv _ hw rfl
  rw [ht] at this
  exact Bool.noConfusion this

theorem cursor_full {c : Cfg} {s : St} (h : Inv c s) (hd : allDone c s)
    (ht : s.terminate = false) (hW : 0 < c.numWorkers) :
    ∀ g, g < c.numGroups → s.cursor g = c.numPaths := by
  intro g hg
  refine h.termFree ht 0 hW g ?_
  rw [hd 0 hW]
  exact hg

theorem claims_count_le_one {c : Cfg} {s : St} (h : Inv c s) (g p : Nat) :
    (claimUnits s.log).count (g, p) ≤ 1 := by
  rw [claimUnits_count, h.claimsCursor g, count_range]
  split
  · exact le_refl _
  · exact Nat.zero_le _

theorem count_prod_eq (a : Nat × Nat) (l : List (Nat × Nat)) :
    @List.count (Nat × Nat) instBEqOfDecidableEq a l = l.count a := by
  induction l with
  | nil => rfl
  | cons b l ih =>
      by_cases hb : b = a
      · subst hb
        rw [@List.count_cons _ instBEqOfDecidableEq, List.count_cons, ih]
        simp
        exact decide_eq_true rfl
      · rw [@List.count_cons _ instBEqOfDecidableEq, List.count_cons, ih]
        simp [hb]
        exact decide_eq_false hb

theorem claimUnits_nodup {c : Cfg} {s : St} (h : Inv c s) : (claimUnits s.log).Nodup := by
  rw [List.nodup_iff_count_le_one]
  intro x
  rw [count_prod_eq]
  obtain ⟨g, p⟩ := x
  exact claims_count_le_one h g p

theorem claimUnits_length_le {c : Cfg} {s : St} (h : Inv c s) :
    (claimUnits s.log).length ≤ unitCount c := by
  have hnd : (claimUnits s.log).Nodup := claimUnits_nodup h
  have hsub : (claimUnits s.log).toFinset ⊆
      Finset.range c.numGroups ×ˢ Finset.range c.numPaths := by
    intro x hx
    obtain ⟨g, p⟩ := x
    rw [List.mem_toFinset] at hx
    rcases claimUnits_mem.mp hx with ⟨w, hw⟩
    have hg : g < c.numGroups := h.claimsG w g p hw
    have hp : p < c.numPaths := by
      have hpe : p ∈ evClaims g s.log := evClaims_mem w hw
      rw [h.claimsCursor g] at hpe
      exact lt_of_lt_of_le (List.mem_range.mp hpe) (h.cursorLe g)
    exact Finset.mem_product.mpr ⟨Finset.mem_range.mpr hg, Finset.mem_range.mpr hp⟩
  have hcard := Finset.card_le_card hsub
  rw [List.toFinset_card_of_nodup hnd] at hcard
  simpa [unitCount, Finset.card_product] using hcard

theorem no_emitOF {c : Cfg} {s : St} (h : Inv c s)
    (hopen : ∀ g p, c.openOk g p = true) {w g p : Nat}
    (hw : Ev.emitOF w g p ∈ s.log) : False := by
  have hmem : (g, p) ∈ emitOFUnits s.log := emitOFUnits_mem.mpr ⟨w, hw⟩
  rw [(no_openFail_units h hopen).2] at hmem
  simp at hmem

/-! ### C10: per-unit output file path and open-failure reporting -/

/-- Claim C10: the per-unit output path is the output folder joined with the
filename component of the unit's graph-spec path, with `".gz"` appended
exactly when gzip output is enabled (so two graph-spec paths sharing a
filename map to the same output file); on success the unit's output is
written to that path, and an open failure is reported as an error carrying
the path and the system error text. -/
theorem makeOutputFile_path_and_errors (fs : FileSystem)
    (folder g1 g2 out : String) (gz : Bool) :
    (makeOutputPath folder g1 gz =
      pathJoin folder (pathFilename g1) ++ (if gz then ".gz" else "")) ∧
    (pathFilename g1 = pathFilename g2 →
      makeOutputPath folder g1 gz = makeOutputPath folder g2 gz) ∧
    (fs.openErr (makeOutputPath folder g1 gz) = none →
      makeOutputFile fs folder gz out g1 = Except.ok (makeOutputPath folder g1 gz, out)) ∧
    (∀ e, fs.openErr (makeOutputPath folder g1 gz) = some e →
      makeOutputFile fs folder gz out g1 =
        Except.error ("ERROR: Failed to open output file '" ++ makeOutputPath folder g1 gz ++
          "'. Error: '" ++ e ++ "'")) := by
  refine ⟨?_, ?_, ?_, ?_⟩
  · unfold makeOutputPath
    cases gz <;> simp
  · intro h
    unfold makeOutputPath
    rw [h]
  · intro h
    unfold makeOutputFile
    rw [h]
  · intro e h
    unfold makeOutputFile
    rw [h]

/-- Witness for C10: with output folder `"out"`, gzip on, and the two
graph-spec paths `"graphs/a.json"` and `"other/a.json"` (same filename), the
output path is `"out/a.json.gz"` for both; opening failure with system error
`"Permission denied"` yields the formatted error, and an unproblematic open
writes the output to the computed path. -/
theorem makeOutputFile_path_and_errors_witness :
    pathFilename "graphs/a.json" = pathFilename "other/a.json" ∧
    makeOutputPath "out" "graphs/a.json" true = makeOutputPath "out" "other/a.json" true ∧
    makeOutputFile { openErr := fun _ => some "Permission denied" } "out" true "{}" "graphs/a.json"
      = Except.error
        "ERROR: Failed to open output file 'out/a.json.gz'. Error: 'Permission denied'" ∧
    makeOutputFile { openErr := fun _ => none } "out" true "{}" "graphs/a.json"
      = Except.ok ("out/a.json.gz", "{}") := by
  have h := makeOutputFile_path_and_errors
    { openErr := fun _ => some "Permission denied" } "out" "graphs/a.json" "other/a.json" "{}" true
  have h2 := makeOutputFile_path_and_errors
    { openErr := fun _ => none } "out" "graphs/a.json" "other/a.json" "{}" true
  refine ⟨by decide, h.2.1 (by decide), ?_, ?_⟩
  · have := h.2.2.2 "Permission denied" rfl
    rw [this]
    rfl
  · have := h2.2.2.1 rfl
    rw [this]
    rfl

/-! ### C3: aggregated output framing and well-formedness -/

/-- Claim C3 as stated is false: with two read-source groups of one
graph-spec path each (two units in total) and an aggregated output
configured, `Workflow::run` writes no framing tokens — its condition is
`1 < graphSpecPaths_.size()`, which looks only at the per-group path count,
not at the unit count — yet two items are written, so the aggregated output
is the unbracketed `A,B`, which is not syntactically well-formed. -/
theorem workflow_framing_claim_refuted : ¬ ClaimC3 := by
  intro hcl
  have h := (hcl ⟨2, 1, true, false, fun _ _ => true, fun _ _ => true, 1⟩
      (List.replicate 15 0) rfl (fun _ _ => rfl) (fun _ _ => rfl) (by decide)).2
  have hout : output ⟨2, 1, true, false, fun _ _ => true, fun _ _ => true, 1⟩
      (runSched ⟨2, 1, true, false, fun _ _ => true, fun _ _ => true, 1⟩
        (List.replicate 15 0))
      = [Tok.item 0 0, Tok.comma, Tok.item 1 0] := by decide
  rw [hout] at h
  rcases h with h0 | ⟨u, hu⟩ | ⟨us, hus⟩
  · exact absurd h0 (by decide)
  · have := congrArg List.length hu
    simp at this
  · simp at hus

/-- Claim C3, corrected: the framing condition of `Workflow::run` is
`1 < graphSpecPaths_.size()` — more than one graph-spec *path*, not more
than one *unit*.  When there is more than one path (so the frame is
written), or at most one unit in total, the aggregated output of a
failure-free complete run is syntactically well-formed. -/
theorem workflow_framing_amended (c : Cfg) (sched : List Nat)
    (hagg : c.aggregated = true)
    (hopen : ∀ g p, c.openOk g p = true) (hunit : ∀ g p, c.unitOk g p = true)
    (hd : allDone c (runSched c sched))
    (hside : 1 < c.numPaths ∨ unitCount c ≤ 1) :
    (frameWritten c = true ↔ 1 < c.numPaths) ∧
    WellFormed (output c (runSched c sched)) := by
  have h := inv_run c sched
  have hfr : frameWritten c = true ↔ 1 < c.numPaths := by
    simp [frameWritten, hagg]
  refine ⟨hfr, ?_⟩
  have hall : ∀ x ∈ emitsAll (runSched c sched).log, x.2 = true := by
    intro x hx
    rcases emitsAll_mem hx with ⟨w, hw⟩ | ⟨hx2, w, hw⟩
    · rw [h.okFaithEmit w x.1.1 x.1.2 x.2 hw]
      exact hunit _ _
    · exact (no_emitOF h hopen hw).elim
  have hstream : (runSched c sched).stream =
      interComma ((emitsAll (runSched c sched).log).map Prod.fst) := by
    rw [(h.streamAgg hagg).1]
    exact streamOf_all_ok _ hall
  cases hfw : frameWritten c with
  | true =>
      right; right
      refine ⟨(emitsAll (runSched c sched).log).map Prod.fst, ?_⟩
      simp [output, hfw, hstream]
  | false =>
      have hnp : ¬ 1 < c.numPaths := fun hh => absurd (hfr.mpr hh) (by simp [hfw])
      have hu1 : unitCount c ≤ 1 := hside.resolve_left hnp
      have hterm : (runSched c sched).terminate = false := run_no_term c hopen hunit sched
      have hms := allDone_ms h hd
      have hOF : openFailUnits (runSched c sched).log = [] := (no_openFail_units h hopen).1
      have hOT : obsTermUnits (runSched c sched).log = [] := no_obsTerm_units h hterm
      have hclaims : (claimUnits (runSched c sched).log : Multiset (Nat × Nat)) =
          (emitRUnits (runSched c sched).log : Multiset (Nat × Nat)) := by
        rw [hms.1, hOF, hOT, hms.2.1, hms.2.2.1, hms.2.2.2.1]
        simp
      have hlenR : (emitRUnits (runSched c sched).log).length ≤ 1 := by
        have hc := congrArg Multiset.card hclaims
        rw [Multiset.coe_card, Multiset.coe_card] at hc
        have hle := claimUnits_length_le h
        omega
      have hlenOF : (emitOFUnits (runSched c sched).log).length = 0 := by
        rw [(no_openFail_units h hopen).2]
        rfl
      have hlen : ((emitsAll (runSched c sched).log).map Prod.fst).length ≤ 1 := by
        rw [List.length_map, emitsAll_length]
        omega
      have hout : output c (runSched c sched) =
          interComma ((emitsAll (runSched c sched).log).map Prod.fst) := by
        simp [output, hfw, hstream]
      rw [hout]
      rcases hus : (emitsAll (runSched c sched).log).map Prod.fst with _ | ⟨u, rest⟩
      · left
        rfl
      · rcases rest with _ | ⟨v, rest2⟩
        · right; left
          exact ⟨u, rfl⟩
        · rw [hus] at hlen
          simp at hlen

/-- Witness for `workflow_framing_amended`: one group with two graph-spec
paths, one failure-free worker; the run completes and the framed aggregated
output is well-formed. -/
theorem workflow_framing_amended_witness :
    (frameWritten ⟨1, 2, true, false, fun _ _ => true, fun _ _ => true, 1⟩ = true ↔
      1 < (⟨1, 2, true, false, fun _ _ => true, fun _ _ => true, 1⟩ : Cfg).numPaths) ∧
    WellFormed (output ⟨1, 2, true, false, fun _ _ => true, fun _ _ => true, 1⟩
      (runSched ⟨1, 2, true, false, fun _ _ => true, fun _ _ => true, 1⟩
        (List.replicate 13 0))) :=
  workflow_framing_amended _ _ rfl (fun _ _ => rfl) (fun _ _ => rfl) (by decide)
    (Or.inl (by decide))

/-! ### C4: soft-terminate semantics -/

/-- Claim C4: once the soft-terminate flag is set it stays set and the set
of begun units is frozen (no new unit starts under any continuation of the
schedule); a worker at the post-claim terminate check abandons the
just-claimed unit — its step logs only the terminate observation and moves
the worker to the next group; after a terminate observation all of that
worker's later claims are for strictly later groups; a unit whose claim was
abandoned at the terminate check is never begun; and in a completed run
every begun (in-flight) unit was emitted. -/
theorem workflow_softTerminate (c : Cfg) (sched sched2 : List Nat) :
    ((runSched c sched).terminate = true →
      (runSched c (sched ++ sched2)).terminate = true ∧
        beginUnits (runSched c (sched ++ sched2)).log =
          beginUnits (runSched c sched).log) ∧
    (∀ w g p, w < c.numWorkers → (runSched c sched).pc w = Pc.claimed g p →
      (runSched c sched).terminate = true →
      (step c (runSched c sched) w).pc w = Pc.atGroup (g + 1) ∧
        (step c (runSched c sched) w).log =
          (runSched c sched).log ++ [Ev.obsTerm w g p] ∧
        beginUnits (step c (runSched c sched) w).log =
          beginUnits (runSched c sched).log) ∧
    (∀ w g p l1 l2, (runSched c sched).log = l1 ++ Ev.obsTerm w g p :: l2 →
      ∀ g' p', Ev.claim w g' p' ∈ l2 → g < g') ∧
    (∀ g p, (g, p) ∈ obsTermUnits (runSched c sched).log →
      (g, p) ∉ beginUnits (runSched c sched).log) ∧
    (allDone c (runSched c sched) →
      (beginUnits (runSched c sched).log : Multiset (Nat × Nat)) =
        (emitRUnits (runSched c sched).log : Multiset (Nat × Nat))) := by
  have h := inv_run c sched
  refine ⟨?_, ?_, ?_, ?_, ?_⟩
  · intro ht
    have he : runSched c (sched ++ sched2) =
        sched2.foldl (step c) (runSched c sched) := by
      unfold runSched
      rw [List.foldl_append]
    rw [he]
    exact foldl_term_frozen c sched2 (runSched c sched) h ht
  · intro w g p hw hpc ht
    rw [step_claimed_term hw hpc ht]
    refine ⟨?_, rfl, ?_⟩
    · show Function.update (runSched c sched).pc w (Pc.atGroup (g + 1)) w = Pc.atGroup (g + 1)
      exact Function.update_same _ _ _
    · show beginUnits ((runSched c sched).log ++ [Ev.obsTerm w g p]) =
        beginUnits (runSched c sched).log
      simp [beginUnits, List.filterMap_append]
  · exact h.obsClaims
  · intro g p hobs hbeg
    have hcl := claims_count_le_one h g p
    have hc := congrArg (Multiset.count (g, p)) h.msClaim
    rw [Multiset.count_add, Multiset.count_add, Multiset.count_add,
      Multiset.coe_count, Multiset.coe_count, Multiset.coe_count, Multiset.coe_count] at hc
    rw [count_prod_eq, count_prod_eq, count_prod_eq, count_prod_eq] at hc
    have hb : 0 < (beginUnits (runSched c sched).log).count (g, p) :=
      List.count_pos_iff.mpr hbeg
    have ho : 0 < (obsTermUnits (runSched c sched).log).count (g, p) :=
      List.count_pos_iff.mpr hobs
    omega
  · intro hd
    have hms := allDone_ms h hd
    exact hms.2.1.trans (hms.2.2.1.trans hms.2.2.2.1)

/-- Witness for `workflow_softTerminate`: a run where opening the readers
of the first unit fails (setting the flag), the worker then claims the
second unit, observes the flag, and abandons it: the flag survives a longer
schedule and the abandoned unit is never begun. -/
theorem workflow_softTerminate_witness :
    (runSched ⟨1, 2, true, false, fun _ p => decide (0 < p), fun _ _ => true, 1⟩
      (List.replicate 6 0 ++ [0])).terminate = true ∧
    (0, 1) ∉ beginUnits (runSched ⟨1, 2, true, false, fun _ p => decide (0 < p),
      fun _ _ => true, 1⟩ (List.replicate 6 0)).log :=
  ⟨((workflow_softTerminate ⟨1, 2, true, false, fun _ p => decide (0 < p),
      fun _ _ => true, 1⟩ (List.replicate 6 0) [0]).1 (by decide)).1,
   (workflow_softTerminate ⟨1, 2, true, false, fun _ p => decide (0 < p),
      fun _ _ => true, 1⟩ (List.replicate 6 0) [0]).2.2.2.1 0 1 (by decide)⟩

/-! ### C5: unit-granularity failure isolation -/

/-- Claim C5: with one deterministically failing unit `(g0, p0)` (every
other unit's expensive stage succeeds, all reader opens succeed) and the
worker pool run to completion: if the failing unit was started the run ends
with the soft-terminate flag set (the overall run reports failure); every
*other* unit that was started has its item present in the aggregated
output; and every begun unit was emitted (in-flight units complete). -/
theorem workflow_failure_isolation (c : Cfg) (sched : List Nat) (g0 p0 : Nat)
    (hagg : c.aggregated = true)
    (hopen : ∀ g p, c.openOk g p = true)
    (hfail : c.unitOk g0 p0 = false)
    (hothers : ∀ g p, ¬ (g = g0 ∧ p = p0) → c.unitOk g p = true)
    (hd : allDone c (runSched c sched)) :
    ((g0, p0) ∈ beginUnits (runSched c sched).log →
      (runSched c sched).terminate = true) ∧
    (∀ g p, ¬ (g = g0 ∧ p = p0) → (g, p) ∈ beginUnits (runSched c sched).log →
      Tok.item g p ∈ output c (runSched c sched)) ∧
    ((beginUnits (runSched c sched).log : Multiset (Nat × Nat)) =
      (emitRUnits (runSched c sched).log : Multiset (Nat × Nat))) := by
  have h := inv_run c sched
  have hms := allDone_ms h hd
  refine ⟨?_, ?_, hms.2.1.trans (hms.2.2.1.trans hms.2.2.2.1)⟩
  · intro hbeg
    have hEnd : (g0, p0) ∈ endExUnits (runSched c sched).log := by
      have h1 : ((g0, p0) : Nat × Nat) ∈
          (beginUnits (runSched c sched).log : Multiset (Nat × Nat)) :=
        Multiset.mem_coe.mpr hbeg
      rw [hms.2.1, hms.2.2.1] at h1
      exact Multiset.mem_coe.mp h1
    rcases endExUnits_mem.mp hEnd with ⟨w, ok, hw⟩
    have hok : ok = false := by
      rw [h.okFaithEnd w g0 p0 ok hw]
      exact hfail
    subst hok
    exact h.termEv _ hw rfl
  · intro g p hne hbeg
    have hEmit : (g, p) ∈ emitRUnits (runSched c sched).log := by
      have h1 : ((g, p) : Nat × Nat) ∈
          (beginUnits (runSched c sched).log : Multiset (Nat × Nat)) :=
        Multiset.mem_coe.mpr hbeg
      rw [hms.2.1, hms.2.2.1, hms.2.2.2.1] at h1
      exact Multiset.mem_coe.mp h1
    have hall : ∀ w ok, Ev.emitRes w g p ok ∈ (runSched c sched).log → ok = true := by
      intro w ok hm
      rw [h.okFaithEmit w g p ok hm]
      exact hothers g p hne
    have hcnt : 0 < (runSched c sched).stream.count (Tok.item g p) := by
      rw [(h.streamAgg hagg).1, streamOf_item_count, emitsAll_count_true g p _ hall]
      exact List.count_pos_iff.mpr hEmit
    have hmem : Tok.item g p ∈ (runSched c sched).stream := List.count_pos_iff.mp hcnt
    unfold output
    exact List.mem_append.mpr (Or.inl (List.mem_append.mpr (Or.inr hmem)))

/-- Witness for `workflow_failure_isolation`: one group, two paths, the
unit `(0, 0)` fails; run to completion: the flag is set and begun units
equal emitted units. -/
theorem workflow_failure_isolation_witness :
    (runSched ⟨1, 2, true, false, fun _ _ => true, fun g p => decide (0 < g ∨ 0 < p), 1⟩
      (List.replicate 9 0)).terminate = true ∧
    ((beginUnits (runSched ⟨1, 2, true, false, fun _ _ => true,
        fun g p => decide (0 < g ∨ 0 < p), 1⟩ (List.replicate 9 0)).log :
        Multiset (Nat × Nat)) =
      (emitRUnits (runSched ⟨1, 2, true, false, fun _ _ => true,
        fun g p => decide (0 < g ∨ 0 < p), 1⟩ (List.replicate 9 0)).log :
        Multiset (Nat × Nat))) := by
  have hothers : ∀ g p : Nat, ¬ (g = 0 ∧ p = 0) →
      (⟨1, 2, true, false, fun _ _ => true,
        fun g p => decide (0 < g ∨ 0 < p), 1⟩ : Cfg).unitOk g p = true := by
    intro g p hne
    show decide (0 < g ∨ 0 < p) = true
    rcases Nat.eq_zero_or_pos g with hg | hg
    · rcases Nat.eq_zero_or_pos p with hp | hp
      · exact absurd ⟨hg, hp⟩ hne
      · simp [hp]
    · simp [hg]
  have happ := workflow_failure_isolation
    ⟨1, 2, true, false, fun _ _ => true, fun g p => decide (0 < g ∨ 0 < p), 1⟩
    (List.replicate 9 0) 0 0 rfl (fun _ _ => rfl) (by decide) hothers (by decide)
  exact ⟨happ.1 (by decide), happ.2.2⟩

/-! ### C6: claim order and exactly-once processing -/

/-- Claim C6: in a failure-free complete run with at least one worker
(`W ≤ N` as the claim assumes), for every read-source group the claimed
path indices are exactly `0, 1, …, N-1` in that order — strictly
increasing, none skipped, none reprocessed — and every unit's item appears
exactly once in the aggregated output. -/
theorem workflow_claim_order (c : Cfg) (sched : List Nat)
    (hW : 0 < c.numWorkers) (hWN : c.numWorkers ≤ c.numPaths)
    (hagg : c.aggregated = true)
    (hopen : ∀ g p, c.openOk g p = true) (hunit : ∀ g p, c.unitOk g p = true)
    (hd : allDone c (runSched c sched)) :
    (∀ g, g < c.numGroups →
        evClaims g (runSched c sched).log = List.range c.numPaths) ∧
    (∀ g p, g < c.numGroups → p < c.numPaths →
        (output c (runSched c sched)).count (Tok.item g p) = 1) := by
  have h := inv_run c sched
  have hterm : (runSched c sched).terminate = false := run_no_term c hopen hunit sched
  have hcur : ∀ g, g < c.numGroups → (runSched c sched).cursor g = c.numPaths :=
    cursor_full h hd hterm hW
  constructor
  · intro g hg
    rw [h.claimsCursor g, hcur g hg]
  · intro g p hg hp
    have hout : (output c (runSched c sched)).count (Tok.item g p)
        = (runSched c sched).stream.count (Tok.item g p) := by
      unfold output
      cases hfw : frameWritten c <;>
        simp [List.count_append, List.count_cons, List.count_nil]
    have hall : ∀ w ok, Ev.emitRes w g p ok ∈ (runSched c sched).log → ok = true := by
      intro w ok hm
      rw [h.okFaithEmit w g p ok hm]
      exact hunit g p
    rw [hout, (h.streamAgg hagg).1, streamOf_item_count, emitsAll_count_true g p _ hall]
    have hms := allDone_ms h hd
    have hOF : openFailUnits (runSched c sched).log = [] := (no_openFail_units h hopen).1
    have hOT : obsTermUnits (runSched c sched).log = [] := no_obsTerm_units h hterm
    have hclaims : (claimUnits (runSched c sched).log : Multiset (Nat × Nat)) =
        (emitRUnits (runSched c sched).log : Multiset (Nat × Nat)) := by
      rw [hms.1, hOF, hOT, hms.2.1, hms.2.2.1, hms.2.2.2.1]
      simp
    have hc := congrArg (Multiset.count (g, p)) hclaims
    rw [Multiset.coe_count, Multiset.coe_count, count_prod_eq, count_prod_eq] at hc
    rw [← hc, claimUnits_count, h.claimsCursor g, hcur g hg, count_range, if_pos hp]

/-- Witness for `workflow_claim_order`: one group, one path, one worker,
run to completion: the claim list is `[0]` and the unit's item appears
exactly once in the output. -/
theorem workflow_claim_order_witness :
    evClaims 0 (runSched ⟨1, 1, true, false, fun _ _ => true, fun _ _ => true, 1⟩
        (List.replicate 9 0)).log = List.range 1 ∧
    (output ⟨1, 1, true, false, fun _ _ => true, fun _ _ => true, 1⟩
        (runSched ⟨1, 1, true, false, fun _ _ => true, fun _ _ => true, 1⟩
          (List.replicate 9 0))).count (Tok.item 0 0) = 1 := by
  have happ := workflow_claim_order
    ⟨1, 1, true, false, fun _ _ => true, fun _ _ => true, 1⟩ (List.replicate 9 0)
    (by decide) (by decide) rfl (fun _ _ => rfl) (fun _ _ => rfl) (by decide)
  exact ⟨happ.1 0 (by decide), happ.2 0 0 (by decide) (by decide)⟩

/-! ### C8: lock discipline of the worker loop -/

/-- Claim C8 as stated is false: `makeOutputFile` is called from
`processGraph`, i.e. from inside the `unlock_guard` scope of
`Workflow::processGraphs`, so the per-unit output file is written during
the expensive stage while the lock is *released*, not after it is
re-acquired.  In the run below the single worker stands at the expensive
stage of unit `(0, 0)` with the lock free, and its next step appends the
per-unit file write to the log — contradicting the claim's requirement
that new file writes happen while the writer holds the lock. -/
theorem workflow_locking_claim_refuted : ¬ ClaimC8 := by
  intro hcl
  have h := (hcl ⟨1, 1, false, true, fun _ _ => true, fun _ _ => true, 1⟩
      [0, 0, 0] 0).2.2.2 0 0 (by decide)
  rcases h with h | h
  · exact absurd h (by decide)
  · exact absurd h (by decide)

/-- Claim C8, corrected: in every reachable state, a worker's step advances
a cursor or appends to the aggregated stream only while that worker holds
the lock, and the expensive stage runs without the lock; but the per-unit
output file is written *during* the expensive stage while the lock is
released (not after re-acquisition): any new per-unit file write happens
from the expensive control location with the writing worker not holding
the lock. -/
theorem workflow_locking_amended (c : Cfg) (sched : List Nat) (w : Nat) :
    ((step c (runSched c sched) w).cursor ≠ (runSched c sched).cursor →
      (runSched c sched).lock = some w) ∧
    ((step c (runSched c sched) w).stream ≠ (runSched c sched).stream →
      (runSched c sched).lock = some w) ∧
    (∀ g p, (runSched c sched).pc w = Pc.expensive g p →
      (runSched c sched).lock ≠ some w) ∧
    (∀ g p, Ev.fileWrite w g p ∈ (step c (runSched c sched) w).log →
      Ev.fileWrite w g p ∈ (runSched c sched).log ∨
        ((runSched c sched).pc w = Pc.expensive g p ∧
          (runSched c sched).lock ≠ some w)) := by
  have h := inv_run c sched
  obtain ⟨_, _, _, h4, h5, h6, _⟩ := step_facts c (runSched c sched) w h
  refine ⟨h4, h5, ?_, h6⟩
  intro g p hpc hl
  have hlk := (h.pcLock w hl).1
  rw [hpc] at hlk
  exact Bool.noConfusion hlk

/-- Witness for `workflow_locking_amended`: in a concrete run the new
per-unit file write indeed happens at the expensive stage with the lock
free. -/
theorem workflow_locking_amended_witness :
    Ev.fileWrite 0 0 0 ∈ (runSched ⟨1, 1, false, true, fun _ _ => true,
        fun _ _ => true, 1⟩ [0, 0, 0]).log ∨
      ((runSched ⟨1, 1, false, true, fun _ _ => true, fun _ _ => true, 1⟩
            [0, 0, 0]).pc 0 = Pc.expensive 0 0 ∧
        (runSched ⟨1, 1, false, true, fun _ _ => true, fun _ _ => true, 1⟩
            [0, 0, 0]).lock ≠ some 0) :=
  (workflow_locking_amended ⟨1, 1, false, true, fun _ _ => true, fun _ _ => true, 1⟩
    [0, 0, 0] 0).2.2.2 0 0 (by decide)

end Paragraph
